import Mathlib

/-!
# Task manager: people, tasks and subtasks

A shallow embedding of the task/subtask lifecycle of `Main.cpp`
(`addTask`, `addSubTask`, `modifyActiveTask`, `completeTask`,
`completeSubTask`, `subTaskProgress`) over the global directory `people`, of
the date validation of `utils/utils.cpp` (`validateDates`, with the `sscanf`
call it makes), of the sorting of tasks by date (`ordenarPorFecha`) and of the
menu and report code that decides which element is used (`selectTask`,
`menuInsertSubtask`, option 6 of `menuReportes`, `commonTypeTask`).

The global `PersonList people` is threaded explicitly through every operation.
A C++ `throw` is an `Outcome.threw`, which keeps the directory as it stood when
the exception left the function.  Pointers into a container (`Person*`,
`Task*`, `SubTask*`) are modelled by reading the element and writing the
modified element back at the place the pointer was obtained from.

Numbers: `int` identifiers and indices are `Int` (signed overflow of
`lastTask->id + 1` is undefined behaviour in C++ and is not modelled);
a `float` progress is modelled by the exact rational it denotes (NaN and the
infinities, which like every value other than 100 fail the only test the code
performs on a progress, `newProgress == 100`, are left out).
-/

namespace TaskManager

/-! ## Data model (Structures/*.h) -/

/-- Entry of the task type catalog; tasks refer to it through `Task::type`. -/
structure TaskType where
  name : String
  description : String
deriving DecidableEq, Repr

/-- Subtask of a task: `name`, `comments`, `progress` and the `completed` flag. -/
structure SubTask where
  name : String
  comments : String
  progress : Rat
  completed : Bool
deriving DecidableEq, Repr

/-- The fields of `struct tm` that the program reads or writes. -/
structure Tm where
  tm_sec : Int
  tm_min : Int
  tm_hour : Int
  tm_mday : Int
  tm_mon : Int
  tm_year : Int
  tm_yday : Int
deriving DecidableEq, Repr

/-- Task of a person; `type` is the catalog entry `task->type` points to. -/
structure Task where
  id : Int
  description : String
  importance : String
  date : Tm
  type : TaskType
  subTasks : List SubTask
deriving DecidableEq, Repr

/-- Person of the directory with the two task containers it owns. -/
structure Person where
  id : Int
  name : String
  lastname : String
  age : Int
  activeTasks : List Task
  completedTasks : List Task
deriving DecidableEq, Repr

/-- The global directory `people`. -/
abbrev PersonList := List Person

/-- Elements of a container that carry the integer field `id`. -/
class HasId (α : Type) where
  id : α → Int

instance : HasId Task := ⟨Task.id⟩

instance : HasId Person := ⟨Person.id⟩

/-! ## The generic container `List<T>` (Lists/List.h) -/

namespace Container

/-- Modelled from the spec: `List<T>::insertLast` (Lists/List.h is not among the
sources) appends the item at the end of the container. -/
def insertLast {α : Type} (l : List α) (item : α) : List α :=
  l ++ [item]

/-- Modelled from the spec: `List<T>::getLength` (Lists/List.h is not among the
sources) is the number of live elements. -/
def getLength {α : Type} (l : List α) : Int :=
  (l.length : Int)

/-- Modelled from the spec: `List<T>::get` (Lists/List.h is not among the
sources): an index `≥ 0` counts from the front, `-1` is the last element, any
other negative index is invalid; `none` ("not found") when the container is
empty or the index is out of bounds. -/
def get {α : Type} (l : List α) (index : Int) : Option α :=
  if index = -1 then l.getLast?
  else if index < 0 then none
  else l[index.toNat]?

/-- Modelled from the spec: `List<T>::findById` (Lists/List.h is not among the
sources): linear scan for the first element with the given id, `none` if
absent. -/
def findById {α : Type} [HasId α] (l : List α) (id : Int) : Option α :=
  l.find? (fun x => decide (HasId.id x = id))

/-- Modelled from the spec: `List<T>::removeById` (Lists/List.h is not among
the sources): linear scan, unlinks the first matching element and returns it
together with the remaining container; `none` ("not found", container
unchanged) if absent. -/
def removeById {α : Type} [HasId α] : List α → Int → Option (α × List α)
  | [], _ => none
  | x :: xs, id =>
    if HasId.id x = id then some (x, xs)
    else
      match removeById xs id with
      | none => none
      | some (y, rest) => some (y, x :: rest)

/-- Write through the pointer returned by `get(index)`: the element at that
position is replaced, every other position is kept. -/
def setAt {α : Type} (l : List α) (index : Int) (item : α) : List α :=
  if index = -1 then l.set (l.length - 1) item
  else if index < 0 then l
  else l.set index.toNat item

/-- Write through the pointer returned by `findById(id)`: the first element
with that id is replaced, every other position is kept. -/
def store {α : Type} [HasId α] : List α → Int → α → List α
  | [], _, _ => []
  | x :: xs, id, item =>
    if HasId.id x = id then item :: xs else x :: store xs id item

end Container

open Container

/-- Modelled from the spec: `PersonList::insert` (Lists/PersonList.h is not
among the sources) constructs a person with two freshly empty task containers
and adds it to the directory. -/
def PersonList.insert (people : PersonList) (id : Int) (name lastname : String)
    (age : Int) : PersonList :=
  insertLast people
    { id := id, name := name, lastname := lastname, age := age,
      activeTasks := [], completedTasks := [] }

/-! ## Lifecycle operations (Main.cpp) -/

/-- Result of a `void` operation on the global directory: a normal return or a
thrown `runtime_error` with its message, each with the directory it leaves. -/
inductive Outcome where
  | ok (people : PersonList)
  | threw (what : String) (people : PersonList)
deriving DecidableEq, Repr

/-- Directory left behind by an operation, thrown or not. -/
def Outcome.people : Outcome → PersonList
  | .ok people => people
  | .threw _ people => people

/-- The values an `int` of the program holds: `INT_MIN` to `INT_MAX` (32 bits). -/
@[reducible] def FitsInt (value : Int) : Prop :=
  -2147483648 ≤ value ∧ value ≤ 2147483647

/-- Embedding of `addTask` (Main.cpp 35-53).  The sum `lastTask->id + 1` is
taken in `Int`: it is the value the `int` addition of the code yields as long
as it fits an `int` (`FitsInt`), that is for a last id below `INT_MAX`; what
the code does beyond that is outside this definition. -/
def addTask (people : PersonList) (personId : Int) (task : Task)
    (completed : Bool) : Outcome :=
  match findById people personId with
  | none => .threw "Persona no encontrada" people
  | some person =>
    if completed then
      let task : Task :=
        match get person.completedTasks (-1) with
        | some lastTask => { task with id := lastTask.id + 1 }
        | none => { task with id := 1 }
      .ok (store people personId
        { person with completedTasks := insertLast person.completedTasks task })
    else
      let task : Task :=
        match get person.activeTasks (-1) with
        | some lastTask => { task with id := lastTask.id + 1 }
        | none => { task with id := 1 }
      .ok (store people personId
        { person with activeTasks := insertLast person.activeTasks task })

/-- Embedding of `addSubTask` (Main.cpp 67-78); `delete subTask` leaves the
directory as it is. -/
def addSubTask (people : PersonList) (personId taskIndex : Int)
    (subTask : SubTask) : Outcome :=
  match findById people personId with
  | none => .threw "Persona no encontrada" people
  | some person =>
    match get person.activeTasks taskIndex with
    | none => .threw "Tarea no encontrada" people
    | some task =>
      if task.type.name = "Estudio" then
        .ok (store people personId
          { person with
            activeTasks := setAt person.activeTasks taskIndex
              { task with subTasks := insertLast task.subTasks subTask } })
      else
        .ok people

/-- Embedding of `completeTask` (Main.cpp 112-119). -/
def completeTask (people : PersonList) (personId taskId : Int) : Outcome :=
  match findById people personId with
  | none => .threw "Persona no encontrada" people
  | some person =>
    match removeById person.activeTasks taskId with
    | none => .threw "Tarea no encontrada" people
    | some (task, rest) =>
      .ok (store people personId
        { person with
          activeTasks := rest,
          completedTasks := insertLast person.completedTasks task })

/-- Embedding of `completeSubTask` (Main.cpp 132-143). -/
def completeSubTask (people : PersonList) (personId taskId subTaskIndex : Int) :
    Outcome :=
  match findById people personId with
  | none => .threw "Persona no encontrada" people
  | some person =>
    match findById person.activeTasks taskId with
    | none => .threw "Tarea no encontrada" people
    | some task =>
      match get task.subTasks subTaskIndex with
      | none => .threw "Subtarea no encontrada" people
      | some subTask =>
        let subTask : SubTask := { subTask with completed := true, progress := 100 }
        .ok (store people personId
          { person with
            activeTasks := store person.activeTasks taskId
              { task with subTasks := setAt task.subTasks subTaskIndex subTask } })

/-- The `for` loop of `subTaskProgress` (Main.cpp 172-174) with `remaining`
iterations left: `true` when an iteration executes `return`.  Every iteration
tests the flag of the subtask that was just updated. -/
def loopReturns (subTask : SubTask) : Nat → Bool
  | 0 => false
  | remaining + 1 =>
    if !subTask.completed then true else loopReturns subTask remaining

/-- Embedding of `subTaskProgress` (Main.cpp 159-176). -/
def subTaskProgress (people : PersonList) (personId taskId subTaskIndex : Int)
    (newProgress : Rat) : Outcome :=
  match findById people personId with
  | none => .threw "Persona no encontrada" people
  | some person =>
    match findById person.activeTasks taskId with
    | none => .threw "Tarea no encontrada" people
    | some task =>
      match get task.subTasks subTaskIndex with
      | none => .threw "Subtarea no encontrada" people
      | some subTask =>
        let subTask : SubTask :=
          { subTask with progress := newProgress, completed := decide (newProgress = 100) }
        let task : Task :=
          { task with subTasks := setAt task.subTasks subTaskIndex subTask }
        let people : PersonList :=
          store people personId
            { person with activeTasks := store person.activeTasks taskId task }
        if loopReturns subTask (getLength task.subTasks).toNat then .ok people
        else completeTask people personId task.id

/-- Modelled from the spec: `Task::setDate` and `Task::setTime` (Structures/Task.h
is not among the sources) rewrite the schedule of a task from a text.  Each is
given by the `struct tm` it leaves in `task->date` and by the message of the
exception it throws, if any. -/
structure Schedule where
  setDate : Tm → String → Tm × Option String
  setTime : Tm → String → Tm × Option String

/-- Embedding of `modifyActiveTask` (Main.cpp 92-100). -/
def modifyActiveTask (schedule : Schedule) (people : PersonList)
    (personId taskIndex : Int) (newDate newTime : String) : Outcome :=
  match findById people personId with
  | none => .threw "Persona no encontrada" people
  | some person =>
    match get person.activeTasks taskIndex with
    | none => .threw "Tarea no encontrada" people
    | some task =>
      let dated := schedule.setDate task.date newDate
      let people1 : PersonList :=
        store people personId
          { person with
            activeTasks := setAt person.activeTasks taskIndex { task with date := dated.1 } }
      match dated.2 with
      | some what => .threw what people1
      | none =>
        let timed := schedule.setTime dated.1 newTime
        let people2 : PersonList :=
          store people personId
            { person with
              activeTasks := setAt person.activeTasks taskIndex { task with date := timed.1 } }
        match timed.2 with
        | some what => .threw what people2
        | none => .ok people2

/-- One call made by the menus or by `cargarDatos` on the directory.  A task
handed to `addTask` is always a fresh `new Task(...)`; it is given by the
arguments of the constructor. -/
inductive Op where
  | insertPerson (id : Int) (name lastname : String) (age : Int)
  | addTask (personId : Int) (description importance : String) (date : Tm)
      (type : TaskType) (completed : Bool)
  | addSubTask (personId taskIndex : Int) (subTask : SubTask)
  | modifyActiveTask (personId taskIndex : Int) (newDate newTime : String)
  | completeTask (personId taskId : Int)
  | completeSubTask (personId taskId subTaskIndex : Int)
  | subTaskProgress (personId taskId subTaskIndex : Int) (newProgress : Rat)

/-- Modelled from the spec: the constructor `Task(description, importance, date,
time, type)` (Structures/Task.h is not among the sources) builds a task with an
empty subtask container; its id is assigned by `addTask` before the task enters
a container, so the value it has before that is immaterial (0 here). -/
def newTask (description importance : String) (date : Tm) (type : TaskType) : Task :=
  { id := 0, description := description, importance := importance, date := date,
    type := type, subTasks := [] }

/-- Directory after one call; an exception is caught by the caller and the
directory stays as the throwing operation left it. -/
def step (schedule : Schedule) (people : PersonList) : Op → PersonList
  | .insertPerson id name lastname age => PersonList.insert people id name lastname age
  | .addTask personId description importance date type completed =>
    (addTask people personId (newTask description importance date type) completed).people
  | .addSubTask personId taskIndex subTask =>
    (addSubTask people personId taskIndex subTask).people
  | .modifyActiveTask personId taskIndex newDate newTime =>
    (modifyActiveTask schedule people personId taskIndex newDate newTime).people
  | .completeTask personId taskId => (completeTask people personId taskId).people
  | .completeSubTask personId taskId subTaskIndex =>
    (completeSubTask people personId taskId subTaskIndex).people
  | .subTaskProgress personId taskId subTaskIndex newProgress =>
    (subTaskProgress people personId taskId subTaskIndex newProgress).people

/-- Directory reached from `people` by a sequence of calls. -/
def run (schedule : Schedule) (people : PersonList) (ops : List Op) : PersonList :=
  ops.foldl (step schedule) people

/-- A task respects the study-type rule: it has no subtask unless its type is
"Estudio". -/
def Task.subTasksAllowed (task : Task) : Prop :=
  task.type.name ≠ "Estudio" → task.subTasks.length = 0

/-- Every task of every person, active or completed, respects the study-type rule. -/
def StudyOnly (people : PersonList) : Prop :=
  ∀ person ∈ people, ∀ task ∈ person.activeTasks ++ person.completedTasks,
    task.subTasksAllowed

/-- Calls `addTask(personId, task)` for the tasks of a list one after the other,
as `cargarDatos` does for the active tasks of a person; the directory after
the last call. -/
def addTasks (people : PersonList) (personId : Int) : List Task → PersonList
  | [] => people
  | task :: rest => addTasks (addTask people personId task false).people personId rest

/-! ## Date validation (utils/utils.cpp) -/

/-- The test `isspace` of the C library in the "C" locale: the space and the
control characters 9 to 13. -/
def isspace (c : Char) : Bool :=
  c.toNat = 32 || (9 ≤ c.toNat && c.toNat ≤ 13)

/-- The test `isdigit` of the C library: the characters 0 to 9. -/
def isdigit (c : Char) : Bool :=
  48 ≤ c.toNat && c.toNat ≤ 57

/-- Reads the decimal digits at the front of the input on top of the value
`acc` read so far; the value and the input left.  The value is the number the
digits denote, in `Int`: it is the value `%d` stores into an `int` as long as
that number fits an `int` (`FitsInt`); what is stored for a longer run of
digits is outside this definition. -/
def scanDigits : List Char → Int → Int × List Char
  | [], acc => (acc, [])
  | c :: cs, acc =>
    if isdigit c then scanDigits cs (acc * 10 + ((c.toNat : Int) - 48)) else (acc, c :: cs)

/-- The conversion `%d` of `sscanf`: white space is skipped, then an optional
sign and at least one decimal digit are read; `none` when there is no number.
The value is not reduced to the range of `int` (a number that does not fit is
undefined behaviour in C). -/
def scanInt (input : List Char) : Option (Int × List Char) :=
  match input.dropWhile isspace with
  | [] => none
  | c :: cs =>
    if c = '-' then
      match cs with
      | [] => none
      | d :: _ => if isdigit d then some (-(scanDigits cs 0).1, (scanDigits cs 0).2) else none
    else if c = '+' then
      match cs with
      | [] => none
      | d :: _ => if isdigit d then some ((scanDigits cs 0).1, (scanDigits cs 0).2) else none
    else if isdigit c then some ((scanDigits (c :: cs) 0).1, (scanDigits (c :: cs) 0).2)
    else none

/-- What a call `sscanf(text, "%d" sep "%d" sep "%d", &first, &second, &third)`
leaves: its return value and the three variables. -/
structure Scanned where
  count : Int
  first : Int
  second : Int
  third : Int
deriving DecidableEq, Repr

/-- The call `sscanf(input, "%d-%d-%d", &first, &second, &third)` of the C
library, for the separator `-` (or another one): conversions stop at the first
failure, a variable that is not converted keeps its value, characters behind
the third number are not looked at.  The return value is the number of
conversions, or `EOF` (-1) when the input ends before the first one.  The
three variables are `int`s: the values given here are those of the code for
numbers that fit an `int` (`FitsInt`), and only for those. -/
def sscanf (separator : Char) (input : List Char) (first second third : Int) : Scanned :=
  match scanInt input with
  | none => ⟨if input.dropWhile isspace = [] then -1 else 0, first, second, third⟩
  | some (a, rest1) =>
    match rest1 with
    | [] => ⟨1, a, second, third⟩
    | c1 :: rest1 =>
      if c1 = separator then
        match scanInt rest1 with
        | none => ⟨1, a, second, third⟩
        | some (b, rest2) =>
          match rest2 with
          | [] => ⟨2, a, b, third⟩
          | c2 :: rest2 =>
            if c2 = separator then
              match scanInt rest2 with
              | none => ⟨2, a, b, third⟩
              | some (c, _) => ⟨3, a, b, c⟩
            else ⟨2, a, b, third⟩
      else ⟨1, a, second, third⟩

/-- The characters `dateStr.c_str()` hands to the C library: those before the
first NUL. -/
def c_str (text : String) : List Char :=
  text.toList.takeWhile (fun c => c.toNat ≠ 0)

/-- What `validateDates` returns and leaves in its reference parameters. -/
structure DateCheck where
  valid : Bool
  day : Int
  month : Int
  year : Int
deriving DecidableEq, Repr

/-- Embedding of `validateDates` (utils/utils.cpp 146-173); `day`, `month` and
`year` are the values of the reference parameters at the call.  The `%` of C
on `int` is `Int.tmod`. -/
def validateDates (day month year : Int) (dateStr : String) : DateCheck :=
  let scanned := sscanf '-' (c_str dateStr) day month year
  let day := scanned.first
  let month := scanned.second
  let year := scanned.third
  if scanned.count ≠ 3 then ⟨false, day, month, year⟩
  else if month < 1 ∨ month > 12 then ⟨false, day, month, year⟩
  else
    let maxDaysInMonth : Int :=
      if month = 4 ∨ month = 6 ∨ month = 9 ∨ month = 11 then 30
      else if month = 2 then
        if (year.tmod 4 = 0 ∧ year.tmod 100 ≠ 0) ∨ year.tmod 400 = 0 then 29 else 28
      else 31
    if day < 1 ∨ day > maxDaysInMonth then ⟨false, day, month, year⟩
    else ⟨true, day, month, year⟩

/-- Length of a month in the words of the specification: 30 for the months 4,
6, 9 and 11; for February 29 when the year is divisible by 4 and not by 100, or
divisible by 400, and 28 otherwise; 31 for the other months. -/
def monthLength (month year : Int) : Int :=
  if month = 4 ∨ month = 6 ∨ month = 9 ∨ month = 11 then 30
  else if month = 2 then
    if (4 ∣ year ∧ ¬ 100 ∣ year) ∨ 400 ∣ year then 29 else 28
  else 31

/-- An integer token as `%d` reads it: optional white space, an optional sign
and at least one decimal digit. -/
def IsIntToken (token : List Char) : Prop :=
  ∃ blanks sign digits, token = blanks ++ sign ++ digits ∧
    (∀ c ∈ blanks, isspace c = true) ∧ (sign = [] ∨ sign = ['-'] ∨ sign = ['+']) ∧
    digits ≠ [] ∧ ∀ c ∈ digits, isdigit c = true

/-- The text begins with three integer tokens separated by `-`. -/
def StartsWithThreeTokens (text : List Char) : Prop :=
  ∃ token1 token2 token3 rest,
    text = token1 ++ '-' :: (token2 ++ '-' :: (token3 ++ rest)) ∧
    IsIntToken token1 ∧ IsIntToken token2 ∧ IsIntToken token3

/-- Every subtask of the task has a progress in the closed interval [0, 100]. -/
def Task.progressInRange (task : Task) : Prop :=
  ∀ subTask ∈ task.subTasks, 0 ≤ subTask.progress ∧ subTask.progress ≤ 100

/-- Every subtask of every task of every person has a progress in [0, 100]. -/
def ProgressInRange (people : PersonList) : Prop :=
  ∀ person ∈ people, ∀ task ∈ person.activeTasks ++ person.completedTasks,
    task.progressInRange

/-- The call hands over no progress outside [0, 100]: the subtask given to
`addSubTask` and the new progress given to `subTaskProgress` are in range. -/
def Op.progressInRange : Op → Prop
  | .addSubTask _ _ subTask => 0 ≤ subTask.progress ∧ subTask.progress ≤ 100
  | .subTaskProgress _ _ _ newProgress => 0 ≤ newProgress ∧ newProgress ≤ 100
  | _ => True

/-! ## Sorting the active tasks by date (Main.cpp) -/

/-- The test of `ordenarPorFecha` (Main.cpp 1298-1300) on a task and the task
behind it: the first one is due later, by year and then by day of the year. -/
def dueAfter (a b : Task) : Bool :=
  decide (a.date.tm_year > b.date.tm_year) ||
    (decide (a.date.tm_year = b.date.tm_year) && decide (a.date.tm_yday > b.date.tm_yday))

/-- The inner `while` of `ordenarPorFecha` (Main.cpp 1296-1318) from the node
`tempTareaActiva` on, `behind` being the nodes linked behind it: the nodes as
they are linked from there when the loop ends, and whether `cambios` was set.
After a swap the same node is compared with its new successor. -/
def pasada (tempTareaActiva : Task) : List Task → List Task × Bool
  | [] => ([tempTareaActiva], false)
  | siguiente :: behind =>
    if dueAfter tempTareaActiva siguiente then
      (siguiente :: (pasada tempTareaActiva behind).1, true)
    else
      (tempTareaActiva :: (pasada siguiente behind).1, (pasada siguiente behind).2)

/-- How a call of `ordenarPorFecha` ends: it returns a list, it reads `next`
through a null `head`, or the bound on the passes of the model is used up. -/
inductive Sorting where
  | returned (tasks : List Task)
  | nullDereference
  | outOfFuel
deriving DecidableEq, Repr

/-- The outer loop `while (cambios)` of `ordenarPorFecha` (Main.cpp 1292-1319),
with at most `fuel` passes. -/
def ordenarLoop : Nat → List Task → Sorting
  | 0, _ => .outOfFuel
  | _ + 1, [] => .nullDereference
  | fuel + 1, head :: behind =>
    if (pasada head behind).2 then ordenarLoop fuel (pasada head behind).1
    else .returned (pasada head behind).1

/-- Embedding of `ordenarPorFecha` (Main.cpp 1286-1321) with at most `fuel`
passes of the outer loop.  The first statement reads `head->next`. -/
def ordenarPorFecha (fuel : Nat) (lPTareasActivas : List Task) : Sorting :=
  match lPTareasActivas with
  | [] => .nullDereference
  | [only] => .returned [only]
  | head :: next :: behind => ordenarLoop fuel (head :: next :: behind)

/-- Number of pairs of tasks of the list that stand in the wrong order. -/
def inversions : List Task → Nat
  | [] => 0
  | a :: rest => rest.countP (dueAfter a) + inversions rest

/-! ## Menus and reports (Main.cpp) -/

/-- Modelled from the spec: `TaskTypeList::get` (Lists/TaskTypeList.h is not among
the sources) is cyclic: an index outside `[0, length)` is taken modulo the
length instead of being "not found"; only the empty catalog has no element. -/
def TaskTypeList.get (taskTypes : List TaskType) (index : Int) : Option TaskType :=
  match taskTypes with
  | [] => none
  | _ :: _ => taskTypes[(index % (taskTypes.length : Int)).toNat]?

/-- The key that an iteration of the loop of `selectTask` finds pressed. -/
inductive Key where
  | escape
  | down
  | up
  | space
  | none
deriving DecidableEq, Repr

/-- The index `opt` of `selectTask` (Main.cpp 757-770) after an iteration in
which DOWN, UP or no key is pressed: the step, then the two wrap tests against
`taskTypes.getLength()`. -/
def selectTaskStep (length : Int) (opt : Int) (key : Key) : Int :=
  let moved : Int :=
    match key with
    | .down => opt + 1
    | .up => opt - 1
    | _ => opt
  if moved < 0 then length else if moved > length then 0 else moved

/-- How `selectTask` stands after the keys polled so far: it has returned a
text, it still waits with an index, or it has read `name` through a null
pointer. -/
inductive Selection where
  | returned (text : String)
  | waiting (opt : Int)
  | nullDereference
deriving DecidableEq, Repr

/-- The loop `while (!selection)` of `selectTask` (Main.cpp 748-773) over the
keys found pressed in its iterations. -/
def selectTaskLoop (taskTypes : List TaskType) : Int → List Key → Selection
  | opt, [] => .waiting opt
  | opt, key :: keys =>
    match TaskTypeList.get taskTypes opt with
    | none => .nullDereference
    | some shown =>
      match key with
      | .escape => .returned "empty"
      | .space => .returned shown.name
      | _ => selectTaskLoop taskTypes (selectTaskStep (getLength taskTypes) opt key) keys

/-- Embedding of `selectTask` (Main.cpp 739-775). -/
def selectTask (taskTypes : List TaskType) (opt : Int) (keys : List Key) : Selection :=
  if getLength taskTypes = 0 then .returned "empty"
  else selectTaskLoop taskTypes opt keys

/-- Modelled from the spec: `List<T>::filter` (Lists/List.h is not among the
sources): the elements that satisfy the predicate, in their original order. -/
def Container.filter {α : Type} (l : List α) (predicate : α → Bool) : List α :=
  l.filter predicate

/-- Modelled from the spec: `PersonList::getById` (Lists/PersonList.h is not
among the sources): the person with the id, or "not found". -/
def PersonList.getById (people : PersonList) (id : Int) : Option Person :=
  findById people id

/-- Embedding of `menuInsertSubtask` (Main.cpp 551-586) on the answers typed at
its prompts: the person id, the index chosen in the displayed list of study
tasks, and the subtask built from name, comments and progress.  `none` is the
read through the null pointer that `getById` returns for an unknown id; an
exception of `addSubTask` is not caught. -/
def menuInsertSubtask (people : PersonList) (personId taskIndex : Int)
    (subTask : SubTask) : Option Outcome :=
  if getLength people ≤ 0 then some (.ok people)
  else
    match PersonList.getById people personId with
    | none => none
    | some person =>
      let studyTasks := Container.filter person.activeTasks
        (fun task => decide (task.type.name = "Estudio"))
      if getLength studyTasks ≤ 0 then some (.ok people)
      else some (addSubTask people personId taskIndex subTask)

/-- What option 6 of `menuReportes` does after the person has been found. -/
inductive Reporte where
  | sinTareas
  | noEstaDentro
  | subTareasDe (task : Task)
  | nullDereference
deriving DecidableEq, Repr

/-- Embedding of option 6 of `menuReportes` (Main.cpp 1487-1530) for the person
`actual` and the id typed at the prompt.  `subTareasDe task` is the task whose
subtask container is read and listed (Main.cpp 1516-1530).  The `break` of the
search loop (Main.cpp 1501) is not under the `if`, so the loop body runs at
most once.  `nullDereference` is a read of `id` through a null `head`. -/
def menuReportesOpcion6 (actual : Person) (tareaABuscar : Int) : Reporte :=
  match actual.activeTasks, actual.completedTasks with
  | [], [] => .sinTareas
  | [], _ :: _ => .nullDereference
  | head :: behind, completed =>
    if head.id ≠ tareaABuscar then
      match behind with
      | [] =>
        match completed with
        | [] => .nullDereference
        | _ :: _ => .noEstaDentro
      | next :: _ => .subTareasDe next
    else .subTareasDe head

/-- The loop `for (j = 0; j < taskTypeNum; j++)` of `commonTypeTask` (Main.cpp
843-848) over the entries `(taskTypeNames[j], taskTypeCounts[j])`: the entries
with the count of the first one that carries the name incremented, or `none`
when the loop ends with `j == taskTypeNum`. -/
def buscarYContar (taskTypeName : String) : List (String × Int) → Option (List (String × Int))
  | [] => none
  | (name, count) :: rest =>
    if name = taskTypeName then some ((name, count + 1) :: rest)
    else
      match buscarYContar taskTypeName rest with
      | none => none
      | some counted => some ((name, count) :: counted)

/-- The body of the loop over the tasks in `commonTypeTask` (Main.cpp 841-857)
for one type name, with the array bound `MAX_TASK_TYPES`: the entries
afterwards, or `none` when the function prints its error and returns. -/
def registrarTipo (MAX_TASK_TYPES : Nat) (tabla : List (String × Int))
    (taskTypeName : String) : Option (List (String × Int)) :=
  match buscarYContar taskTypeName tabla with
  | some counted => some counted
  | none =>
    if tabla.length ≥ MAX_TASK_TYPES then none
    else some (tabla ++ [(taskTypeName, 1)])

/-- The loop over the active tasks of one person (Main.cpp 840-858). -/
def contarTareas (MAX_TASK_TYPES : Nat) :
    List (String × Int) → List Task → Option (List (String × Int))
  | tabla, [] => some tabla
  | tabla, task :: rest =>
    match registrarTipo MAX_TASK_TYPES tabla task.type.name with
    | none => none
    | some counted => contarTareas MAX_TASK_TYPES counted rest

/-- The loop over the persons of the directory (Main.cpp 838-860). -/
def contarPersonas (MAX_TASK_TYPES : Nat) :
    List (String × Int) → PersonList → Option (List (String × Int))
  | tabla, [] => some tabla
  | tabla, person :: rest =>
    match contarTareas MAX_TASK_TYPES tabla person.activeTasks with
    | none => none
    | some counted => contarPersonas MAX_TASK_TYPES counted rest

/-- What `commonTypeTask` prints. -/
inductive Informe where
  | demasiadosTipos
  | masComunes (maxCount : Int) (taskTypes : List String)
  | noHayTareasActivas
deriving DecidableEq, Repr

/-- The loop that finds `maxCount` (Main.cpp 862-867). -/
def maxCount (tabla : List (String × Int)) : Int :=
  tabla.foldl (fun m entry => if entry.2 > m then entry.2 else m) 0

/-- Embedding of `commonTypeTask` (Main.cpp 829-883). -/
def commonTypeTask (people : PersonList) : Informe :=
  match contarPersonas 100 [] people with
  | none => .demasiadosTipos
  | some tabla =>
    if tabla.length > 0 then
      .masComunes (maxCount tabla)
        ((tabla.filter (fun entry => decide (entry.2 = maxCount tabla))).map Prod.fst)
    else .noHayTareasActivas

/-- The type names of all active tasks of the directory, person by person. -/
def activeTypeNames : PersonList → List String
  | [] => []
  | person :: rest => person.activeTasks.map (fun task => task.type.name) ++ activeTypeNames rest

/-- The entries tally the names read so far: every name read has exactly one
entry, and the count of an entry is the number of times its name was read. -/
def Tallied (tabla : List (String × Int)) (done : List String) : Prop :=
  (tabla.map Prod.fst).Nodup ∧
  (∀ entry ∈ tabla, entry.1 ∈ done ∧ entry.2 = (done.count entry.1 : Int)) ∧
  (∀ name ∈ done, name ∈ tabla.map Prod.fst)

/-- The directory keeps its persons in their order: position by position the
person of the second directory has the id, name, last name and age of the
person of the first one, and is that very person, containers included, unless
it carries the id `personId`. -/
def OthersUntouched (personId : Int) (people people' : PersonList) : Prop :=
  List.Forall₂
    (fun q q' =>
      q'.id = q.id ∧ q'.name = q.name ∧ q'.lastname = q.lastname ∧ q'.age = q.age ∧
        (q.id ≠ personId → q' = q))
    people people'

/-- What `addTask` may do to a person: the container that is not the target is
kept, and the target container is kept as the front of the new one. -/
def TargetOnlyGrows (completed : Bool) (people people' : PersonList) : Prop :=
  List.Forall₂
    (fun q q' =>
      if completed then
        q'.activeTasks = q.activeTasks ∧ q.completedTasks <+: q'.completedTasks
      else
        q'.completedTasks = q.completedTasks ∧ q.activeTasks <+: q'.activeTasks)
    people people'

/-- An index that addresses no element of the container: neither a position
`0 ≤ index < length` nor `-1` on a non-empty container. -/
def Container.OutOfRange {α : Type} (l : List α) (index : Int) : Prop :=
  ¬ (0 ≤ index ∧ index < (l.length : Int)) ∧ ¬ (index = -1 ∧ l ≠ [])

/-- Position by position, a person of the first directory is still the person
at that position of the second one (same id), and the completed container it
had is a prefix of the completed container it has there; the second directory
may hold further persons at its end. -/
def CompletedOnlyGrows : PersonList → PersonList → Prop
  | [], _ => True
  | _ :: _, [] => False
  | person :: rest, person' :: rest' =>
    person.id = person'.id ∧ person.completedTasks <+: person'.completedTasks ∧
      CompletedOnlyGrows rest rest'

/-- The fields of a task that no operation writes once the task is in a
container: id, description, importance and type (`date` and `subTasks` are
rewritten in place by `modifyActiveTask`, `addSubTask`, `completeSubTask` and
`subTaskProgress`). -/
def Task.key (task : Task) : Int × String × String × TaskType :=
  (task.id, task.description, task.importance, task.type)

/-- What an operation other than `addTask` may do to one person.  The person
keeps its id; the completed container grows at its end by the tasks `moved`;
the tasks still active are tasks that were active, in their order; and the
tasks that were active are, one for one, the tasks still active and the tasks
`moved`: a task that was active is afterwards in exactly one of the two
containers, and no task has entered the active container. -/
def Person.Moved (person person' : Person) : Prop :=
  person.id = person'.id ∧
  ∃ moved : List Task,
    person'.completedTasks = person.completedTasks ++ moved ∧
    (person'.activeTasks.map Task.key).Sublist (person.activeTasks.map Task.key) ∧
    List.Perm (person.activeTasks.map Task.key)
      ((person'.activeTasks ++ moved).map Task.key)

/-- Position by position, the persons of the second directory are the persons
of the first one after tasks have moved from active to completed, and in no
other way (`Person.Moved`). -/
def NoWayBack (people people' : PersonList) : Prop :=
  List.Forall₂ Person.Moved people people'

/-- The call is an `addTask` that hands a task with this description to an
active container. -/
def Op.addsActive (description : String) : Op → Prop
  | .addTask _ given _ _ _ completed => given = description ∧ completed = false
  | _ => False

instance Op.decidableAddsActive (description : String) :
    (op : Op) → Decidable (Op.addsActive description op)
  | .addTask _ given _ _ _ completed =>
    inferInstanceAs (Decidable (given = description ∧ completed = false))
  | .insertPerson _ _ _ _ => inferInstanceAs (Decidable False)
  | .addSubTask _ _ _ => inferInstanceAs (Decidable False)
  | .modifyActiveTask _ _ _ _ => inferInstanceAs (Decidable False)
  | .completeTask _ _ => inferInstanceAs (Decidable False)
  | .completeSubTask _ _ _ => inferInstanceAs (Decidable False)
  | .subTaskProgress _ _ _ _ => inferInstanceAs (Decidable False)

/-- No active task of the directory carries the description. -/
def ActiveFree (description : String) (people : PersonList) : Prop :=
  ∀ person ∈ people, ∀ task ∈ person.activeTasks, task.description ≠ description

/-- The ids of the active tasks of every person increase strictly from the
front of the container to its back. -/
def ActiveIdsIncreasing (people : PersonList) : Prop :=
  ∀ person ∈ people, (person.activeTasks.map Task.id).Pairwise (fun a b => a < b)

/-! ## Example data -/

/-- A date used by the examples (1 September 2024, 12:00:00). -/
def exDate : Tm := ⟨0, 0, 12, 1, 8, 124, 244⟩

/-- The study type of the catalog. -/
def exEstudio : TaskType := ⟨"Estudio", "Tareas y examenes"⟩

/-- A type of the catalog other than the study type. -/
def exHogar : TaskType := ⟨"Hogar", "Tareas de la casa"⟩

/-- Three active tasks with ids 1, 2, 3. -/
def exTasks : List Task :=
  [⟨1, "Examenes", "Medio", exDate, exEstudio, []⟩,
   ⟨2, "Barrer", "Bajo", exDate, exHogar, []⟩,
   ⟨3, "Proyecto", "Alto", exDate, exEstudio, []⟩]

/-- A person holding `exTasks` as active tasks and nothing completed. -/
def exAna : Person := ⟨7, "Ana", "Lopez", 22, exTasks, []⟩

/-- A study task with two subtasks, both at progress 50 and not completed. -/
def exStudy : Task :=
  ⟨1, "Examenes", "Medio", exDate, exEstudio,
    [⟨"Calculo", "Estudiar", 50, false⟩, ⟨"Fisica", "Revisar", 50, false⟩]⟩

/-- A study task whose first subtask is completed (progress 100) and whose second
one is not, as `completeSubTask` leaves it. -/
def exHalfDone : Task :=
  ⟨1, "Examenes", "Medio", exDate, exEstudio,
    [⟨"Calculo", "Estudiar", 100, true⟩, ⟨"Fisica", "Revisar", 50, false⟩]⟩

/-- A person whose only active task is `exHalfDone`. -/
def exCarlos : Person := ⟨9, "Carlos", "Lopez", 30, [exHalfDone], []⟩

/-- A person whose only active task is `exStudy`. -/
def exBea : Person := ⟨8, "Bea", "Mora", 30, [exStudy], []⟩

/-- A schedule that accepts every text and leaves the date as it is. -/
def exSchedule : Schedule := ⟨fun d _ => (d, none), fun d _ => (d, none)⟩

/-- A person is registered, gets an active task (id 1) and completes it, then
gets another active task (id 1 again) and completes it too. -/
def exReuse : List Op :=
  [.insertPerson 1 "Ana" "Lopez" 22,
   .addTask 1 "Leer" "Bajo" exDate exEstudio false,
   .completeTask 1 1,
   .addTask 1 "Barrer" "Bajo" exDate exHogar false,
   .completeTask 1 1]

/-- Three tasks due on day 300 of 2024, day 10 of 2025 and day 20 of 2024. -/
def exUnsorted : List Task :=
  [⟨1, "Examenes", "Medio", ⟨0, 0, 12, 27, 9, 124, 300⟩, exEstudio, []⟩,
   ⟨2, "Barrer", "Bajo", ⟨0, 0, 8, 11, 0, 125, 10⟩, exHogar, []⟩,
   ⟨3, "Proyecto", "Alto", ⟨0, 0, 14, 21, 0, 124, 20⟩, exEstudio, []⟩]

/-- A person is registered, gets a study task and a subtask at progress 50. -/
def exStart : List Op :=
  [.insertPerson 8 "Bea" "Mora" 30,
   .addTask 8 "Examenes" "Medio" exDate exEstudio false,
   .addSubTask 8 0 ⟨"Calculo", "Estudiar", 50, false⟩]

/-- The catalog that `cargarDatos` builds. -/
def exCatalog : List TaskType :=
  [⟨"Estudio", "Tareas y examenes"⟩, ⟨"Hogar", "Tareas de la casa"⟩,
   ⟨"Trabajo", "Tareas laborales"⟩, ⟨"Ejercicio", "Actividades fisicas"⟩,
   ⟨"Ocio", "Tiempo libre"⟩]

/-- A person with two "Hogar" tasks and one "Ocio" task; together with Ana's
two study tasks and one "Hogar" task the directory has 2 study, 3 "Hogar" and 1
"Ocio" task. -/
def exEva : Person :=
  ⟨3, "Eva", "Solis", 27,
    [⟨1, "Cocinar", "Medio", exDate, exHogar, []⟩,
     ⟨2, "Cine", "Bajo", exDate, ⟨"Ocio", "Tiempo libre"⟩, []⟩,
     ⟨3, "Pintar", "Bajo", exDate, exHogar, []⟩], []⟩

/-- A person without active tasks who has completed a task with the id 5. -/
def exDora : Person :=
  ⟨4, "Dora", "Mora", 41, [], [⟨5, "Tesis", "Alto", exDate, exEstudio, []⟩]⟩

/-- The person 4 gets three active tasks and completes the second one. -/
def exDoraOps : List Op :=
  [.addTask 4 "Leer" "Bajo" exDate exEstudio false,
   .addTask 4 "Barrer" "Bajo" exDate exHogar false,
   .addTask 4 "Correr" "Medio" exDate exHogar false,
   .completeTask 4 2]

/-- A person is registered, gets three active tasks (ids 1, 2, 3) and completes
the second one. -/
def exThree : List Op :=
  [.insertPerson 1 "Ana" "Lopez" 22,
   .addTask 1 "Leer" "Bajo" exDate exEstudio false,
   .addTask 1 "Barrer" "Bajo" exDate exHogar false,
   .addTask 1 "Correr" "Medio" exDate exHogar false,
   .completeTask 1 2]

/-- A person is registered and gets two tasks straight into the completed
container (ids 1, 2); an active task (id 1) is completed and lands behind
them; a third task is then put straight into the completed container. -/
def exMixed : List Op :=
  [.insertPerson 1 "Ana" "Lopez" 22,
   .addTask 1 "Tesis" "Alto" exDate exEstudio true,
   .addTask 1 "Lavar" "Bajo" exDate exHogar true,
   .addTask 1 "Leer" "Bajo" exDate exEstudio false,
   .completeTask 1 1,
   .addTask 1 "Correr" "Medio" exDate exHogar true]

/-- Calls made after Ana's task "Barrer" has been completed: none of them hands
a task "Barrer" to an active container. -/
def exAfter : List Op :=
  [.addTask 7 "Repaso" "Alto" exDate exEstudio false,
   .addSubTask 7 0 ⟨"Cap1", "Leer", 10, false⟩,
   .completeTask 7 1,
   .insertPerson 5 "Eva" "Mora" 30,
   .addTask 7 "Barrer" "Bajo" exDate exHogar true]

/-! ## Facts about the container operations -/

namespace Container

theorem findById_append_cons {α : Type} [HasId α] (pre post : List α) (x : α) (id : Int)
    (hpre : ∀ z ∈ pre, HasId.id z ≠ id) (hx : HasId.id x = id) :
    findById (pre ++ x :: post) id = some x := by
  induction pre with
  | nil => simp [findById, hx]
  | cons a pre ih =>
    have ha : HasId.id a ≠ id := hpre a (List.mem_cons_self _ _)
    have ih2 := ih (fun z hz => hpre z (List.mem_cons_of_mem _ hz))
    simpa [findById, ha] using ih2

theorem store_append_cons {α : Type} [HasId α] (pre post : List α) (x y : α) (id : Int)
    (hpre : ∀ z ∈ pre, HasId.id z ≠ id) (hx : HasId.id x = id) :
    store (pre ++ x :: post) id y = pre ++ y :: post := by
  induction pre with
  | nil => simp [store, hx]
  | cons a pre ih =>
    have ha : HasId.id a ≠ id := hpre a (List.mem_cons_self _ _)
    have ih2 := ih (fun z hz => hpre z (List.mem_cons_of_mem _ hz))
    simp [store, ha, ih2]

theorem removeById_append_cons {α : Type} [HasId α] (pre post : List α) (x : α) (id : Int)
    (hpre : ∀ z ∈ pre, HasId.id z ≠ id) (hx : HasId.id x = id) :
    removeById (pre ++ x :: post) id = some (x, pre ++ post) := by
  induction pre with
  | nil => simp [removeById, hx]
  | cons a pre ih =>
    have ha : HasId.id a ≠ id := hpre a (List.mem_cons_self _ _)
    have ih2 := ih (fun z hz => hpre z (List.mem_cons_of_mem _ hz))
    simp [removeById, ha, ih2]

/-- A successful `findById` splits the container at the first element with the id. -/
theorem findById_split {α : Type} [HasId α] {l : List α} {id : Int} {x : α}
    (h : findById l id = some x) :
    ∃ pre post, l = pre ++ x :: post ∧ (∀ z ∈ pre, HasId.id z ≠ id) ∧ HasId.id x = id := by
  induction l with
  | nil => simp [findById] at h
  | cons a l ih =>
    by_cases ha : HasId.id a = id
    · have hax : a = x := by simpa [findById, ha] using h
      subst hax
      exact ⟨[], l, rfl, by simp, ha⟩
    · have h2 : findById l id = some x := by simpa [findById, ha] using h
      obtain ⟨pre, post, hl, hpre, hx⟩ := ih h2
      refine ⟨a :: pre, post, by simp [hl], ?_, hx⟩
      intro z hz
      rcases List.mem_cons.mp hz with hz | hz
      · simpa [hz] using ha
      · exact hpre z hz

/-- An id carried by some element is found by `findById`. -/
theorem findById_of_mem {α : Type} [HasId α] {l : List α} {id : Int}
    (h : ∃ x ∈ l, HasId.id x = id) : ∃ y, findById l id = some y := by
  induction l with
  | nil => simp at h
  | cons a l ih =>
    by_cases ha : HasId.id a = id
    · exact ⟨a, by simp [findById, ha]⟩
    · obtain ⟨x, hx, hxid⟩ := h
      rcases List.mem_cons.mp hx with hxa | hxl
      · exact absurd (hxa ▸ hxid) ha
      · obtain ⟨y, hy⟩ := ih ⟨x, hxl, hxid⟩
        exact ⟨y, by simpa [findById, ha] using hy⟩

theorem get_minus_one {α : Type} (l : List α) : get l (-1) = l.getLast? := by
  simp [get]

/-- A successful `get` splits the container at the addressed position, and the
write through the returned pointer replaces exactly that position. -/
theorem get_split {α : Type} {l : List α} {index : Int} {x : α}
    (h : get l index = some x) :
    ∃ pre post, l = pre ++ x :: post ∧
      (index = -1 → post = []) ∧ (0 ≤ index → pre.length = index.toNat) ∧
      ∀ y, setAt l index y = pre ++ y :: post := by
  by_cases h1 : index = -1
  · subst h1
    rw [get_minus_one] at h
    have hl : l = l.dropLast ++ [x] := by
      have := List.dropLast_append_getLast? x (by simpa using h)
      exact this.symm
    refine ⟨l.dropLast, [], hl, fun _ => rfl, fun hneg => absurd hneg (by decide), ?_⟩
    intro y
    have hlen : l.length - 1 = l.dropLast.length := by simp
    simp only [setAt, if_true]
    rw [hlen]
    conv_lhs => rw [hl]
    simp
  · by_cases h2 : index < 0
    · simp [get, h1, h2] at h
    · have hget : l[index.toNat]? = some x := by simpa [get, h1, h2] using h
      obtain ⟨hlt, hx⟩ := List.getElem?_eq_some_iff.mp hget
      refine ⟨l.take index.toNat, l.drop (index.toNat + 1), ?_, fun hh => absurd hh h1, ?_, ?_⟩
      · rw [← hx]
        simp
      · intro _
        simp [List.length_take, Nat.min_eq_left (Nat.le_of_lt hlt)]
      · intro y
        simp only [setAt, h1, h2, if_false]
        rw [List.set_eq_take_append_cons_drop]
        simp [hlt]

/-- After a write through the pointer of a found element, a lookup of the same
id returns the written element (which keeps the id). -/
theorem findById_store {α : Type} [HasId α] {l : List α} {id : Int} {x : α} (y : α)
    (h : findById l id = some x) (hy : HasId.id y = id) :
    findById (store l id y) id = some y := by
  obtain ⟨pre, post, hl, hpre, hx⟩ := findById_split h
  rw [hl, store_append_cons pre post x y id hpre hx]
  exact findById_append_cons pre post y id hpre hy

/-- Two writes through the same pointer: the second one wins. -/
theorem store_store {α : Type} [HasId α] {l : List α} {id : Int} {x : α} (y z : α)
    (h : findById l id = some x) (hy : HasId.id y = id) :
    store (store l id y) id z = store l id z := by
  obtain ⟨pre, post, hl, hpre, hx⟩ := findById_split h
  rw [hl, store_append_cons pre post x y id hpre hx,
    store_append_cons pre post y z id hpre hy, store_append_cons pre post x z id hpre hx]

theorem findById_id {α : Type} [HasId α] {l : List α} {id : Int} {x : α}
    (h : findById l id = some x) : HasId.id x = id := by
  obtain ⟨_, _, _, _, hx⟩ := findById_split h
  exact hx

end Container

/-! ## Direct completion and identifier allocation -/

/-- Effect of `completeTask` on a person whose active container is split at the
first task carrying the id. -/
theorem completeTask_split {people : PersonList} {personId taskId : Int} {person : Person}
    {pre post : List Task} {task : Task}
    (hp : findById people personId = some person)
    (hsplit : person.activeTasks = pre ++ task :: post)
    (hpre : ∀ t ∈ pre, t.id ≠ taskId) (hid : task.id = taskId) :
    completeTask people personId taskId =
      .ok (store people personId
        { person with
          activeTasks := pre ++ post,
          completedTasks := person.completedTasks ++ [task] }) := by
  have hrem : removeById person.activeTasks taskId = some (task, pre ++ post) := by
    rw [hsplit]
    exact removeById_append_cons pre post task taskId hpre hid
  simp [completeTask, hp, hrem, insertLast]

/-- C3: for every person of the directory and every task id present in that
person's active container, `completeTask` returns normally; it removes exactly
the first task with that id from the active container (the tasks before and
after it keep their order, the length decreases by 1) and appends that same
task, all fields unchanged, as the last element of the completed container
(whose earlier elements keep their positions, the length increases by 1). -/
theorem C3_completeTask_moves_task (people : PersonList) (personId taskId : Int)
    (person : Person)
    (hp : findById people personId = some person)
    (hmem : ∃ t ∈ person.activeTasks, t.id = taskId) :
    ∃ pre task post people',
      person.activeTasks = pre ++ task :: post ∧
      task.id = taskId ∧ (∀ t ∈ pre, t.id ≠ taskId) ∧
      completeTask people personId taskId = .ok people' ∧
      findById people' personId =
        some { person with
               activeTasks := pre ++ post,
               completedTasks := person.completedTasks ++ [task] } ∧
      (pre ++ post).length + 1 = person.activeTasks.length ∧
      (person.completedTasks ++ [task]).length = person.completedTasks.length + 1 ∧
      (person.completedTasks ++ [task]).getLast? = some task := by
  obtain ⟨task, htask⟩ := findById_of_mem (α := Task) hmem
  obtain ⟨pre, post, hsplit, hpre, hid⟩ := findById_split htask
  refine ⟨pre, task, post, _, hsplit, hid, hpre,
    completeTask_split hp hsplit hpre hid, ?_, ?_, ?_, ?_⟩
  · have hpid : person.id = personId := findById_id hp
    exact findById_store _ hp hpid
  · simp [hsplit]
    omega
  · simp
  · simp

/-- Witness of C3: Ana, with active tasks 1, 2, 3, completes task 2. -/
theorem C3_completeTask_moves_task_witness :
    ∃ pre task post people',
      exAna.activeTasks = pre ++ task :: post ∧
      task.id = 2 ∧ (∀ t ∈ pre, t.id ≠ 2) ∧
      completeTask [exAna] 7 2 = .ok people' ∧
      findById people' 7 =
        some { exAna with
               activeTasks := pre ++ post,
               completedTasks := exAna.completedTasks ++ [task] } ∧
      (pre ++ post).length + 1 = exAna.activeTasks.length ∧
      (exAna.completedTasks ++ [task]).length = exAna.completedTasks.length + 1 ∧
      (exAna.completedTasks ++ [task]).getLast? = some task :=
  C3_completeTask_moves_task [exAna] 7 2 exAna (by decide)
    ⟨⟨2, "Barrer", "Bajo", exDate, exHogar, []⟩, by decide, by decide⟩

/-- The id `addTask` writes into the task, as a function of the target container. -/
theorem addTask_id_cases (target : List Task) (task : Task) :
    ∃ newId : Int,
      (target = [] → newId = 1) ∧
      (∀ init last, target = init ++ [last] → newId = last.id + 1) ∧
      (match get target (-1) with
        | some lastTask => { task with id := lastTask.id + 1 }
        | none => { task with id := 1 }) = { task with id := newId } := by
  rcases List.eq_nil_or_concat target with h | ⟨init, last, h⟩
  · subst h
    exact ⟨1, fun _ => rfl, fun init last hl => by simp at hl, by simp [Container.get]⟩
  · rw [List.concat_eq_append] at h
    subst h
    refine ⟨last.id + 1, fun hl => by simp at hl, ?_, by simp [Container.get]⟩
    intro init2 last2 hl
    have h2 := List.append_inj_right' hl rfl
    simp only [List.cons.injEq, and_true] at h2
    rw [h2]

/-- C4: for every existing person, every task and either target container
(completed when `completed = true`, active otherwise) whose last id is below
`INT_MAX`, so that the id after it fits an `int`: `addTask` returns normally,
gives the task the id 1 when the target container is empty and the id of its
last element plus 1 otherwise, an `int` value, and appends the task as the last
element of the target container, whose length grows by exactly 1; the other
container of the person is not touched. -/
theorem C4_addTask_allocates_id (people : PersonList) (personId : Int) (task : Task)
    (completed : Bool) (person : Person)
    (hp : findById people personId = some person)
    (hfits : ∀ last ∈ (if completed then person.completedTasks
        else person.activeTasks).getLast?, FitsInt (last.id + 1)) :
    ∃ newId people',
      ((if completed then person.completedTasks else person.activeTasks) = [] → newId = 1) ∧
      (∀ init last,
        (if completed then person.completedTasks else person.activeTasks) = init ++ [last] →
        newId = last.id + 1) ∧
      FitsInt newId ∧
      addTask people personId task completed = .ok people' ∧
      findById people' personId =
        some (if completed then
                { person with
                  completedTasks := person.completedTasks ++ [{ task with id := newId }] }
              else
                { person with
                  activeTasks := person.activeTasks ++ [{ task with id := newId }] }) ∧
      ((if completed then person.completedTasks else person.activeTasks)
          ++ [{ task with id := newId }]).length =
        (if completed then person.completedTasks else person.activeTasks).length + 1 := by
  have hpid : person.id = personId := findById_id hp
  have hfit : ∀ (target : List Task) (newId : Int),
      (∀ last ∈ target.getLast?, FitsInt (last.id + 1)) →
      (target = [] → newId = 1) →
      (∀ init last, target = init ++ [last] → newId = last.id + 1) → FitsInt newId := by
    intro target newId hlast h1 h2
    rcases List.eq_nil_or_concat target with h | ⟨init, last, h⟩
    · rw [h1 h]
      decide
    · rw [List.concat_eq_append] at h
      rw [h2 init last h]
      exact hlast last (by simp [h])
  cases completed with
  | true =>
    obtain ⟨newId, h1, h2, h3⟩ := addTask_id_cases person.completedTasks task
    refine ⟨newId,
      store people personId
        { person with
          completedTasks := person.completedTasks ++ [{ task with id := newId }] },
      by simpa using h1, by simpa using h2,
      hfit person.completedTasks newId (by simpa using hfits) h1 h2, ?_, ?_, by simp⟩
    · simp only [addTask, hp, if_true, h3, insertLast]
    · simp only [↓reduceIte, Bool.false_eq_true]
      exact findById_store _ hp hpid
  | false =>
    obtain ⟨newId, h1, h2, h3⟩ := addTask_id_cases person.activeTasks task
    refine ⟨newId,
      store people personId
        { person with
          activeTasks := person.activeTasks ++ [{ task with id := newId }] },
      by simpa using h1, by simpa using h2,
      hfit person.activeTasks newId (by simpa using hfits) h1 h2, ?_, ?_, by simp⟩
    · simp only [addTask, hp, h3, insertLast]
      rfl
    · simp only [↓reduceIte, Bool.false_eq_true]
      exact findById_store _ hp hpid

/-- Witness of C4: a fourth active task for Ana, whose last active id is 3,
gets the id 4. -/
theorem C4_addTask_allocates_id_witness :
    ∃ newId people',
      ((if false then exAna.completedTasks else exAna.activeTasks) = [] → newId = 1) ∧
      (∀ init last,
        (if false then exAna.completedTasks else exAna.activeTasks) = init ++ [last] →
        newId = last.id + 1) ∧
      FitsInt newId ∧
      addTask [exAna] 7 ⟨0, "Leer", "Bajo", exDate, exEstudio, []⟩ false = .ok people' ∧
      findById people' 7 =
        some (if false then
                { exAna with
                  completedTasks := exAna.completedTasks ++
                    [{ (⟨0, "Leer", "Bajo", exDate, exEstudio, []⟩ : Task) with id := newId }] }
              else
                { exAna with
                  activeTasks := exAna.activeTasks ++
                    [{ (⟨0, "Leer", "Bajo", exDate, exEstudio, []⟩ : Task) with id := newId }] }) ∧
      ((if false then exAna.completedTasks else exAna.activeTasks)
          ++ [{ (⟨0, "Leer", "Bajo", exDate, exEstudio, []⟩ : Task) with id := newId }]).length =
        (if false then exAna.completedTasks else exAna.activeTasks).length + 1 :=
  C4_addTask_allocates_id [exAna] 7 ⟨0, "Leer", "Bajo", exDate, exEstudio, []⟩ false exAna
    (by decide) (by decide)

/-- Closed form of `addTask` into the active container: the new id is the id of
the last active task (0 when there is none) plus 1. -/
theorem addTask_active_eq {people : PersonList} {personId : Int} {person : Person}
    (task : Task) (hp : findById people personId = some person) :
    addTask people personId task false =
      .ok (store people personId
        { person with
          activeTasks := person.activeTasks ++
            [{ task with id := (person.activeTasks.getLast?.map Task.id).getD 0 + 1 }] }) := by
  cases hlast : person.activeTasks.getLast? with
  | none => simp [addTask, hp, Container.get, hlast, insertLast]
  | some last => simp [addTask, hp, Container.get, hlast, insertLast]

theorem map_range_shift (k : Int) (n : Nat) :
    ∀ s : Nat, (List.range' (s + 1) n).map (fun (i : Nat) => k + (i : Int)) =
      (List.range' s n).map (fun (i : Nat) => k + 1 + (i : Int)) := by
  induction n with
  | zero => intro s; simp
  | succ n ih =>
    intro s
    simp only [List.range'_succ, List.map_cons, ih (s + 1)]
    congr 1
    push_cast
    ring

/-- Sequential insertion into a container whose last id is `k` (0 when empty):
the ids handed out are `k + 1, k + 2, ...`, in insertion order, and nothing but
the id of an inserted task is changed. -/
theorem addTasks_ids (tasks : List Task) :
    ∀ (people : PersonList) (personId : Int) (person : Person),
      findById people personId = some person →
      ∃ person', findById (addTasks people personId tasks) personId = some person' ∧
        person'.activeTasks.map Task.id =
          person.activeTasks.map Task.id ++
            (List.range' 1 tasks.length).map
              (fun (i : Nat) => (person.activeTasks.getLast?.map Task.id).getD 0 + (i : Int)) ∧
        person'.activeTasks.map (fun t => { t with id := 0 }) =
          (person.activeTasks ++ tasks).map (fun t => { t with id := 0 }) ∧
        person'.completedTasks = person.completedTasks := by
  induction tasks with
  | nil =>
    intro people personId person hp
    exact ⟨person, by simpa [addTasks] using hp, by simp, by simp, rfl⟩
  | cons task rest ih =>
    intro people personId person hp
    have hpid : person.id = personId := findById_id hp
    have hstep := addTask_active_eq task hp
    have hfind := findById_store
      { person with
        activeTasks := person.activeTasks ++
          [{ task with id := (person.activeTasks.getLast?.map Task.id).getD 0 + 1 }] }
      hp hpid
    obtain ⟨person', h1, h2, h3, h4⟩ := ih _ personId _ hfind
    refine ⟨person', ?_, ?_, ?_, ?_⟩
    · simpa [addTasks, hstep, Outcome.people] using h1
    · rw [h2]
      simp only [List.map_append, List.map_cons, List.map_nil, List.length_cons,
        List.append_assoc, List.getLast?_concat, Option.map_some', Option.getD_some]
      congr 1
      rw [List.range'_succ]
      simp only [List.map_cons, List.singleton_append, Nat.cast_one]
      congr 1
      exact (map_range_shift _ _ 1).symm
    · rw [h3]
      simp
    · rw [h4]

/-- C5: inserting the tasks of any list (n tasks, n ≥ 1 included) in sequence
with `addTask` into the initially empty active container of one person yields
a container of the same n tasks in insertion order whose ids are 1, 2, ..., n. -/
theorem C5_sequential_ids (people : PersonList) (personId : Int) (person : Person)
    (tasks : List Task)
    (hp : findById people personId = some person)
    (hempty : person.activeTasks = []) :
    ∃ person', findById (addTasks people personId tasks) personId = some person' ∧
      person'.activeTasks.map Task.id =
        (List.range' 1 tasks.length).map (fun (i : Nat) => (i : Int)) ∧
      person'.activeTasks.length = tasks.length ∧
      person'.activeTasks.map (fun t => { t with id := 0 }) =
        tasks.map (fun t => { t with id := 0 }) := by
  obtain ⟨person', h1, h2, h3, _⟩ := addTasks_ids tasks people personId person hp
  refine ⟨person', h1, ?_, ?_, ?_⟩
  · rw [h2, hempty]
    simp
  · have := congrArg List.length h3
    simpa [hempty] using this
  · rw [h3, hempty]
    simp

/-- Witness of C5: three tasks inserted for a person without tasks get the
ids 1, 2, 3. -/
theorem C5_sequential_ids_witness :
    ∃ person',
      findById (addTasks [⟨1, "Ana", "Lopez", 22, [], []⟩] 1 exTasks) 1 = some person' ∧
      person'.activeTasks.map Task.id =
        (List.range' 1 exTasks.length).map (fun (i : Nat) => (i : Int)) ∧
      person'.activeTasks.length = exTasks.length ∧
      person'.activeTasks.map (fun t => { t with id := 0 }) =
        exTasks.map (fun t => { t with id := 0 }) :=
  C5_sequential_ids [⟨1, "Ana", "Lopez", 22, [], []⟩] 1 ⟨1, "Ana", "Lopez", 22, [], []⟩
    exTasks (by decide) rfl

/-! ## Subtask progress and the completion cascade -/

/-- Once the updated subtask is flagged completed, no iteration of the loop returns. -/
theorem loopReturns_completed (subTask : SubTask) (h : subTask.completed = true) :
    ∀ n, loopReturns subTask n = false := by
  intro n
  induction n with
  | zero => rfl
  | succ n ih => simp [loopReturns, h, ih]

/-- With at least one iteration and the updated subtask not completed, the
first iteration returns. -/
theorem loopReturns_incomplete (subTask : SubTask) (h : subTask.completed = false) (n : Nat) :
    loopReturns subTask (n + 1) = true := by
  simp [loopReturns, h]

/-- Closed form of `subTaskProgress` when the three lookups succeed: the
subtask at the addressed position is rewritten, and the task is moved to the
completed container exactly when `newProgress = 100`. -/
theorem subTaskProgress_split {people : PersonList} {personId taskId subTaskIndex : Int}
    (newProgress : Rat) {person : Person} {before after : List Task} {task : Task}
    {pre post : List SubTask} {subTask : SubTask}
    (hp : findById people personId = some person)
    (hact : person.activeTasks = before ++ task :: after)
    (hbefore : ∀ t ∈ before, t.id ≠ taskId) (hid : task.id = taskId)
    (hget : get task.subTasks subTaskIndex = some subTask)
    (hset : ∀ y, setAt task.subTasks subTaskIndex y = pre ++ y :: post) :
    subTaskProgress people personId taskId subTaskIndex newProgress =
      .ok (store people personId
        (if newProgress = 100 then
          { person with
            activeTasks := before ++ after,
            completedTasks := person.completedTasks ++
              [{ task with
                 subTasks := pre ++
                   { subTask with progress := newProgress, completed := true } :: post }] }
        else
          { person with
            activeTasks := before ++
              { task with
                subTasks := pre ++
                  { subTask with progress := newProgress, completed := false } :: post }
              :: after })) := by
  have hpid : person.id = personId := findById_id hp
  subst hid
  have hfind : findById person.activeTasks task.id = some task := by
    rw [hact]
    exact findById_append_cons before after task task.id hbefore rfl
  have hlen : (getLength (pre ++
      ({ subTask with progress := newProgress, completed := decide (newProgress = 100) }
        : SubTask) :: post)).toNat = (pre.length + post.length) + 1 := by
    simp [getLength]
    omega
  have hstore : ∀ t' : Task, store person.activeTasks task.id t' = before ++ t' :: after := by
    intro t'
    rw [hact]
    exact store_append_cons before after task t' task.id hbefore rfl
  simp only [subTaskProgress, hp, hfind, hget, hset, hstore, hlen]
  by_cases h100 : newProgress = 100
  · rw [loopReturns_completed _ (by simp [h100])]
    simp only [Bool.false_eq_true, if_false, if_pos h100]
    have hp1 := findById_store
      ({ person with
         activeTasks := before ++
           { task with
             subTasks := pre ++
               { subTask with progress := newProgress,
                              completed := decide (newProgress = 100) } :: post }
           :: after } : Person) hp hpid
    rw [completeTask_split hp1 rfl hbefore rfl, store_store _ _ hp (by exact hpid)]
    simp [h100]
  · rw [loopReturns_incomplete _ (by simp [h100])]
    simp [h100]

/-- C1, evaluated at the failing input: Bea's study task has two subtasks, both
at progress 50.  Setting the progress of subtask 0 to 100 returns normally and
moves the task to the completed container, although subtask 1 of the moved
task still has `completed = false`. -/
theorem C1_task_moved_with_incomplete_subtask :
    subTaskProgress [exBea] 8 1 0 100 =
      .ok [{ exBea with
             activeTasks := [],
             completedTasks :=
               [{ exStudy with
                  subTasks := [⟨"Calculo", "Estudiar", 100, true⟩,
                               ⟨"Fisica", "Revisar", 50, false⟩] }] }] ∧
    ¬ (∀ subTask ∈ ([⟨"Calculo", "Estudiar", 100, true⟩,
                      ⟨"Fisica", "Revisar", 50, false⟩] : List SubTask),
        subTask.completed = true) := by
  decide

/-- C2, evaluated at the failing input (N = 2): none of the two subtasks of
Bea's study task is completed; after the first of the two updates to progress
100 the task is already absent from the active container and present in the
completed one, and the second update throws "Tarea no encontrada". -/
theorem C2_cascade_fires_on_first_update :
    exStudy.subTasks.length = 2 ∧
    (∀ subTask ∈ exStudy.subTasks, subTask.completed = false) ∧
    (∃ person, findById ((subTaskProgress [exBea] 8 1 0 100).people) 8 = some person ∧
      findById person.activeTasks 1 = none ∧
      (findById person.completedTasks 1).isSome = true) ∧
    subTaskProgress ((subTaskProgress [exBea] 8 1 0 100).people) 8 1 1 100 =
      .threw "Tarea no encontrada" ((subTaskProgress [exBea] 8 1 0 100).people) := by
  refine ⟨by decide, by decide, ⟨_, rfl, ?_, ?_⟩, ?_⟩ <;> decide

/-- Closed form of `completeSubTask` when the three lookups succeed. -/
theorem completeSubTask_split {people : PersonList} {personId taskId subTaskIndex : Int}
    {person : Person} {before after : List Task} {task : Task}
    {pre post : List SubTask} {subTask : SubTask}
    (hp : findById people personId = some person)
    (hact : person.activeTasks = before ++ task :: after)
    (hbefore : ∀ t ∈ before, t.id ≠ taskId) (hid : task.id = taskId)
    (hget : get task.subTasks subTaskIndex = some subTask)
    (hset : ∀ y, setAt task.subTasks subTaskIndex y = pre ++ y :: post) :
    completeSubTask people personId taskId subTaskIndex =
      .ok (store people personId
        { person with
          activeTasks := before ++
            { task with
              subTasks := pre ++ { subTask with completed := true, progress := 100 } :: post }
            :: after }) := by
  have hfind : findById person.activeTasks taskId = some task := by
    rw [hact]
    exact findById_append_cons before after task taskId hbefore hid
  have hstore : ∀ t' : Task, store person.activeTasks taskId t' = before ++ t' :: after := by
    intro t'
    rw [hact]
    exact store_append_cons before after task t' taskId hbefore hid
  simp only [completeSubTask, hp, hfind, hget, hset, hstore]

/-- A call of `subTaskProgress` that returns normally has found the person, the
task and the subtask. -/
theorem subTaskProgress_ok_found {people people' : PersonList}
    {personId taskId subTaskIndex : Int} {newProgress : Rat}
    (h : subTaskProgress people personId taskId subTaskIndex newProgress = .ok people') :
    ∃ person task subTask,
      findById people personId = some person ∧
      findById person.activeTasks taskId = some task ∧
      get task.subTasks subTaskIndex = some subTask := by
  cases hp : findById people personId with
  | none => simp [subTaskProgress, hp] at h
  | some person =>
    cases ht : findById person.activeTasks taskId with
    | none => simp [subTaskProgress, hp, ht] at h
    | some task =>
      cases hs : Container.get task.subTasks subTaskIndex with
      | none => simp [subTaskProgress, hp, ht, hs] at h
      | some subTask => exact ⟨person, task, subTask, rfl, ht, hs⟩

/-- A call of `completeSubTask` that returns normally has found the person, the
task and the subtask. -/
theorem completeSubTask_ok_found {people people' : PersonList}
    {personId taskId subTaskIndex : Int}
    (h : completeSubTask people personId taskId subTaskIndex = .ok people') :
    ∃ person task subTask,
      findById people personId = some person ∧
      findById person.activeTasks taskId = some task ∧
      get task.subTasks subTaskIndex = some subTask := by
  cases hp : findById people personId with
  | none => simp [completeSubTask, hp] at h
  | some person =>
    cases ht : findById person.activeTasks taskId with
    | none => simp [completeSubTask, hp, ht] at h
    | some task =>
      cases hs : Container.get task.subTasks subTaskIndex with
      | none => simp [completeSubTask, hp, ht, hs] at h
      | some subTask => exact ⟨person, task, subTask, rfl, ht, hs⟩

/-- C9: whenever the person, the task (by id, among the active tasks) and the
subtask (by index) are found, which is the case in every call that returns
normally, `subTaskProgress` and `completeSubTask` both return
normally, and afterwards the targeted subtask has `completed = true` if and
only if its progress is 100 (`subTaskProgress` stores the new progress and the
flag `newProgress = 100`, `completeSubTask` stores 100 and `true`); the
subtasks before and after it in the task, and every other task of the person,
are unchanged.  The task itself stays at its place in the active container or,
after `subTaskProgress` only, has become the last completed task. -/
theorem C9_completed_flag_follows_progress (people : PersonList)
    (personId taskId subTaskIndex : Int) (newProgress : Rat)
    (person : Person) (task : Task) (subTask : SubTask)
    (hp : findById people personId = some person)
    (ht : findById person.activeTasks taskId = some task)
    (hs : get task.subTasks subTaskIndex = some subTask) :
    ∃ before after pre post,
      person.activeTasks = before ++ task :: after ∧
      task.subTasks = pre ++ subTask :: post ∧
      (subTaskIndex = -1 → post = []) ∧ (0 ≤ subTaskIndex → pre.length = subTaskIndex.toNat) ∧
      (∃ people' person' updated,
        subTaskProgress people personId taskId subTaskIndex newProgress = .ok people' ∧
        findById people' personId = some person' ∧
        updated.progress = newProgress ∧
        (updated.completed = true ↔ updated.progress = 100) ∧
        updated.name = subTask.name ∧ updated.comments = subTask.comments ∧
        ((person'.activeTasks =
              before ++ { task with subTasks := pre ++ updated :: post } :: after ∧
            person'.completedTasks = person.completedTasks) ∨
          (person'.activeTasks = before ++ after ∧
            person'.completedTasks =
              person.completedTasks ++ [{ task with subTasks := pre ++ updated :: post }]))) ∧
      (∃ people' person' updated,
        completeSubTask people personId taskId subTaskIndex = .ok people' ∧
        findById people' personId = some person' ∧
        updated.progress = 100 ∧
        (updated.completed = true ↔ updated.progress = 100) ∧
        updated.name = subTask.name ∧ updated.comments = subTask.comments ∧
        person'.activeTasks =
          before ++ { task with subTasks := pre ++ updated :: post } :: after ∧
        person'.completedTasks = person.completedTasks) := by
  have hpid : person.id = personId := findById_id hp
  obtain ⟨before, after, hact, hbefore, hid⟩ := findById_split ht
  obtain ⟨pre, post, hsub, hlast, hpos, hset⟩ := get_split hs
  refine ⟨before, after, pre, post, hact, hsub, hlast, hpos, ?_, ?_⟩
  · have hrun := subTaskProgress_split newProgress hp hact hbefore hid hs hset
    by_cases h100 : newProgress = 100
    · rw [if_pos h100] at hrun
      exact ⟨_, _, { subTask with progress := newProgress, completed := true }, hrun,
        findById_store _ hp hpid, rfl, by simp [h100], rfl, rfl, Or.inr ⟨rfl, rfl⟩⟩
    · rw [if_neg h100] at hrun
      exact ⟨_, _, { subTask with progress := newProgress, completed := false }, hrun,
        findById_store _ hp hpid, rfl, by simp [h100], rfl, rfl, Or.inl ⟨rfl, rfl⟩⟩
  · have hrun := completeSubTask_split hp hact hbefore hid hs hset
    exact ⟨_, _, { subTask with completed := true, progress := 100 }, hrun,
      findById_store _ hp hpid, rfl, by simp, rfl, rfl, rfl, rfl⟩

/-- Witness of C9: the first subtask of Bea's study task, at progress 50, is
set to progress 100 and is marked completed. -/
theorem C9_completed_flag_follows_progress_witness :
    ∃ before after pre post,
      exBea.activeTasks = before ++ exStudy :: after ∧
      exStudy.subTasks = pre ++ (⟨"Calculo", "Estudiar", 50, false⟩ : SubTask) :: post ∧
      ((0 : Int) = -1 → post = []) ∧ ((0 : Int) ≤ 0 → pre.length = (0 : Int).toNat) ∧
      (∃ people' person' updated,
        subTaskProgress [exBea] 8 1 0 100 = .ok people' ∧
        findById people' 8 = some person' ∧
        updated.progress = 100 ∧
        (updated.completed = true ↔ updated.progress = 100) ∧
        updated.name = "Calculo" ∧ updated.comments = "Estudiar" ∧
        ((person'.activeTasks =
              before ++ { exStudy with subTasks := pre ++ updated :: post } :: after ∧
            person'.completedTasks = exBea.completedTasks) ∨
          (person'.activeTasks = before ++ after ∧
            person'.completedTasks =
              exBea.completedTasks ++ [{ exStudy with subTasks := pre ++ updated :: post }]))) ∧
      (∃ people' person' updated,
        completeSubTask [exBea] 8 1 0 = .ok people' ∧
        findById people' 8 = some person' ∧
        updated.progress = 100 ∧
        (updated.completed = true ↔ updated.progress = 100) ∧
        updated.name = "Calculo" ∧ updated.comments = "Estudiar" ∧
        person'.activeTasks =
          before ++ { exStudy with subTasks := pre ++ updated :: post } :: after ∧
        person'.completedTasks = exBea.completedTasks) :=
  C9_completed_flag_follows_progress [exBea] 8 1 0 100 exBea exStudy
    ⟨"Calculo", "Estudiar", 50, false⟩ (by decide) (by decide) (by decide)

/-! ## Subtask insertion and the study-type gate -/

/-- C8: for every existing person and every valid index of an active task whose
type name is "Estudio", `addSubTask` returns normally and appends the given
subtask as the last element of that task's subtask container: the length grows
by exactly 1, the earlier subtasks keep their order, and nothing else changes:
the tasks before and after it in the active container, the completed container
and the persons ahead of and behind that person in the directory are the same. -/
theorem C8_addSubTask_appends (people : PersonList) (personId taskIndex : Int)
    (subTask : SubTask) (person : Person) (task : Task)
    (hp : findById people personId = some person)
    (ht : get person.activeTasks taskIndex = some task)
    (hstudy : task.type.name = "Estudio") :
    ∃ ahead behind before after,
      people = ahead ++ person :: behind ∧
      person.activeTasks = before ++ task :: after ∧
      (taskIndex = -1 → after = []) ∧ (0 ≤ taskIndex → before.length = taskIndex.toNat) ∧
      addSubTask people personId taskIndex subTask =
        .ok (ahead ++
          { person with
            activeTasks :=
              before ++ { task with subTasks := task.subTasks ++ [subTask] } :: after }
          :: behind) ∧
      findById
          (ahead ++
            { person with
              activeTasks :=
                before ++ { task with subTasks := task.subTasks ++ [subTask] } :: after }
            :: behind) personId =
        some { person with
               activeTasks :=
                 before ++ { task with subTasks := task.subTasks ++ [subTask] } :: after } ∧
      (task.subTasks ++ [subTask]).length = task.subTasks.length + 1 ∧
      (task.subTasks ++ [subTask]).getLast? = some subTask := by
  obtain ⟨ahead, behind, hpeople, hahead, hpid⟩ := findById_split hp
  obtain ⟨before, after, hact, hlast, hpos, hset⟩ := get_split ht
  refine ⟨ahead, behind, before, after, hpeople, hact, hlast, hpos, ?_, ?_, by simp, by simp⟩
  · simp only [addSubTask, hp, ht, hstudy, if_true, hset, insertLast]
    rw [hpeople, store_append_cons ahead behind person _ personId hahead hpid]
  · exact findById_append_cons ahead behind _ personId hahead hpid

/-- Witness of C8: a subtask is added to Ana's first active task, a study task. -/
theorem C8_addSubTask_appends_witness :
    ∃ ahead behind before after,
      [exAna] = ahead ++ exAna :: behind ∧
      exAna.activeTasks =
        before ++ (⟨1, "Examenes", "Medio", exDate, exEstudio, []⟩ : Task) :: after ∧
      ((0 : Int) = -1 → after = []) ∧ ((0 : Int) ≤ 0 → before.length = (0 : Int).toNat) ∧
      addSubTask [exAna] 7 0 ⟨"Calculo", "Estudiar", 50, false⟩ =
        .ok (ahead ++
          { exAna with
            activeTasks :=
              before ++
                { (⟨1, "Examenes", "Medio", exDate, exEstudio, []⟩ : Task) with
                  subTasks := [] ++ [(⟨"Calculo", "Estudiar", 50, false⟩ : SubTask)] }
                :: after }
          :: behind) ∧
      findById
          (ahead ++
            { exAna with
              activeTasks :=
                before ++
                  { (⟨1, "Examenes", "Medio", exDate, exEstudio, []⟩ : Task) with
                    subTasks := [] ++ [(⟨"Calculo", "Estudiar", 50, false⟩ : SubTask)] }
                  :: after }
            :: behind) 7 =
        some { exAna with
               activeTasks :=
                 before ++
                   { (⟨1, "Examenes", "Medio", exDate, exEstudio, []⟩ : Task) with
                     subTasks := [] ++ [(⟨"Calculo", "Estudiar", 50, false⟩ : SubTask)] }
                   :: after } ∧
      (([] : List SubTask) ++ [(⟨"Calculo", "Estudiar", 50, false⟩ : SubTask)]).length =
        ([] : List SubTask).length + 1 ∧
      (([] : List SubTask) ++ [(⟨"Calculo", "Estudiar", 50, false⟩ : SubTask)]).getLast? =
        some ⟨"Calculo", "Estudiar", 50, false⟩ :=
  C8_addSubTask_appends [exAna] 7 0 ⟨"Calculo", "Estudiar", 50, false⟩ exAna
    ⟨1, "Examenes", "Medio", exDate, exEstudio, []⟩ (by decide) (by decide) (by decide)

/-- C7, counterexample: Ana's second active task has the type "Hogar"; the call
of `addSubTask` on it reports no failure at all: it returns normally, like a
successful insertion, and leaves the directory as it was. -/
theorem C7_no_failure_reported :
    findById [exAna] 7 = some exAna ∧
    get exAna.activeTasks 1 = some ⟨2, "Barrer", "Bajo", exDate, exHogar, []⟩ ∧
    exHogar.name ≠ "Estudio" ∧
    addSubTask [exAna] 7 1 ⟨"Cocina", "Limpiar", 50, false⟩ = .ok [exAna] ∧
    ¬ ∃ what people',
        addSubTask [exAna] 7 1 ⟨"Cocina", "Limpiar", 50, false⟩ = .threw what people' := by
  refine ⟨by decide, by decide, by decide, by decide, ?_⟩
  rintro ⟨what, people', h⟩
  have hok : addSubTask [exAna] 7 1 ⟨"Cocina", "Limpiar", 50, false⟩ = .ok [exAna] := by decide
  rw [hok] at h
  exact Outcome.noConfusion h

/-- C7 as amended: for every existing person and valid task index whose task is
not of the study type, `addSubTask` returns normally without reporting a
failure: the subtask is discarded and the directory is left unchanged.  The
outcome differs from the NotFound failures, which are thrown. -/
theorem C7_addSubTask_discards_silently (people : PersonList) (personId taskIndex : Int)
    (subTask : SubTask) (person : Person) (task : Task)
    (hp : findById people personId = some person)
    (ht : get person.activeTasks taskIndex = some task)
    (hother : task.type.name ≠ "Estudio") :
    addSubTask people personId taskIndex subTask = .ok people ∧
    (∀ what people', addSubTask people personId taskIndex subTask ≠ .threw what people') ∧
    (∀ otherId, findById people otherId = none →
      addSubTask people otherId taskIndex subTask = .threw "Persona no encontrada" people) ∧
    (∀ otherIndex, get person.activeTasks otherIndex = none →
      addSubTask people personId otherIndex subTask = .threw "Tarea no encontrada" people) := by
  have hok : addSubTask people personId taskIndex subTask = .ok people := by
    simp only [addSubTask, hp, ht, hother, if_false]
  refine ⟨hok, ?_, ?_, ?_⟩
  · intro what people' h
    rw [hok] at h
    exact Outcome.noConfusion h
  · intro otherId hnone
    simp only [addSubTask, hnone]
  · intro otherIndex hnone
    simp only [addSubTask, hp, hnone]

/-- Witness of C7 as amended: a subtask offered to Ana's "Hogar" task. -/
theorem C7_addSubTask_discards_silently_witness :
    addSubTask [exAna] 7 1 ⟨"Cocina", "Limpiar", 50, false⟩ = .ok [exAna] ∧
    (∀ what people',
      addSubTask [exAna] 7 1 ⟨"Cocina", "Limpiar", 50, false⟩ ≠ .threw what people') ∧
    (∀ otherId, findById [exAna] otherId = none →
      addSubTask [exAna] otherId 1 ⟨"Cocina", "Limpiar", 50, false⟩ =
        .threw "Persona no encontrada" [exAna]) ∧
    (∀ otherIndex, get exAna.activeTasks otherIndex = none →
      addSubTask [exAna] 7 otherIndex ⟨"Cocina", "Limpiar", 50, false⟩ =
        .threw "Tarea no encontrada" [exAna]) :=
  C7_addSubTask_discards_silently [exAna] 7 1 ⟨"Cocina", "Limpiar", 50, false⟩ exAna
    ⟨2, "Barrer", "Bajo", exDate, exHogar, []⟩ (by decide) (by decide) (by decide)

/-! ## The study-type rule as an invariant of the directory -/

namespace Container

theorem mem_store {α : Type} [HasId α] {l : List α} {id : Int} {y z : α}
    (h : z ∈ store l id y) : z = y ∨ z ∈ l := by
  induction l with
  | nil => simp [store] at h
  | cons a l ih =>
    by_cases ha : HasId.id a = id
    · simp only [store, ha, if_true, List.mem_cons] at h
      rcases h with h | h
      · exact Or.inl h
      · exact Or.inr (List.mem_cons_of_mem _ h)
    · simp only [store, ha, if_false, List.mem_cons] at h
      rcases h with h | h
      · exact Or.inr (h ▸ List.mem_cons_self _ _)
      · rcases ih h with h2 | h2
        · exact Or.inl h2
        · exact Or.inr (List.mem_cons_of_mem _ h2)

theorem mem_setAt {α : Type} {l : List α} {index : Int} {y z : α}
    (h : z ∈ setAt l index y) : z = y ∨ z ∈ l := by
  unfold setAt at h
  split at h
  · exact (List.mem_or_eq_of_mem_set h).symm
  · split at h
    · exact Or.inr h
    · exact (List.mem_or_eq_of_mem_set h).symm

theorem mem_of_findById {α : Type} [HasId α] {l : List α} {id : Int} {x : α}
    (h : findById l id = some x) : x ∈ l := by
  obtain ⟨pre, post, hl, _, _⟩ := findById_split h
  simp [hl]

theorem mem_of_get {α : Type} {l : List α} {index : Int} {x : α}
    (h : get l index = some x) : x ∈ l := by
  obtain ⟨pre, post, hl, _, _, _⟩ := get_split h
  simp [hl]

theorem length_setAt {α : Type} (l : List α) (index : Int) (y : α) :
    (setAt l index y).length = l.length := by
  unfold setAt
  split
  · simp
  · split <;> simp

theorem removeById_mem {α : Type} [HasId α] {l : List α} {id : Int} {x : α} {rest : List α}
    (h : removeById l id = some (x, rest)) : x ∈ l ∧ ∀ z ∈ rest, z ∈ l := by
  induction l generalizing rest with
  | nil => simp [removeById] at h
  | cons a l ih =>
    by_cases ha : HasId.id a = id
    · simp only [removeById, ha, if_true, Option.some.injEq, Prod.mk.injEq] at h
      obtain ⟨h1, h2⟩ := h
      subst h1 h2
      exact ⟨List.mem_cons_self _ _, fun z hz => List.mem_cons_of_mem _ hz⟩
    · simp only [removeById, ha, if_false] at h
      cases hrec : removeById l id with
      | none => simp [hrec] at h
      | some pair =>
        obtain ⟨y, rest2⟩ := pair
        simp only [hrec, Option.some.injEq, Prod.mk.injEq] at h
        obtain ⟨h1, h2⟩ := h
        subst h1 h2
        obtain ⟨hy, hrest⟩ := ih hrec
        refine ⟨List.mem_cons_of_mem _ hy, ?_⟩
        intro z hz
        rcases List.mem_cons.mp hz with hz | hz
        · exact hz ▸ List.mem_cons_self _ _
        · exact List.mem_cons_of_mem _ (hrest z hz)

end Container

/-- Writing a person whose tasks respect the rule keeps the rule. -/
theorem studyOnly_store {people : PersonList} (h : StudyOnly people) (personId : Int)
    (person : Person)
    (hperson : ∀ task ∈ person.activeTasks ++ person.completedTasks, task.subTasksAllowed) :
    StudyOnly (store people personId person) := by
  intro q hq
  rcases mem_store hq with hq | hq
  · rw [hq]
    exact hperson
  · exact h q hq

theorem studyOnly_insertPerson {people : PersonList} (h : StudyOnly people) (id : Int)
    (name lastname : String) (age : Int) :
    StudyOnly (PersonList.insert people id name lastname age) := by
  intro q hq
  simp only [PersonList.insert, insertLast, List.mem_append, List.mem_singleton] at hq
  rcases hq with hq | hq
  · exact h q hq
  · subst hq
    intro task htask
    simp at htask

theorem studyOnly_addTask {people : PersonList} (h : StudyOnly people) (personId : Int)
    (task : Task) (completed : Bool) (hfresh : task.subTasks = []) :
    StudyOnly (addTask people personId task completed).people := by
  unfold TaskManager.addTask
  cases hp : findById people personId with
  | none => exact h
  | some person =>
    have hold := h person (mem_of_findById hp)
    have hnew : ∀ newId : Int, ({ task with id := newId } : Task).subTasksAllowed := by
      intro newId _
      simp [hfresh]
    have hgen : ∀ target : List Task,
        (match Container.get target (-1) with
          | some lastTask => ({ task with id := lastTask.id + 1 } : Task)
          | none => { task with id := 1 }).subTasksAllowed := by
      intro target
      split
      · exact hnew _
      · exact hnew _
    cases completed with
    | true =>
      simp only [if_true, Outcome.people]
      apply studyOnly_store h
      intro t ht
      simp only [insertLast, List.mem_append, List.mem_singleton] at ht
      rcases ht with ht | ht | ht
      · exact hold t (List.mem_append_left _ ht)
      · exact hold t (List.mem_append_right _ ht)
      · rw [ht]
        exact hgen _
    | false =>
      simp only [Bool.false_eq_true, if_false, Outcome.people]
      apply studyOnly_store h
      intro t ht
      simp only [insertLast, List.mem_append, List.mem_singleton] at ht
      rcases ht with (ht | ht) | ht
      · exact hold t (List.mem_append_left _ ht)
      · rw [ht]
        exact hgen _
      · exact hold t (List.mem_append_right _ ht)

theorem studyOnly_addSubTask {people : PersonList} (h : StudyOnly people)
    (personId taskIndex : Int) (subTask : SubTask) :
    StudyOnly (addSubTask people personId taskIndex subTask).people := by
  cases hp : findById people personId with
  | none =>
    simp only [addSubTask, hp, Outcome.people]
    exact h
  | some person =>
    have hold := h person (mem_of_findById hp)
    cases ht : Container.get person.activeTasks taskIndex with
    | none =>
      simp only [addSubTask, hp, ht, Outcome.people]
      exact h
    | some task =>
      by_cases hstudy : task.type.name = "Estudio"
      · simp only [addSubTask, hp, ht, hstudy, if_true, Outcome.people]
        apply studyOnly_store h
        intro t hmem
        rcases List.mem_append.mp hmem with hmem | hmem
        · rcases mem_setAt hmem with hmem | hmem
          · rw [hmem]
            intro hne
            exact absurd hstudy hne
          · exact hold t (List.mem_append_left _ hmem)
        · exact hold t (List.mem_append_right _ hmem)
      · simp only [addSubTask, hp, ht, hstudy, if_false, Outcome.people]
        exact h

/-- Replacing the task at an index by one of the same type with as many
subtasks keeps the rule for the person. -/
theorem subTasksAllowed_setAt {person : Person} {taskIndex : Int} {task task' : Task}
    (hold : ∀ t ∈ person.activeTasks ++ person.completedTasks, t.subTasksAllowed)
    (ht : task ∈ person.activeTasks)
    (htype : task'.type = task.type) (hlen : task'.subTasks.length = task.subTasks.length) :
    ∀ t ∈ setAt person.activeTasks taskIndex task' ++ person.completedTasks,
      t.subTasksAllowed := by
  intro t hmem
  rcases List.mem_append.mp hmem with hmem | hmem
  · rcases mem_setAt hmem with hmem | hmem
    · rw [hmem]
      intro hne
      rw [hlen]
      exact hold task (List.mem_append_left _ ht) (by rw [← htype]; exact hne)
    · exact hold t (List.mem_append_left _ hmem)
  · exact hold t (List.mem_append_right _ hmem)

/-- The same for a write through the pointer returned by `findById`. -/
theorem subTasksAllowed_store {person : Person} {taskId : Int} {task task' : Task}
    (hold : ∀ t ∈ person.activeTasks ++ person.completedTasks, t.subTasksAllowed)
    (ht : task ∈ person.activeTasks)
    (htype : task'.type = task.type) (hlen : task'.subTasks.length = task.subTasks.length) :
    ∀ t ∈ store person.activeTasks taskId task' ++ person.completedTasks,
      t.subTasksAllowed := by
  intro t hmem
  rcases List.mem_append.mp hmem with hmem | hmem
  · rcases mem_store hmem with hmem | hmem
    · rw [hmem]
      intro hne
      rw [hlen]
      exact hold task (List.mem_append_left _ ht) (by rw [← htype]; exact hne)
    · exact hold t (List.mem_append_left _ hmem)
  · exact hold t (List.mem_append_right _ hmem)

theorem studyOnly_modifyActiveTask (schedule : Schedule) {people : PersonList}
    (h : StudyOnly people) (personId taskIndex : Int) (newDate newTime : String) :
    StudyOnly (modifyActiveTask schedule people personId taskIndex newDate newTime).people := by
  cases hp : findById people personId with
  | none =>
    simp only [modifyActiveTask, hp, Outcome.people]
    exact h
  | some person =>
    have hold := h person (mem_of_findById hp)
    cases ht : Container.get person.activeTasks taskIndex with
    | none =>
      simp only [modifyActiveTask, hp, ht, Outcome.people]
      exact h
    | some task =>
      have hkeep : ∀ d : Tm, StudyOnly (store people personId
          { person with
            activeTasks := setAt person.activeTasks taskIndex { task with date := d } }) := by
        intro d
        apply studyOnly_store h
        exact subTasksAllowed_setAt hold (mem_of_get ht) rfl rfl
      simp only [modifyActiveTask, hp, ht]
      cases (schedule.setDate task.date newDate).2 with
      | some what => exact hkeep _
      | none =>
        simp only
        cases (schedule.setTime (schedule.setDate task.date newDate).1 newTime).2 with
        | some what => exact hkeep _
        | none => exact hkeep _

theorem studyOnly_completeTask {people : PersonList} (h : StudyOnly people)
    (personId taskId : Int) :
    StudyOnly (completeTask people personId taskId).people := by
  cases hp : findById people personId with
  | none =>
    simp only [completeTask, hp, Outcome.people]
    exact h
  | some person =>
    have hold := h person (mem_of_findById hp)
    cases hr : removeById person.activeTasks taskId with
    | none =>
      simp only [completeTask, hp, hr, Outcome.people]
      exact h
    | some pair =>
      obtain ⟨task, rest⟩ := pair
      obtain ⟨htask, hrest⟩ := removeById_mem hr
      simp only [completeTask, hp, hr, Outcome.people]
      apply studyOnly_store h
      intro t hmem
      simp only [insertLast, List.mem_append, List.mem_singleton] at hmem
      rcases hmem with hmem | hmem | hmem
      · exact hold t (List.mem_append_left _ (hrest t hmem))
      · exact hold t (List.mem_append_right _ hmem)
      · rw [hmem]
        exact hold task (List.mem_append_left _ htask)

theorem studyOnly_completeSubTask {people : PersonList} (h : StudyOnly people)
    (personId taskId subTaskIndex : Int) :
    StudyOnly (completeSubTask people personId taskId subTaskIndex).people := by
  cases hp : findById people personId with
  | none =>
    simp only [completeSubTask, hp, Outcome.people]
    exact h
  | some person =>
    have hold := h person (mem_of_findById hp)
    cases ht : findById person.activeTasks taskId with
    | none =>
      simp only [completeSubTask, hp, ht, Outcome.people]
      exact h
    | some task =>
      cases hs : Container.get task.subTasks subTaskIndex with
      | none =>
        simp only [completeSubTask, hp, ht, hs, Outcome.people]
        exact h
      | some subTask =>
        simp only [completeSubTask, hp, ht, hs, Outcome.people]
        apply studyOnly_store h
        exact subTasksAllowed_store hold (mem_of_findById ht) rfl (length_setAt _ _ _)

theorem studyOnly_subTaskProgress {people : PersonList} (h : StudyOnly people)
    (personId taskId subTaskIndex : Int) (newProgress : Rat) :
    StudyOnly (subTaskProgress people personId taskId subTaskIndex newProgress).people := by
  cases hp : findById people personId with
  | none =>
    simp only [subTaskProgress, hp, Outcome.people]
    exact h
  | some person =>
    have hold := h person (mem_of_findById hp)
    cases ht : findById person.activeTasks taskId with
    | none =>
      simp only [subTaskProgress, hp, ht, Outcome.people]
      exact h
    | some task =>
      cases hs : Container.get task.subTasks subTaskIndex with
      | none =>
        simp only [subTaskProgress, hp, ht, hs, Outcome.people]
        exact h
      | some subTask =>
        have hkeep : StudyOnly (store people personId
            { person with
              activeTasks := store person.activeTasks taskId
                { task with
                  subTasks := setAt task.subTasks subTaskIndex
                    { subTask with progress := newProgress,
                                   completed := decide (newProgress = 100) } } }) := by
          apply studyOnly_store h
          exact subTasksAllowed_store hold (mem_of_findById ht) rfl (length_setAt _ _ _)
        simp only [subTaskProgress, hp, ht, hs]
        split
        · exact hkeep
        · exact studyOnly_completeTask hkeep _ _

/-- Every call keeps the study-type rule. -/
theorem studyOnly_step (schedule : Schedule) {people : PersonList} (h : StudyOnly people)
    (op : Op) : StudyOnly (step schedule people op) := by
  cases op with
  | insertPerson id name lastname age => exact studyOnly_insertPerson h id name lastname age
  | addTask personId description importance date type completed =>
    exact studyOnly_addTask h personId _ completed rfl
  | addSubTask personId taskIndex subTask => exact studyOnly_addSubTask h _ _ _
  | modifyActiveTask personId taskIndex newDate newTime =>
    exact studyOnly_modifyActiveTask schedule h _ _ _ _
  | completeTask personId taskId => exact studyOnly_completeTask h _ _
  | completeSubTask personId taskId subTaskIndex => exact studyOnly_completeSubTask h _ _ _
  | subTaskProgress personId taskId subTaskIndex newProgress =>
    exact studyOnly_subTaskProgress h _ _ _ _

theorem studyOnly_run (schedule : Schedule) (ops : List Op) :
    ∀ people, StudyOnly people → StudyOnly (run schedule people ops) := by
  induction ops with
  | nil => intro people h; exact h
  | cons op ops ih =>
    intro people h
    exact ih _ (studyOnly_step schedule h op)

/-- C6: in every directory reached from the empty directory by a sequence of
calls (insertion of persons, `addTask` of freshly constructed tasks,
`addSubTask`, `modifyActiveTask`, `completeTask`, `completeSubTask`,
`subTaskProgress`, whether they return or throw), every task, active or
completed, whose type name is not "Estudio" has a subtask container of length
0; in particular `addSubTask` targeting such a task returns with the directory
unchanged, so that task's subtask container stays at length 0. -/
theorem C6_subtasks_only_under_study_tasks (schedule : Schedule) (ops : List Op) :
    (∀ person ∈ run schedule [] ops,
      ∀ task ∈ person.activeTasks ++ person.completedTasks,
        task.type.name ≠ "Estudio" → task.subTasks.length = 0) ∧
    (∀ (personId taskIndex : Int) (subTask : SubTask) (person : Person) (task : Task),
      findById (run schedule [] ops) personId = some person →
      get person.activeTasks taskIndex = some task →
      task.type.name ≠ "Estudio" →
      addSubTask (run schedule [] ops) personId taskIndex subTask =
          .ok (run schedule [] ops) ∧
        task.subTasks.length = 0) := by
  have hinv : StudyOnly (run schedule [] ops) :=
    studyOnly_run schedule ops [] (fun q hq => by simp at hq)
  refine ⟨hinv, ?_⟩
  intro personId taskIndex subTask person task hp ht hother
  refine ⟨?_, ?_⟩
  · simp only [addSubTask, hp, ht, hother, if_false]
  · exact hinv person (mem_of_findById hp) task
      (List.mem_append_left _ (mem_of_get ht)) hother

/-! ## End to end -/

/-- C10: in a directory holding one person with empty containers, `addTask` of
a fresh study-type task into the active container assigns it the id 1;
`addSubTask` of one subtask (progress 50 in the example of the specification)
at task index 0 stores it in that task; `subTaskProgress` setting that subtask
to 100 then leaves the active container empty and the task with id 1 as the
only element of the completed container, carrying exactly that one subtask,
now at progress 100 and completed. -/
theorem C10_end_to_end (person : Person) (task : Task) (subTask : SubTask)
    (hact : person.activeTasks = []) (hcomp : person.completedTasks = [])
    (hstudy : task.type.name = "Estudio") (hfresh : task.subTasks = []) :
    addTask [person] person.id task false =
      .ok [{ person with activeTasks := [{ task with id := 1 }] }] ∧
    addSubTask [{ person with activeTasks := [{ task with id := 1 }] }] person.id 0 subTask =
      .ok [{ person with activeTasks := [{ task with id := 1, subTasks := [subTask] }] }] ∧
    subTaskProgress
        [{ person with activeTasks := [{ task with id := 1, subTasks := [subTask] }] }]
        person.id 1 0 100 =
      .ok [{ person with
             activeTasks := [],
             completedTasks :=
               [{ task with
                  id := 1,
                  subTasks := [{ subTask with progress := 100, completed := true }] }] }] := by
  refine ⟨?_, ?_, ?_⟩
  · simp [addTask, findById, Container.get, hact, insertLast, store, HasId.id]
  · simp [addSubTask, findById, Container.get, hstudy, hfresh, insertLast, store, setAt,
      HasId.id]
  · simp [subTaskProgress, findById, Container.get, store, setAt, HasId.id, getLength,
      loopReturns, completeTask, removeById, insertLast, hcomp]

/-- Witness of C10: Ana (id 1, no tasks), the study task "Leer" and the subtask
"Cap1" at progress 50. -/
theorem C10_end_to_end_witness :
    addTask [⟨1, "Ana", "Lopez", 22, [], []⟩] 1 ⟨0, "Leer", "Bajo", exDate, exEstudio, []⟩ false =
      .ok [⟨1, "Ana", "Lopez", 22, [⟨1, "Leer", "Bajo", exDate, exEstudio, []⟩], []⟩] ∧
    addSubTask [⟨1, "Ana", "Lopez", 22, [⟨1, "Leer", "Bajo", exDate, exEstudio, []⟩], []⟩] 1 0
        ⟨"Cap1", "", 50, false⟩ =
      .ok [⟨1, "Ana", "Lopez", 22,
            [⟨1, "Leer", "Bajo", exDate, exEstudio, [⟨"Cap1", "", 50, false⟩]⟩], []⟩] ∧
    subTaskProgress
        [⟨1, "Ana", "Lopez", 22,
          [⟨1, "Leer", "Bajo", exDate, exEstudio, [⟨"Cap1", "", 50, false⟩]⟩], []⟩] 1 1 0 100 =
      .ok [⟨1, "Ana", "Lopez", 22, [],
            [⟨1, "Leer", "Bajo", exDate, exEstudio, [⟨"Cap1", "", 100, true⟩]⟩]⟩] :=
  C10_end_to_end ⟨1, "Ana", "Lopez", 22, [], []⟩ ⟨0, "Leer", "Bajo", exDate, exEstudio, []⟩
    ⟨"Cap1", "", 50, false⟩ rfl rfl (by decide) rfl

/-! ## Lookups that fail -/

namespace Container

theorem findById_eq_none {α : Type} [HasId α] {l : List α} {id : Int}
    (h : ∀ x ∈ l, HasId.id x ≠ id) : findById l id = none := by
  induction l with
  | nil => rfl
  | cons a l ih =>
    have ha : HasId.id a ≠ id := h a (List.mem_cons_self _ _)
    have ih2 := ih (fun x hx => h x (List.mem_cons_of_mem _ hx))
    simpa [findById, ha] using ih2

theorem removeById_eq_none {α : Type} [HasId α] {l : List α} {id : Int}
    (h : ∀ x ∈ l, HasId.id x ≠ id) : removeById l id = none := by
  induction l with
  | nil => rfl
  | cons a l ih =>
    have ha : HasId.id a ≠ id := h a (List.mem_cons_self _ _)
    have ih2 := ih (fun x hx => h x (List.mem_cons_of_mem _ hx))
    simp [removeById, ha, ih2]

theorem get_eq_none {α : Type} {l : List α} {index : Int} (h : OutOfRange l index) :
    get l index = none := by
  obtain ⟨hpos, hlast⟩ := h
  unfold get
  split
  · next h1 =>
    have hnil : l = [] := by
      by_contra hne
      exact hlast ⟨h1, hne⟩
    simp [hnil]
  · split
    · rfl
    · next h1 h2 =>
      rw [List.getElem?_eq_none_iff]
      by_contra hlt
      apply hpos
      constructor
      · omega
      · omega

end Container

/-- C11: for every existing person and every task id that no task of that
person's active container carries, `completeTask` throws "Tarea no encontrada"
and leaves the directory, hence the active and the completed container of the
person (elements, order, lengths), exactly as it was. -/
theorem C11_completeTask_absent_id (people : PersonList) (personId taskId : Int)
    (person : Person)
    (hp : findById people personId = some person)
    (habsent : ∀ t ∈ person.activeTasks, t.id ≠ taskId) :
    completeTask people personId taskId = .threw "Tarea no encontrada" people ∧
    findById (completeTask people personId taskId).people personId = some person := by
  have hrem : removeById person.activeTasks taskId = none := removeById_eq_none habsent
  have hrun : completeTask people personId taskId = .threw "Tarea no encontrada" people := by
    simp only [completeTask, hp, hrem]
  exact ⟨hrun, by rw [hrun]; exact hp⟩

/-- Witness of C11: Ana has the active tasks 1, 2, 3 and no task 9. -/
theorem C11_completeTask_absent_id_witness :
    completeTask [exAna] 7 9 = .threw "Tarea no encontrada" [exAna] ∧
    findById (completeTask [exAna] 7 9).people 7 = some exAna :=
  C11_completeTask_absent_id [exAna] 7 9 exAna (by decide) (by decide)

/-- C12: a lookup that fails is reported by an exception and nothing is changed.
(1) When no person carries the id, each of the six operations throws "Persona
no encontrada".  (2) For an existing person and a task index out of range,
`addSubTask` and `modifyActiveTask` throw "Tarea no encontrada".  (3) For an
existing person and a task id that no active task carries, `completeSubTask`
and `subTaskProgress` throw "Tarea no encontrada".  (4) For an existing person,
an active task with that id and a subtask index out of range, they throw
"Subtarea no encontrada".  In every case the directory the exception leaves is
the directory before the call. -/
theorem C12_not_found_is_thrown_and_atomic (schedule : Schedule) (people : PersonList)
    (personId : Int) :
    (findById people personId = none →
      (∀ task completed,
        addTask people personId task completed = .threw "Persona no encontrada" people) ∧
      (∀ taskIndex subTask,
        addSubTask people personId taskIndex subTask =
          .threw "Persona no encontrada" people) ∧
      (∀ taskIndex newDate newTime,
        modifyActiveTask schedule people personId taskIndex newDate newTime =
          .threw "Persona no encontrada" people) ∧
      (∀ taskId, completeTask people personId taskId = .threw "Persona no encontrada" people) ∧
      (∀ taskId subTaskIndex,
        completeSubTask people personId taskId subTaskIndex =
          .threw "Persona no encontrada" people) ∧
      (∀ taskId subTaskIndex newProgress,
        subTaskProgress people personId taskId subTaskIndex newProgress =
          .threw "Persona no encontrada" people)) ∧
    (∀ person, findById people personId = some person →
      (∀ taskIndex, OutOfRange person.activeTasks taskIndex →
        (∀ subTask,
          addSubTask people personId taskIndex subTask =
            .threw "Tarea no encontrada" people) ∧
        (∀ newDate newTime,
          modifyActiveTask schedule people personId taskIndex newDate newTime =
            .threw "Tarea no encontrada" people)) ∧
      (∀ taskId, (∀ t ∈ person.activeTasks, t.id ≠ taskId) →
        (∀ subTaskIndex,
          completeSubTask people personId taskId subTaskIndex =
            .threw "Tarea no encontrada" people) ∧
        (∀ subTaskIndex newProgress,
          subTaskProgress people personId taskId subTaskIndex newProgress =
            .threw "Tarea no encontrada" people)) ∧
      (∀ taskId task subTaskIndex,
        findById person.activeTasks taskId = some task →
        OutOfRange task.subTasks subTaskIndex →
        completeSubTask people personId taskId subTaskIndex =
            .threw "Subtarea no encontrada" people ∧
        (∀ newProgress,
          subTaskProgress people personId taskId subTaskIndex newProgress =
            .threw "Subtarea no encontrada" people))) := by
  refine ⟨?_, ?_⟩
  · intro hp
    refine ⟨?_, ?_, ?_, ?_, ?_, ?_⟩
    · intro task completed
      simp only [addTask, hp]
    · intro taskIndex subTask
      simp only [addSubTask, hp]
    · intro taskIndex newDate newTime
      simp only [modifyActiveTask, hp]
    · intro taskId
      simp only [completeTask, hp]
    · intro taskId subTaskIndex
      simp only [completeSubTask, hp]
    · intro taskId subTaskIndex newProgress
      simp only [subTaskProgress, hp]
  · intro person hp
    refine ⟨?_, ?_, ?_⟩
    · intro taskIndex hout
      have hget : Container.get person.activeTasks taskIndex = none := get_eq_none hout
      refine ⟨?_, ?_⟩
      · intro subTask
        simp only [addSubTask, hp, hget]
      · intro newDate newTime
        simp only [modifyActiveTask, hp, hget]
    · intro taskId habsent
      have hfind : findById person.activeTasks taskId = none := findById_eq_none habsent
      refine ⟨?_, ?_⟩
      · intro subTaskIndex
        simp only [completeSubTask, hp, hfind]
      · intro subTaskIndex newProgress
        simp only [subTaskProgress, hp, hfind]
    · intro taskId task subTaskIndex ht hout
      have hget : Container.get task.subTasks subTaskIndex = none := get_eq_none hout
      refine ⟨?_, ?_⟩
      · simp only [completeSubTask, hp, ht, hget]
      · intro newProgress
        simp only [subTaskProgress, hp, ht, hget]

/-! ## The completed container only grows -/

theorem completedOnlyGrows_append (people extra : PersonList) :
    CompletedOnlyGrows people (people ++ extra) := by
  induction people with
  | nil => simp [CompletedOnlyGrows]
  | cons p ps ih => exact ⟨rfl, List.prefix_refl _, ih⟩

theorem completedOnlyGrows_refl (people : PersonList) : CompletedOnlyGrows people people := by
  simpa using completedOnlyGrows_append people []

theorem completedOnlyGrows_trans :
    ∀ (a b c : PersonList), CompletedOnlyGrows a b → CompletedOnlyGrows b c →
      CompletedOnlyGrows a c := by
  intro a
  induction a with
  | nil => intro b c _ _; simp [CompletedOnlyGrows]
  | cons p ps ih =>
    intro b c hab hbc
    cases b with
    | nil => simp [CompletedOnlyGrows] at hab
    | cons q qs =>
      cases c with
      | nil => simp [CompletedOnlyGrows] at hbc
      | cons r rs =>
        obtain ⟨h1, h2, h3⟩ := hab
        obtain ⟨k1, k2, k3⟩ := hbc
        exact ⟨h1.trans k1, h2.trans k2, ih qs rs h3 k3⟩

/-- A write through the pointer of a found person that keeps the id and only
extends the completed container. -/
theorem completedOnlyGrows_store {people : PersonList} {personId : Int} {person : Person}
    (person' : Person) (hp : findById people personId = some person)
    (hid : person.id = person'.id)
    (hgrows : person.completedTasks <+: person'.completedTasks) :
    CompletedOnlyGrows people (store people personId person') := by
  obtain ⟨ahead, behind, hpeople, hahead, hpid⟩ := findById_split hp
  rw [hpeople, store_append_cons ahead behind person person' personId hahead hpid]
  clear hpeople hahead hp
  induction ahead with
  | nil => exact ⟨hid, hgrows, completedOnlyGrows_refl _⟩
  | cons a ahead ih => exact ⟨rfl, List.prefix_refl _, ih⟩

theorem completedOnlyGrows_addTask (people : PersonList) (personId : Int) (task : Task)
    (completed : Bool) :
    CompletedOnlyGrows people (addTask people personId task completed).people := by
  cases hp : findById people personId with
  | none =>
    simp only [addTask, hp, Outcome.people]
    exact completedOnlyGrows_refl _
  | some person =>
    cases completed with
    | true =>
      simp only [addTask, hp, if_true, Outcome.people]
      exact completedOnlyGrows_store _ hp rfl (List.prefix_append _ _)
    | false =>
      simp only [addTask, hp, Bool.false_eq_true, if_false, Outcome.people]
      exact completedOnlyGrows_store _ hp rfl (List.prefix_refl _)

theorem completedOnlyGrows_addSubTask (people : PersonList) (personId taskIndex : Int)
    (subTask : SubTask) :
    CompletedOnlyGrows people (addSubTask people personId taskIndex subTask).people := by
  cases hp : findById people personId with
  | none =>
    simp only [addSubTask, hp, Outcome.people]
    exact completedOnlyGrows_refl _
  | some person =>
    cases ht : Container.get person.activeTasks taskIndex with
    | none =>
      simp only [addSubTask, hp, ht, Outcome.people]
      exact completedOnlyGrows_refl _
    | some task =>
      by_cases hstudy : task.type.name = "Estudio"
      · simp only [addSubTask, hp, ht, hstudy, if_true, Outcome.people]
        exact completedOnlyGrows_store _ hp rfl (List.prefix_refl _)
      · simp only [addSubTask, hp, ht, hstudy, if_false, Outcome.people]
        exact completedOnlyGrows_refl _

theorem completedOnlyGrows_modifyActiveTask (schedule : Schedule) (people : PersonList)
    (personId taskIndex : Int) (newDate newTime : String) :
    CompletedOnlyGrows people
      (modifyActiveTask schedule people personId taskIndex newDate newTime).people := by
  cases hp : findById people personId with
  | none =>
    simp only [modifyActiveTask, hp, Outcome.people]
    exact completedOnlyGrows_refl _
  | some person =>
    cases ht : Container.get person.activeTasks taskIndex with
    | none =>
      simp only [modifyActiveTask, hp, ht, Outcome.people]
      exact completedOnlyGrows_refl _
    | some task =>
      have hkeep : ∀ d : Tm, CompletedOnlyGrows people (store people personId
          { person with
            activeTasks := setAt person.activeTasks taskIndex { task with date := d } }) :=
        fun d => completedOnlyGrows_store _ hp rfl (List.prefix_refl _)
      simp only [modifyActiveTask, hp, ht]
      cases (schedule.setDate task.date newDate).2 with
      | some what => exact hkeep _
      | none =>
        simp only
        cases (schedule.setTime (schedule.setDate task.date newDate).1 newTime).2 with
        | some what => exact hkeep _
        | none => exact hkeep _

theorem completedOnlyGrows_completeTask (people : PersonList) (personId taskId : Int) :
    CompletedOnlyGrows people (completeTask people personId taskId).people := by
  cases hp : findById people personId with
  | none =>
    simp only [completeTask, hp, Outcome.people]
    exact completedOnlyGrows_refl _
  | some person =>
    cases hr : removeById person.activeTasks taskId with
    | none =>
      simp only [completeTask, hp, hr, Outcome.people]
      exact completedOnlyGrows_refl _
    | some pair =>
      obtain ⟨task, rest⟩ := pair
      simp only [completeTask, hp, hr, Outcome.people]
      exact completedOnlyGrows_store _ hp rfl (List.prefix_append _ _)

theorem completedOnlyGrows_completeSubTask (people : PersonList)
    (personId taskId subTaskIndex : Int) :
    CompletedOnlyGrows people (completeSubTask people personId taskId subTaskIndex).people := by
  cases hp : findById people personId with
  | none =>
    simp only [completeSubTask, hp, Outcome.people]
    exact completedOnlyGrows_refl _
  | some person =>
    cases ht : findById person.activeTasks taskId with
    | none =>
      simp only [completeSubTask, hp, ht, Outcome.people]
      exact completedOnlyGrows_refl _
    | some task =>
      cases hs : Container.get task.subTasks subTaskIndex with
      | none =>
        simp only [completeSubTask, hp, ht, hs, Outcome.people]
        exact completedOnlyGrows_refl _
      | some subTask =>
        simp only [completeSubTask, hp, ht, hs, Outcome.people]
        exact completedOnlyGrows_store _ hp rfl (List.prefix_refl _)

theorem completedOnlyGrows_subTaskProgress (people : PersonList)
    (personId taskId subTaskIndex : Int) (newProgress : Rat) :
    CompletedOnlyGrows people
      (subTaskProgress people personId taskId subTaskIndex newProgress).people := by
  cases hp : findById people personId with
  | none =>
    simp only [subTaskProgress, hp, Outcome.people]
    exact completedOnlyGrows_refl _
  | some person =>
    cases ht : findById person.activeTasks taskId with
    | none =>
      simp only [subTaskProgress, hp, ht, Outcome.people]
      exact completedOnlyGrows_refl _
    | some task =>
      cases hs : Container.get task.subTasks subTaskIndex with
      | none =>
        simp only [subTaskProgress, hp, ht, hs, Outcome.people]
        exact completedOnlyGrows_refl _
      | some subTask =>
        have hkeep : CompletedOnlyGrows people (store people personId
            { person with
              activeTasks := store person.activeTasks taskId
                { task with
                  subTasks := setAt task.subTasks subTaskIndex
                    { subTask with progress := newProgress,
                                   completed := decide (newProgress = 100) } } }) :=
          completedOnlyGrows_store _ hp rfl (List.prefix_refl _)
        simp only [subTaskProgress, hp, ht, hs]
        split
        · exact hkeep
        · exact completedOnlyGrows_trans _ _ _ hkeep (completedOnlyGrows_completeTask _ _ _)

theorem completedOnlyGrows_step (schedule : Schedule) (people : PersonList) (op : Op) :
    CompletedOnlyGrows people (step schedule people op) := by
  cases op with
  | insertPerson id name lastname age => exact completedOnlyGrows_append _ _
  | addTask personId description importance date type completed =>
    exact completedOnlyGrows_addTask _ _ _ _
  | addSubTask personId taskIndex subTask => exact completedOnlyGrows_addSubTask _ _ _ _
  | modifyActiveTask personId taskIndex newDate newTime =>
    exact completedOnlyGrows_modifyActiveTask _ _ _ _ _ _
  | completeTask personId taskId => exact completedOnlyGrows_completeTask _ _ _
  | completeSubTask personId taskId subTaskIndex =>
    exact completedOnlyGrows_completeSubTask _ _ _ _
  | subTaskProgress personId taskId subTaskIndex newProgress =>
    exact completedOnlyGrows_subTaskProgress _ _ _ _ _

theorem completedOnlyGrows_run (schedule : Schedule) (ops : List Op) :
    ∀ people, CompletedOnlyGrows people (run schedule people ops) := by
  induction ops with
  | nil => intro people; exact completedOnlyGrows_refl _
  | cons op ops ih =>
    intro people
    exact completedOnlyGrows_trans _ _ _ (completedOnlyGrows_step schedule people op) (ih _)

/-! ## Identifiers within a container -/

namespace Container

/-- What `removeById` leaves is the container without one element. -/
theorem removeById_sublist {α : Type} [HasId α] {l : List α} {id : Int} {x : α}
    {rest : List α} (h : removeById l id = some (x, rest)) : rest.Sublist l := by
  induction l generalizing rest with
  | nil => simp [removeById] at h
  | cons a l ih =>
    by_cases ha : HasId.id a = id
    · simp only [removeById, ha, if_true, Option.some.injEq, Prod.mk.injEq] at h
      rw [← h.2]
      exact List.sublist_cons_self _ _
    · simp only [removeById, ha, if_false] at h
      cases hrec : removeById l id with
      | none => simp [hrec] at h
      | some pair =>
        obtain ⟨y, rest2⟩ := pair
        simp only [hrec, Option.some.injEq, Prod.mk.injEq] at h
        obtain ⟨h1, h2⟩ := h
        subst h1 h2
        exact List.Sublist.cons₂ _ (ih hrec)

end Container

/-- A write through `get(index)` that keeps the id keeps the list of ids. -/
theorem map_id_setAt {tasks : List Task} {taskIndex : Int} {task : Task} (task' : Task)
    (ht : get tasks taskIndex = some task) (hid : task'.id = task.id) :
    (setAt tasks taskIndex task').map Task.id = tasks.map Task.id := by
  obtain ⟨pre, post, hl, _, _, hset⟩ := get_split ht
  rw [hset task']
  conv_rhs => rw [hl]
  simp [hid]

/-- A write through `findById(id)` that keeps the id keeps the list of ids. -/
theorem map_id_store {tasks : List Task} {taskId : Int} {task : Task} (task' : Task)
    (ht : findById tasks taskId = some task) (hid : task'.id = task.id) :
    (store tasks taskId task').map Task.id = tasks.map Task.id := by
  obtain ⟨pre, post, hl, hpre, hx⟩ := findById_split ht
  rw [hl, store_append_cons pre post task task' taskId hpre hx]
  simp [hid]

/-- The id written by `addTask` exceeds every id of a container whose ids increase. -/
theorem lt_next_id {tasks : List Task}
    (hsorted : (tasks.map Task.id).Pairwise (fun a b => a < b)) :
    ∀ t ∈ tasks, t.id < (tasks.getLast?.map Task.id).getD 0 + 1 := by
  intro t ht
  rcases List.eq_nil_or_concat tasks with h | ⟨init, last, h⟩
  · subst h
    simp at ht
  · rw [List.concat_eq_append] at h
    subst h
    simp only [List.getLast?_concat, Option.map_some', Option.getD_some]
    rcases List.mem_append.mp ht with hinit | hlast
    · rw [List.map_append, List.pairwise_append] at hsorted
      have := hsorted.2.2 t.id (List.mem_map_of_mem _ hinit) last.id (by simp)
      omega
    · simp only [List.mem_singleton] at hlast
      rw [hlast]
      omega

theorem activeIdsIncreasing_store {people : PersonList} (h : ActiveIdsIncreasing people)
    (personId : Int) (person : Person)
    (hperson : (person.activeTasks.map Task.id).Pairwise (fun a b => a < b)) :
    ActiveIdsIncreasing (store people personId person) := by
  intro q hq
  rcases mem_store hq with hq | hq
  · rw [hq]
    exact hperson
  · exact h q hq

theorem activeIdsIncreasing_addTask {people : PersonList} (h : ActiveIdsIncreasing people)
    (personId : Int) (task : Task) (completed : Bool) :
    ActiveIdsIncreasing (addTask people personId task completed).people := by
  cases hp : findById people personId with
  | none =>
    simp only [addTask, hp, Outcome.people]
    exact h
  | some person =>
    have hold := h person (mem_of_findById hp)
    cases completed with
    | true =>
      simp only [addTask, hp, if_true, Outcome.people]
      exact activeIdsIncreasing_store h _ _ hold
    | false =>
      rw [addTask_active_eq task hp]
      simp only [Outcome.people]
      apply activeIdsIncreasing_store h
      simp only [List.map_append, List.map_cons, List.map_nil]
      rw [List.pairwise_append]
      refine ⟨hold, List.pairwise_singleton _ _, ?_⟩
      intro a ha b hb
      simp only [List.mem_singleton] at hb
      obtain ⟨t, ht, hta⟩ := List.mem_map.mp ha
      rw [hb, ← hta]
      exact lt_next_id hold t ht

theorem activeIdsIncreasing_addSubTask {people : PersonList} (h : ActiveIdsIncreasing people)
    (personId taskIndex : Int) (subTask : SubTask) :
    ActiveIdsIncreasing (addSubTask people personId taskIndex subTask).people := by
  cases hp : findById people personId with
  | none =>
    simp only [addSubTask, hp, Outcome.people]
    exact h
  | some person =>
    have hold := h person (mem_of_findById hp)
    cases ht : Container.get person.activeTasks taskIndex with
    | none =>
      simp only [addSubTask, hp, ht, Outcome.people]
      exact h
    | some task =>
      by_cases hstudy : task.type.name = "Estudio"
      · simp only [addSubTask, hp, ht, hstudy, if_true, Outcome.people]
        apply activeIdsIncreasing_store h
        simp only
        rw [map_id_setAt _ ht (by rfl)]
        exact hold
      · simp only [addSubTask, hp, ht, hstudy, if_false, Outcome.people]
        exact h

theorem activeIdsIncreasing_modifyActiveTask (schedule : Schedule) {people : PersonList}
    (h : ActiveIdsIncreasing people) (personId taskIndex : Int) (newDate newTime : String) :
    ActiveIdsIncreasing
      (modifyActiveTask schedule people personId taskIndex newDate newTime).people := by
  cases hp : findById people personId with
  | none =>
    simp only [modifyActiveTask, hp, Outcome.people]
    exact h
  | some person =>
    have hold := h person (mem_of_findById hp)
    cases ht : Container.get person.activeTasks taskIndex with
    | none =>
      simp only [modifyActiveTask, hp, ht, Outcome.people]
      exact h
    | some task =>
      have hkeep : ∀ d : Tm, ActiveIdsIncreasing (store people personId
          { person with
            activeTasks := setAt person.activeTasks taskIndex { task with date := d } }) := by
        intro d
        apply activeIdsIncreasing_store h
        simp only
        rw [map_id_setAt _ ht (by rfl)]
        exact hold
      simp only [modifyActiveTask, hp, ht]
      cases (schedule.setDate task.date newDate).2 with
      | some what => exact hkeep _
      | none =>
        simp only
        cases (schedule.setTime (schedule.setDate task.date newDate).1 newTime).2 with
        | some what => exact hkeep _
        | none => exact hkeep _

theorem activeIdsIncreasing_completeTask {people : PersonList} (h : ActiveIdsIncreasing people)
    (personId taskId : Int) :
    ActiveIdsIncreasing (completeTask people personId taskId).people := by
  cases hp : findById people personId with
  | none =>
    simp only [completeTask, hp, Outcome.people]
    exact h
  | some person =>
    have hold := h person (mem_of_findById hp)
    cases hr : removeById person.activeTasks taskId with
    | none =>
      simp only [completeTask, hp, hr, Outcome.people]
      exact h
    | some pair =>
      obtain ⟨task, rest⟩ := pair
      simp only [completeTask, hp, hr, Outcome.people]
      apply activeIdsIncreasing_store h
      exact hold.sublist ((removeById_sublist hr).map Task.id)

theorem activeIdsIncreasing_completeSubTask {people : PersonList}
    (h : ActiveIdsIncreasing people) (personId taskId subTaskIndex : Int) :
    ActiveIdsIncreasing (completeSubTask people personId taskId subTaskIndex).people := by
  cases hp : findById people personId with
  | none =>
    simp only [completeSubTask, hp, Outcome.people]
    exact h
  | some person =>
    have hold := h person (mem_of_findById hp)
    cases ht : findById person.activeTasks taskId with
    | none =>
      simp only [completeSubTask, hp, ht, Outcome.people]
      exact h
    | some task =>
      cases hs : Container.get task.subTasks subTaskIndex with
      | none =>
        simp only [completeSubTask, hp, ht, hs, Outcome.people]
        exact h
      | some subTask =>
        simp only [completeSubTask, hp, ht, hs, Outcome.people]
        apply activeIdsIncreasing_store h
        simp only
        rw [map_id_store _ ht (by rfl)]
        exact hold

theorem activeIdsIncreasing_subTaskProgress {people : PersonList}
    (h : ActiveIdsIncreasing people) (personId taskId subTaskIndex : Int)
    (newProgress : Rat) :
    ActiveIdsIncreasing
      (subTaskProgress people personId taskId subTaskIndex newProgress).people := by
  cases hp : findById people personId with
  | none =>
    simp only [subTaskProgress, hp, Outcome.people]
    exact h
  | some person =>
    have hold := h person (mem_of_findById hp)
    cases ht : findById person.activeTasks taskId with
    | none =>
      simp only [subTaskProgress, hp, ht, Outcome.people]
      exact h
    | some task =>
      cases hs : Container.get task.subTasks subTaskIndex with
      | none =>
        simp only [subTaskProgress, hp, ht, hs, Outcome.people]
        exact h
      | some subTask =>
        have hkeep : ActiveIdsIncreasing (store people personId
            { person with
              activeTasks := store person.activeTasks taskId
                { task with
                  subTasks := setAt task.subTasks subTaskIndex
                    { subTask with progress := newProgress,
                                   completed := decide (newProgress = 100) } } }) := by
          apply activeIdsIncreasing_store h
          simp only
          rw [map_id_store _ ht (by rfl)]
          exact hold
        simp only [subTaskProgress, hp, ht, hs]
        split
        · exact hkeep
        · exact activeIdsIncreasing_completeTask hkeep _ _

theorem activeIdsIncreasing_step (schedule : Schedule) {people : PersonList}
    (h : ActiveIdsIncreasing people) (op : Op) :
    ActiveIdsIncreasing (step schedule people op) := by
  cases op with
  | insertPerson id name lastname age =>
    intro q hq
    simp only [step, PersonList.insert, insertLast, List.mem_append, List.mem_singleton] at hq
    rcases hq with hq | hq
    · exact h q hq
    · subst hq
      simp
  | addTask personId description importance date type completed =>
    exact activeIdsIncreasing_addTask h _ _ _
  | addSubTask personId taskIndex subTask => exact activeIdsIncreasing_addSubTask h _ _ _
  | modifyActiveTask personId taskIndex newDate newTime =>
    exact activeIdsIncreasing_modifyActiveTask schedule h _ _ _ _
  | completeTask personId taskId => exact activeIdsIncreasing_completeTask h _ _
  | completeSubTask personId taskId subTaskIndex =>
    exact activeIdsIncreasing_completeSubTask h _ _ _
  | subTaskProgress personId taskId subTaskIndex newProgress =>
    exact activeIdsIncreasing_subTaskProgress h _ _ _ _

theorem activeIdsIncreasing_run (schedule : Schedule) (ops : List Op) :
    ∀ people, ActiveIdsIncreasing people → ActiveIdsIncreasing (run schedule people ops) := by
  induction ops with
  | nil => intro people h; exact h
  | cons op ops ih =>
    intro people h
    exact ih _ (activeIdsIncreasing_step schedule h op)

/-- C14, counterexample: after `exReuse` (two tasks inserted into the active
container and completed one after the other, both with the id 1) the person's
completed container holds two tasks with the same id 1. -/
theorem C14_completed_ids_repeat :
    ∃ person, findById (run exSchedule [] exReuse) 1 = some person ∧
      person.activeTasks = [] ∧
      person.completedTasks.map Task.id = [1, 1] ∧
      ¬ (person.completedTasks.map Task.id).Nodup := by
  refine ⟨_, rfl, ?_, ?_, ?_⟩ <;> decide

/-- C14 as amended: in every directory reached from the empty directory by a
sequence of calls (persons are registered with two empty containers; `addTask`
into either container, `completeTask`, `subTaskProgress` and the other
lifecycle operations), no two tasks residing in the active container of a
person have the same id: the ids of the active tasks increase strictly from
front to back. -/
theorem C14_active_ids_distinct (schedule : Schedule) (ops : List Op) :
    ∀ person ∈ run schedule [] ops,
      (person.activeTasks.map Task.id).Pairwise (fun a b => a < b) ∧
      (person.activeTasks.map Task.id).Nodup := by
  have hinv : ActiveIdsIncreasing (run schedule [] ops) :=
    activeIdsIncreasing_run schedule ops [] (fun q hq => by simp at hq)
  intro person hperson
  refine ⟨hinv person hperson, ?_⟩
  exact (hinv person hperson).imp (fun hab => ne_of_lt hab)

/-- Witness of C14 as amended: after `exThree` Ana's active tasks carry the ids
1 and 3. -/
theorem C14_active_ids_distinct_witness :
    (([⟨1, "Leer", "Bajo", exDate, exEstudio, []⟩,
       ⟨3, "Correr", "Medio", exDate, exHogar, []⟩] : List Task).map Task.id).Pairwise
        (fun a b => a < b) ∧
    (([⟨1, "Leer", "Bajo", exDate, exEstudio, []⟩,
       ⟨3, "Correr", "Medio", exDate, exHogar, []⟩] : List Task).map Task.id).Nodup :=
  C14_active_ids_distinct exSchedule exThree
    ⟨1, "Ana", "Lopez", 22,
      [⟨1, "Leer", "Bajo", exDate, exEstudio, []⟩,
       ⟨3, "Correr", "Medio", exDate, exHogar, []⟩],
      [⟨2, "Barrer", "Bajo", exDate, exHogar, []⟩]⟩
    (by decide)

/-- Closed form of `addTask` into the completed container: the new id is the id
of the last completed task (0 when there is none) plus 1. -/
theorem addTask_completed_eq {people : PersonList} {personId : Int} {person : Person}
    (task : Task) (hp : findById people personId = some person) :
    addTask people personId task true =
      .ok (store people personId
        { person with
          completedTasks := person.completedTasks ++
            [{ task with id := (person.completedTasks.getLast?.map Task.id).getD 0 + 1 }] }) := by
  cases hlast : person.completedTasks.getLast? with
  | none => simp [addTask, hp, Container.get, hlast, insertLast]
  | some last => simp [addTask, hp, Container.get, hlast, insertLast]

/-- C15, counterexample.  Active container: in `exReuse` the first `addTask`
hands out the id 1, the task is completed, and the next `addTask` into the same
container hands out the id 1 again.  Completed container: in `exMixed` the
second `addTask` into it hands out the id 2, a task moved from the active
container arrives with the id 1, and the next `addTask` into the completed
container hands out the id 2 again, although no task has left it. -/
theorem C15_ids_are_handed_out_again :
    (findById (run exSchedule [] (exReuse.take 2)) 1).map
        (fun person => person.activeTasks.map Task.id) = some [1] ∧
    (findById (run exSchedule [] (exReuse.take 3)) 1).map
        (fun person => person.activeTasks.map Task.id) = some [] ∧
    (findById (run exSchedule [] (exReuse.take 4)) 1).map
        (fun person => person.activeTasks.map Task.id) = some [1] ∧
    (findById (run exSchedule [] (exMixed.take 3)) 1).map
        (fun person => person.completedTasks.map Task.id) = some [1, 2] ∧
    (findById (run exSchedule [] (exMixed.take 5)) 1).map
        (fun person => person.completedTasks.map Task.id) = some [1, 2, 1] ∧
    (findById (run exSchedule [] exMixed) 1).map
        (fun person => person.completedTasks.map Task.id) = some [1, 2, 1, 2] := by
  decide

/-- C15 as amended: in every directory reached from the empty directory by a
sequence of calls, `addTask` for an existing person returns normally and the
id it assigns to a task entering the active container is strictly greater than
the id of every task residing in that container at that moment; the id it
assigns to a task entering the completed container is strictly greater than
the id of the last task of that container. -/
theorem C15_new_id_exceeds_resident_ids (schedule : Schedule) (ops : List Op)
    (personId : Int) (person : Person) (task : Task)
    (hp : findById (run schedule [] ops) personId = some person) :
    (∃ newId people',
      addTask (run schedule [] ops) personId task false = .ok people' ∧
      findById people' personId =
        some { person with
               activeTasks := person.activeTasks ++ [{ task with id := newId }] } ∧
      ∀ t ∈ person.activeTasks, t.id < newId) ∧
    (∃ newId people',
      addTask (run schedule [] ops) personId task true = .ok people' ∧
      findById people' personId =
        some { person with
               completedTasks := person.completedTasks ++ [{ task with id := newId }] } ∧
      ∀ last, person.completedTasks.getLast? = some last → last.id < newId) := by
  have hinv : ActiveIdsIncreasing (run schedule [] ops) :=
    activeIdsIncreasing_run schedule ops [] (fun q hq => by simp at hq)
  have hpid : person.id = personId := findById_id hp
  refine ⟨?_, ?_⟩
  · refine ⟨(person.activeTasks.getLast?.map Task.id).getD 0 + 1, _,
      addTask_active_eq task hp, findById_store _ hp hpid, ?_⟩
    exact lt_next_id (hinv person (mem_of_findById hp))
  · refine ⟨(person.completedTasks.getLast?.map Task.id).getD 0 + 1, _,
      addTask_completed_eq task hp, findById_store _ hp hpid, ?_⟩
    intro last hlast
    simp only [hlast, Option.map_some', Option.getD_some]
    omega

/-- Witness of C15 as amended: after `exMixed` Ana's next tasks get ids above
those in place. -/
theorem C15_new_id_exceeds_resident_ids_witness :
    (∃ newId people',
      addTask (run exSchedule [] exMixed) 1 exStudy false = .ok people' ∧
      findById people' 1 =
        some { (⟨1, "Ana", "Lopez", 22, [],
                 [⟨1, "Tesis", "Alto", exDate, exEstudio, []⟩,
                  ⟨2, "Lavar", "Bajo", exDate, exHogar, []⟩,
                  ⟨1, "Leer", "Bajo", exDate, exEstudio, []⟩,
                  ⟨2, "Correr", "Medio", exDate, exHogar, []⟩]⟩ : Person) with
               activeTasks := [] ++ [{ exStudy with id := newId }] } ∧
      ∀ t ∈ ([] : List Task), t.id < newId) ∧
    (∃ newId people',
      addTask (run exSchedule [] exMixed) 1 exStudy true = .ok people' ∧
      findById people' 1 =
        some { (⟨1, "Ana", "Lopez", 22, [],
                 [⟨1, "Tesis", "Alto", exDate, exEstudio, []⟩,
                  ⟨2, "Lavar", "Bajo", exDate, exHogar, []⟩,
                  ⟨1, "Leer", "Bajo", exDate, exEstudio, []⟩,
                  ⟨2, "Correr", "Medio", exDate, exHogar, []⟩]⟩ : Person) with
               completedTasks :=
                 [⟨1, "Tesis", "Alto", exDate, exEstudio, []⟩,
                  ⟨2, "Lavar", "Bajo", exDate, exHogar, []⟩,
                  ⟨1, "Leer", "Bajo", exDate, exEstudio, []⟩,
                  ⟨2, "Correr", "Medio", exDate, exHogar, []⟩] ++
                 [{ exStudy with id := newId }] } ∧
      ∀ last,
        ([⟨1, "Tesis", "Alto", exDate, exEstudio, []⟩,
          ⟨2, "Lavar", "Bajo", exDate, exHogar, []⟩,
          ⟨1, "Leer", "Bajo", exDate, exEstudio, []⟩,
          ⟨2, "Correr", "Medio", exDate, exHogar, []⟩] : List Task).getLast? = some last →
        last.id < newId) :=
  C15_new_id_exceeds_resident_ids exSchedule exMixed 1
    ⟨1, "Ana", "Lopez", 22, [],
      [⟨1, "Tesis", "Alto", exDate, exEstudio, []⟩,
       ⟨2, "Lavar", "Bajo", exDate, exHogar, []⟩,
       ⟨1, "Leer", "Bajo", exDate, exEstudio, []⟩,
       ⟨2, "Correr", "Medio", exDate, exHogar, []⟩]⟩
    exStudy (by decide)

/-! ## Date validation -/

/-- The leap-year test of the code, on the remainders of C, is the one of the
specification, on divisibility. -/
theorem leap_tmod_iff_dvd (year : Int) :
    ((year.tmod 4 = 0 ∧ year.tmod 100 ≠ 0) ∨ year.tmod 400 = 0) ↔
      ((4 ∣ year ∧ ¬ 100 ∣ year) ∨ 400 ∣ year) := by
  simp only [Int.dvd_iff_tmod_eq_zero, ne_eq]

/-- Closed form of `validateDates` on a text from which three numbers are read. -/
theorem validateDates_of_scanned {dateStr : String} {day0 month0 year0 d m y : Int}
    (hparse : sscanf '-' (c_str dateStr) day0 month0 year0 = ⟨3, d, m, y⟩) :
    validateDates day0 month0 year0 dateStr =
      ⟨decide (1 ≤ m ∧ m ≤ 12 ∧ 1 ≤ d ∧ d ≤ monthLength m y), d, m, y⟩ := by
  simp only [validateDates, hparse, monthLength, leap_tmod_iff_dvd]
  by_cases h1 : m < 1 ∨ m > 12
  · have hno : ¬ (1 ≤ m ∧ m ≤ 12 ∧ 1 ≤ d ∧ d ≤
        (if m = 4 ∨ m = 6 ∨ m = 9 ∨ m = 11 then 30
         else if m = 2 then if (4 ∣ y ∧ ¬ 100 ∣ y) ∨ 400 ∣ y then 29 else 28 else 31)) := by
      intro h
      omega
    simp [h1, hno]
  · have hm : 1 ≤ m ∧ m ≤ 12 := by omega
    by_cases h2 : d < 1 ∨ d >
        (if m = 4 ∨ m = 6 ∨ m = 9 ∨ m = 11 then (30 : Int)
         else if m = 2 then if (4 ∣ y ∧ ¬ 100 ∣ y) ∨ 400 ∣ y then 29 else 28 else 31)
    · have hno : ¬ (1 ≤ m ∧ m ≤ 12 ∧ 1 ≤ d ∧ d ≤
          (if m = 4 ∨ m = 6 ∨ m = 9 ∨ m = 11 then 30
           else if m = 2 then if (4 ∣ y ∧ ¬ 100 ∣ y) ∨ 400 ∣ y then 29 else 28 else 31)) := by
        intro h
        omega
      simp [h1, h2, hno]
    · have hyes : 1 ≤ m ∧ m ≤ 12 ∧ 1 ≤ d ∧ d ≤
          (if m = 4 ∨ m = 6 ∨ m = 9 ∨ m = 11 then 30
           else if m = 2 then if (4 ∣ y ∧ ¬ 100 ∣ y) ∨ 400 ∣ y then 29 else 28 else 31) := by
        refine ⟨hm.1, hm.2, ?_, ?_⟩ <;> omega
      simp [h1, h2, hyes]

/-- C16: for every date text from which `sscanf` reads three integers, day,
month and year, each of them a number that fits an `int`, `validateDates`
returns true if and only if `1 ≤ month ≤ 12` and `1 ≤ day ≤ L`, with `L` the
length of the month in that year as the specification words it
(`monthLength`); the reference parameters then hold the three numbers read.
29-02-2024 is accepted and 29-02-2023 is rejected. -/
theorem C16_validateDates_accepts_calendar_dates :
    (∀ (dateStr : String) (day0 month0 year0 d m y : Int),
      sscanf '-' (c_str dateStr) day0 month0 year0 = ⟨3, d, m, y⟩ →
      FitsInt d → FitsInt m → FitsInt y →
      ((validateDates day0 month0 year0 dateStr).valid = true ↔
        (1 ≤ m ∧ m ≤ 12 ∧ 1 ≤ d ∧ d ≤ monthLength m y)) ∧
      (validateDates day0 month0 year0 dateStr).day = d ∧
      (validateDates day0 month0 year0 dateStr).month = m ∧
      (validateDates day0 month0 year0 dateStr).year = y) ∧
    sscanf '-' (c_str "29-02-2024") 0 0 0 = ⟨3, 29, 2, 2024⟩ ∧
    (FitsInt 29 ∧ FitsInt 2 ∧ FitsInt 2024 ∧ FitsInt 2023) ∧
    validateDates 0 0 0 "29-02-2024" = ⟨true, 29, 2, 2024⟩ ∧
    sscanf '-' (c_str "29-02-2023") 0 0 0 = ⟨3, 29, 2, 2023⟩ ∧
    validateDates 0 0 0 "29-02-2023" = ⟨false, 29, 2, 2023⟩ := by
  refine ⟨?_, by decide, by decide, by decide, by decide, by decide⟩
  intro dateStr day0 month0 year0 d m y hparse _ _ _
  rw [validateDates_of_scanned hparse]
  simp

/-- What `scanDigits` consumes is a run of digits. -/
theorem scanDigits_split (cs : List Char) :
    ∀ acc : Int, ∃ digits, cs = digits ++ (scanDigits cs acc).2 ∧
      ∀ c ∈ digits, isdigit c = true := by
  induction cs with
  | nil => intro acc; exact ⟨[], rfl, by simp⟩
  | cons c cs ih =>
    intro acc
    by_cases hc : isdigit c = true
    · obtain ⟨digits, hsplit, hdigits⟩ := ih (acc * 10 + ((c.toNat : Int) - 48))
      refine ⟨c :: digits, ?_, ?_⟩
      · simp only [scanDigits, hc, if_true, List.cons_append]
        rw [← hsplit]
      · intro x hx
        rcases List.mem_cons.mp hx with hx | hx
        · rw [hx]; exact hc
        · exact hdigits x hx
    · exact ⟨[], by simp [scanDigits, hc], by simp⟩

/-- A run of digits that starts with a digit is not empty. -/
theorem scanDigits_split_cons (d : Char) (cs : List Char) (hd : isdigit d = true) :
    ∃ digits, d :: cs = digits ++ (scanDigits (d :: cs) 0).2 ∧ digits ≠ [] ∧
      ∀ c ∈ digits, isdigit c = true := by
  obtain ⟨digits, hsplit, hdigits⟩ := scanDigits_split cs (0 * 10 + ((d.toNat : Int) - 48))
  refine ⟨d :: digits, ?_, by simp, ?_⟩
  · simp only [scanDigits, hd, if_true, List.cons_append]
    rw [← hsplit]
  · intro x hx
    rcases List.mem_cons.mp hx with hx | hx
    · rw [hx]; exact hd
    · exact hdigits x hx

/-- What a successful `%d` consumes is an integer token. -/
theorem scanInt_token {input rest : List Char} {value : Int}
    (h : scanInt input = some (value, rest)) :
    ∃ token, IsIntToken token ∧ input = token ++ rest := by
  have hblank : input = input.takeWhile isspace ++ input.dropWhile isspace :=
    (List.takeWhile_append_dropWhile _ _).symm
  have hall : ∀ c ∈ input.takeWhile isspace, isspace c = true :=
    fun c hc => List.mem_takeWhile_imp hc
  unfold scanInt at h
  cases hdrop : input.dropWhile isspace with
  | nil => simp [hdrop] at h
  | cons c cs =>
    rw [hdrop] at h hblank
    simp only at h
    by_cases hminus : c = '-'
    · simp only [hminus, if_true] at h
      cases cs with
      | nil => simp at h
      | cons d ds =>
        by_cases hd : isdigit d = true
        · simp only [hd, if_true, Option.some.injEq, Prod.mk.injEq] at h
          obtain ⟨digits, hsplit, hne, hdigits⟩ := scanDigits_split_cons d ds hd
          refine ⟨input.takeWhile isspace ++ ['-'] ++ digits,
            ⟨_, ['-'], digits, rfl, hall, Or.inr (Or.inl rfl), hne, hdigits⟩, ?_⟩
          rw [← h.2]
          conv_lhs => rw [hblank, hminus, hsplit]
          simp
        · simp [hd] at h
    · by_cases hplus : c = '+'
      · simp only [hplus, if_true] at h
        have hne' : ¬ ('+' = '-') := by decide
        simp only [hne', if_false] at h
        cases cs with
        | nil => simp at h
        | cons d ds =>
          by_cases hd : isdigit d = true
          · simp only [hd, if_true, Option.some.injEq, Prod.mk.injEq] at h
            obtain ⟨digits, hsplit, hne, hdigits⟩ := scanDigits_split_cons d ds hd
            refine ⟨input.takeWhile isspace ++ ['+'] ++ digits,
              ⟨_, ['+'], digits, rfl, hall, Or.inr (Or.inr rfl), hne, hdigits⟩, ?_⟩
            rw [← h.2]
            conv_lhs => rw [hblank, hplus, hsplit]
            simp
          · simp [hd] at h
      · simp only [hminus, hplus, if_false] at h
        by_cases hc : isdigit c = true
        · simp only [hc, if_true, Option.some.injEq, Prod.mk.injEq] at h
          obtain ⟨digits, hsplit, hne, hdigits⟩ := scanDigits_split_cons c cs hc
          refine ⟨input.takeWhile isspace ++ [] ++ digits,
            ⟨_, [], digits, rfl, hall, Or.inl rfl, hne, hdigits⟩, ?_⟩
          rw [← h.2]
          conv_lhs => rw [hblank, hsplit]
          simp
        · simp [hc] at h

/-- Three conversions are made only on a text that begins with three integer
tokens separated by `-`. -/
theorem sscanf_three_tokens {input : List Char} {first second third : Int}
    (h : (sscanf '-' input first second third).count = 3) :
    StartsWithThreeTokens input := by
  unfold sscanf at h
  cases h1 : scanInt input with
  | none =>
    simp only [h1] at h
    split at h <;> simp at h
  | some p1 =>
    obtain ⟨a, rest1⟩ := p1
    simp only [h1] at h
    cases rest1 with
    | nil => simp at h
    | cons c1 rest1 =>
      simp only at h
      by_cases hc1 : c1 = '-'
      · simp only [hc1, if_true] at h
        cases h2 : scanInt rest1 with
        | none => simp [h2] at h
        | some p2 =>
          obtain ⟨b, rest2⟩ := p2
          simp only [h2] at h
          cases rest2 with
          | nil => simp at h
          | cons c2 rest2 =>
            simp only at h
            by_cases hc2 : c2 = '-'
            · simp only [hc2, if_true] at h
              cases h3 : scanInt rest2 with
              | none => simp [h3] at h
              | some p3 =>
                obtain ⟨c, rest3⟩ := p3
                obtain ⟨t1, ht1, e1⟩ := scanInt_token h1
                obtain ⟨t2, ht2, e2⟩ := scanInt_token h2
                obtain ⟨t3, ht3, e3⟩ := scanInt_token h3
                refine ⟨t1, t2, t3, rest3, ?_, ht1, ht2, ht3⟩
                rw [e1, hc1, e2, hc2, e3]
            · simp [hc2] at h
      · simp [hc1] at h

/-- C17, evaluated at the failing input: the text "1-2-2024-5" has a fourth token
behind the three that are read, so its token count is wrong; `validateDates`
does not reject it but returns true with day 1, month 2, year 2024. -/
theorem C17_trailing_token_accepted :
    validateDates 0 0 0 "1-2-2024-5" = ⟨true, 1, 2, 2024⟩ := by
  decide

/-- The part of the token-count check that the code does perform: for every
date text that does not begin with three integer tokens separated by `-`
(fewer than three tokens), `validateDates` returns false, whatever its
reference parameters held. -/
theorem validateDates_rejects_short_texts (dateStr : String) (day0 month0 year0 : Int)
    (hshort : ¬ StartsWithThreeTokens (c_str dateStr)) :
    (validateDates day0 month0 year0 dateStr).valid = false := by
  have hcount : (sscanf '-' (c_str dateStr) day0 month0 year0).count ≠ 3 :=
    fun h => hshort (sscanf_three_tokens h)
  simp [validateDates, hcount]

/-- A text that begins with three tokens contains the separator twice. -/
theorem startsWithThreeTokens_count {text : List Char} (h : StartsWithThreeTokens text) :
    2 ≤ text.count '-' := by
  obtain ⟨t1, t2, t3, rest, htext, _, _, _⟩ := h
  rw [htext]
  simp only [List.count_append, List.count_cons_self]
  omega

/-- The text "1-2" has two tokens only and is rejected. -/
theorem validateDates_rejects_short_texts_example :
    (validateDates 0 0 0 "1-2").valid = false :=
  validateDates_rejects_short_texts "1-2" 0 0 0
    (fun h => absurd (startsWithThreeTokens_count h) (by decide))

/-! ## Changing the schedule of a task -/

namespace Container

end Container

theorem progressInRange_store {people : PersonList} (h : ProgressInRange people)
    (personId : Int) (person : Person)
    (hperson : ∀ task ∈ person.activeTasks ++ person.completedTasks, task.progressInRange) :
    ProgressInRange (store people personId person) := by
  intro q hq
  rcases mem_store hq with hq | hq
  · rw [hq]
    exact hperson
  · exact h q hq

/-- Replacing the task at an index by one whose subtasks are in range. -/
theorem progressInRange_setAt {person : Person} {taskIndex : Int} {task' : Task}
    (hold : ∀ t ∈ person.activeTasks ++ person.completedTasks, t.progressInRange)
    (hnew : task'.progressInRange) :
    ∀ t ∈ setAt person.activeTasks taskIndex task' ++ person.completedTasks,
      t.progressInRange := by
  intro t hmem
  rcases List.mem_append.mp hmem with hmem | hmem
  · rcases mem_setAt hmem with hmem | hmem
    · rw [hmem]
      exact hnew
    · exact hold t (List.mem_append_left _ hmem)
  · exact hold t (List.mem_append_right _ hmem)

/-- Replacing the task with an id by one whose subtasks are in range. -/
theorem progressInRange_storeTask {person : Person} {taskId : Int} {task' : Task}
    (hold : ∀ t ∈ person.activeTasks ++ person.completedTasks, t.progressInRange)
    (hnew : task'.progressInRange) :
    ∀ t ∈ store person.activeTasks taskId task' ++ person.completedTasks,
      t.progressInRange := by
  intro t hmem
  rcases List.mem_append.mp hmem with hmem | hmem
  · rcases mem_store hmem with hmem | hmem
    · rw [hmem]
      exact hnew
    · exact hold t (List.mem_append_left _ hmem)
  · exact hold t (List.mem_append_right _ hmem)

/-- Rewriting one subtask with a progress in range keeps the task in range. -/
theorem progressInRange_subTask {task : Task} {subTaskIndex : Int} {updated : SubTask}
    (hold : task.progressInRange)
    (hnew : 0 ≤ updated.progress ∧ updated.progress ≤ 100) :
    ({ task with subTasks := setAt task.subTasks subTaskIndex updated } : Task).progressInRange := by
  intro st hst
  rcases mem_setAt hst with hst | hst
  · rw [hst]
    exact hnew
  · exact hold st hst

theorem progressInRange_addTask {people : PersonList} (h : ProgressInRange people)
    (personId : Int) (task : Task) (completed : Bool) (hfresh : task.subTasks = []) :
    ProgressInRange (addTask people personId task completed).people := by
  cases hp : findById people personId with
  | none =>
    simp only [addTask, hp, Outcome.people]
    exact h
  | some person =>
    have hold := h person (mem_of_findById hp)
    have hnew : ∀ newId : Int, ({ task with id := newId } : Task).progressInRange := by
      intro newId st hst
      simp [hfresh] at hst
    cases completed with
    | true =>
      rw [addTask_completed_eq task hp]
      simp only [Outcome.people]
      apply progressInRange_store h
      intro t ht
      simp only [List.mem_append, List.mem_singleton] at ht
      rcases ht with ht | ht | ht
      · exact hold t (List.mem_append_left _ ht)
      · exact hold t (List.mem_append_right _ ht)
      · rw [ht]
        exact hnew _
    | false =>
      rw [addTask_active_eq task hp]
      simp only [Outcome.people]
      apply progressInRange_store h
      intro t ht
      simp only [List.mem_append, List.mem_singleton] at ht
      rcases ht with (ht | ht) | ht
      · exact hold t (List.mem_append_left _ ht)
      · rw [ht]
        exact hnew _
      · exact hold t (List.mem_append_right _ ht)

theorem progressInRange_addSubTask {people : PersonList} (h : ProgressInRange people)
    (personId taskIndex : Int) (subTask : SubTask)
    (hsub : 0 ≤ subTask.progress ∧ subTask.progress ≤ 100) :
    ProgressInRange (addSubTask people personId taskIndex subTask).people := by
  cases hp : findById people personId with
  | none =>
    simp only [addSubTask, hp, Outcome.people]
    exact h
  | some person =>
    have hold := h person (mem_of_findById hp)
    cases ht : Container.get person.activeTasks taskIndex with
    | none =>
      simp only [addSubTask, hp, ht, Outcome.people]
      exact h
    | some task =>
      by_cases hstudy : task.type.name = "Estudio"
      · simp only [addSubTask, hp, ht, hstudy, if_true, Outcome.people]
        apply progressInRange_store h
        apply progressInRange_setAt hold
        intro st hst
        simp only [insertLast, List.mem_append, List.mem_singleton] at hst
        rcases hst with hst | hst
        · exact hold task (List.mem_append_left _ (mem_of_get ht)) st hst
        · rw [hst]
          exact hsub
      · simp only [addSubTask, hp, ht, hstudy, if_false, Outcome.people]
        exact h

theorem progressInRange_modifyActiveTask (schedule : Schedule) {people : PersonList}
    (h : ProgressInRange people) (personId taskIndex : Int) (newDate newTime : String) :
    ProgressInRange
      (modifyActiveTask schedule people personId taskIndex newDate newTime).people := by
  cases hp : findById people personId with
  | none =>
    simp only [modifyActiveTask, hp, Outcome.people]
    exact h
  | some person =>
    have hold := h person (mem_of_findById hp)
    cases ht : Container.get person.activeTasks taskIndex with
    | none =>
      simp only [modifyActiveTask, hp, ht, Outcome.people]
      exact h
    | some task =>
      have hkeep : ∀ d : Tm, ProgressInRange (store people personId
          { person with
            activeTasks := setAt person.activeTasks taskIndex { task with date := d } }) := by
        intro d
        apply progressInRange_store h
        exact progressInRange_setAt hold
          (hold task (List.mem_append_left _ (mem_of_get ht)))
      simp only [modifyActiveTask, hp, ht]
      cases (schedule.setDate task.date newDate).2 with
      | some what => exact hkeep _
      | none =>
        simp only
        cases (schedule.setTime (schedule.setDate task.date newDate).1 newTime).2 with
        | some what => exact hkeep _
        | none => exact hkeep _

theorem progressInRange_completeTask {people : PersonList} (h : ProgressInRange people)
    (personId taskId : Int) :
    ProgressInRange (completeTask people personId taskId).people := by
  cases hp : findById people personId with
  | none =>
    simp only [completeTask, hp, Outcome.people]
    exact h
  | some person =>
    have hold := h person (mem_of_findById hp)
    cases hr : removeById person.activeTasks taskId with
    | none =>
      simp only [completeTask, hp, hr, Outcome.people]
      exact h
    | some pair =>
      obtain ⟨task, rest⟩ := pair
      obtain ⟨htask, hrest⟩ := removeById_mem hr
      simp only [completeTask, hp, hr, Outcome.people]
      apply progressInRange_store h
      intro t hmem
      simp only [insertLast, List.mem_append, List.mem_singleton] at hmem
      rcases hmem with hmem | hmem | hmem
      · exact hold t (List.mem_append_left _ (hrest t hmem))
      · exact hold t (List.mem_append_right _ hmem)
      · rw [hmem]
        exact hold task (List.mem_append_left _ htask)

theorem progressInRange_completeSubTask {people : PersonList} (h : ProgressInRange people)
    (personId taskId subTaskIndex : Int) :
    ProgressInRange (completeSubTask people personId taskId subTaskIndex).people := by
  cases hp : findById people personId with
  | none =>
    simp only [completeSubTask, hp, Outcome.people]
    exact h
  | some person =>
    have hold := h person (mem_of_findById hp)
    cases ht : findById person.activeTasks taskId with
    | none =>
      simp only [completeSubTask, hp, ht, Outcome.people]
      exact h
    | some task =>
      cases hs : Container.get task.subTasks subTaskIndex with
      | none =>
        simp only [completeSubTask, hp, ht, hs, Outcome.people]
        exact h
      | some subTask =>
        simp only [completeSubTask, hp, ht, hs, Outcome.people]
        apply progressInRange_store h
        apply progressInRange_storeTask hold
        exact progressInRange_subTask
          (hold task (List.mem_append_left _ (mem_of_findById ht)))
          ⟨by norm_num, by norm_num⟩

theorem progressInRange_subTaskProgress {people : PersonList} (h : ProgressInRange people)
    (personId taskId subTaskIndex : Int) (newProgress : Rat)
    (hnew : 0 ≤ newProgress ∧ newProgress ≤ 100) :
    ProgressInRange
      (subTaskProgress people personId taskId subTaskIndex newProgress).people := by
  cases hp : findById people personId with
  | none =>
    simp only [subTaskProgress, hp, Outcome.people]
    exact h
  | some person =>
    have hold := h person (mem_of_findById hp)
    cases ht : findById person.activeTasks taskId with
    | none =>
      simp only [subTaskProgress, hp, ht, Outcome.people]
      exact h
    | some task =>
      cases hs : Container.get task.subTasks subTaskIndex with
      | none =>
        simp only [subTaskProgress, hp, ht, hs, Outcome.people]
        exact h
      | some subTask =>
        have hkeep : ProgressInRange (store people personId
            { person with
              activeTasks := store person.activeTasks taskId
                { task with
                  subTasks := setAt task.subTasks subTaskIndex
                    { subTask with progress := newProgress,
                                   completed := decide (newProgress = 100) } } }) := by
          apply progressInRange_store h
          apply progressInRange_storeTask hold
          exact progressInRange_subTask
            (hold task (List.mem_append_left _ (mem_of_findById ht))) hnew
        simp only [subTaskProgress, hp, ht, hs]
        split
        · exact hkeep
        · exact progressInRange_completeTask hkeep _ _

theorem progressInRange_step (schedule : Schedule) {people : PersonList}
    (h : ProgressInRange people) (op : Op) (hop : op.progressInRange) :
    ProgressInRange (step schedule people op) := by
  cases op with
  | insertPerson id name lastname age =>
    intro q hq
    simp only [step, PersonList.insert, insertLast, List.mem_append, List.mem_singleton] at hq
    rcases hq with hq | hq
    · exact h q hq
    · subst hq
      intro task htask
      simp at htask
  | addTask personId description importance date type completed =>
    exact progressInRange_addTask h _ _ _ rfl
  | addSubTask personId taskIndex subTask => exact progressInRange_addSubTask h _ _ _ hop
  | modifyActiveTask personId taskIndex newDate newTime =>
    exact progressInRange_modifyActiveTask schedule h _ _ _ _
  | completeTask personId taskId => exact progressInRange_completeTask h _ _
  | completeSubTask personId taskId subTaskIndex =>
    exact progressInRange_completeSubTask h _ _ _
  | subTaskProgress personId taskId subTaskIndex newProgress =>
    exact progressInRange_subTaskProgress h _ _ _ _ hop

theorem progressInRange_run (schedule : Schedule) (ops : List Op) :
    ∀ people, ProgressInRange people → (∀ op ∈ ops, op.progressInRange) →
      ProgressInRange (run schedule people ops) := by
  induction ops with
  | nil => intro people h _; exact h
  | cons op ops ih =>
    intro people h hops
    exact ih _ (progressInRange_step schedule h op (hops op (List.mem_cons_self _ _)))
      (fun o ho => hops o (List.mem_cons_of_mem _ ho))

/-- C19, counterexample: both subtasks of Bea's study task start with progress
50; `subTaskProgress` with the new progress 150 returns normally and leaves the
targeted subtask with progress 150, outside [0, 100]. -/
theorem C19_progress_leaves_range :
    (∀ subTask ∈ exStudy.subTasks, 0 ≤ subTask.progress ∧ subTask.progress ≤ 100) ∧
    subTaskProgress [exBea] 8 1 0 150 =
      .ok [{ exBea with
             activeTasks :=
               [{ exStudy with
                  subTasks := [⟨"Calculo", "Estudiar", 150, false⟩,
                               ⟨"Fisica", "Revisar", 50, false⟩] }] }] ∧
    ¬ ((⟨"Calculo", "Estudiar", 150, false⟩ : SubTask).progress ≤ 100) := by
  refine ⟨?_, by decide, by norm_num⟩
  intro subTask hsub
  simp only [exStudy, List.mem_cons, List.mem_singleton, List.not_mem_nil, or_false] at hsub
  rcases hsub with h | h <;> rw [h] <;> norm_num

/-- C19 as amended: the progress stays in range as long as the callers hand
over values in range.  In every directory reached from the empty directory by
calls whose subtasks (`addSubTask`) and new progress values (`subTaskProgress`)
lie in [0, 100], every subtask has a progress in [0, 100]; and a call of
`subTaskProgress` there that finds person, task and subtask and is given a new
progress in [0, 100] returns normally, leaves the targeted subtask with exactly
that progress, in [0, 100], and every subtask of the directory in range. -/
theorem C19_progress_in_range_for_in_range_calls (schedule : Schedule) (ops : List Op)
    (personId taskId subTaskIndex : Int) (newProgress : Rat)
    (person : Person) (task : Task) (subTask : SubTask)
    (hops : ∀ op ∈ ops, op.progressInRange)
    (hp : findById (run schedule [] ops) personId = some person)
    (ht : findById person.activeTasks taskId = some task)
    (hs : get task.subTasks subTaskIndex = some subTask)
    (hnew : 0 ≤ newProgress ∧ newProgress ≤ 100) :
    ProgressInRange (run schedule [] ops) ∧
    ∃ people' person' updated pre post,
      subTaskProgress (run schedule [] ops) personId taskId subTaskIndex newProgress =
        .ok people' ∧
      findById people' personId = some person' ∧
      task.subTasks = pre ++ subTask :: post ∧
      { task with subTasks := pre ++ updated :: post } ∈
        person'.activeTasks ++ person'.completedTasks ∧
      updated.progress = newProgress ∧
      0 ≤ updated.progress ∧ updated.progress ≤ 100 ∧
      ProgressInRange people' := by
  have hinv : ProgressInRange (run schedule [] ops) :=
    progressInRange_run schedule ops [] (fun q hq => by simp at hq) hops
  have hpid : person.id = personId := findById_id hp
  obtain ⟨before, after, hact, hbefore, hid⟩ := findById_split ht
  obtain ⟨pre, post, hsub, _, _, hset⟩ := get_split hs
  have hrun := subTaskProgress_split newProgress hp hact hbefore hid hs hset
  have hafter := progressInRange_subTaskProgress hinv personId taskId subTaskIndex
    newProgress hnew
  rw [hrun] at hafter
  refine ⟨hinv, ?_⟩
  by_cases h100 : newProgress = 100
  · rw [if_pos h100] at hrun hafter
    exact ⟨_, _, { subTask with progress := newProgress, completed := true }, pre, post,
      hrun, findById_store _ hp hpid, hsub, by simp, rfl, hnew.1, hnew.2, hafter⟩
  · rw [if_neg h100] at hrun hafter
    exact ⟨_, _, { subTask with progress := newProgress, completed := false }, pre, post,
      hrun, findById_store _ hp hpid, hsub, by simp, rfl, hnew.1, hnew.2, hafter⟩

/-- Witness of C19 as amended: after `exStart` the subtask of Bea's task is set
from 50 to 75. -/
theorem C19_progress_in_range_for_in_range_calls_witness :
    ProgressInRange (run exSchedule [] exStart) ∧
    ∃ people' person' updated pre post,
      subTaskProgress (run exSchedule [] exStart) 8 1 0 75 = .ok people' ∧
      findById people' 8 = some person' ∧
      [(⟨"Calculo", "Estudiar", 50, false⟩ : SubTask)] =
        pre ++ (⟨"Calculo", "Estudiar", 50, false⟩ : SubTask) :: post ∧
      { (⟨1, "Examenes", "Medio", exDate, exEstudio,
           [⟨"Calculo", "Estudiar", 50, false⟩]⟩ : Task) with
        subTasks := pre ++ updated :: post } ∈
        person'.activeTasks ++ person'.completedTasks ∧
      updated.progress = 75 ∧
      0 ≤ updated.progress ∧ updated.progress ≤ 100 ∧
      ProgressInRange people' :=
  C19_progress_in_range_for_in_range_calls exSchedule exStart 8 1 0 75
    ⟨8, "Bea", "Mora", 30,
      [⟨1, "Examenes", "Medio", exDate, exEstudio, [⟨"Calculo", "Estudiar", 50, false⟩]⟩], []⟩
    ⟨1, "Examenes", "Medio", exDate, exEstudio, [⟨"Calculo", "Estudiar", 50, false⟩]⟩
    ⟨"Calculo", "Estudiar", 50, false⟩
    (by
      intro op hop
      simp only [exStart, List.mem_cons, List.mem_singleton, List.not_mem_nil, or_false] at hop
      rcases hop with h | h | h
      · rw [h]
        exact True.intro
      · rw [h]
        exact True.intro
      · rw [h]
        simp only [Op.progressInRange]
        norm_num)
    (by decide) (by decide) (by decide) (by norm_num)

/-! ## Sorting by date -/

/-- The test of the code fails exactly when the two tasks are in date order. -/
theorem dueAfter_eq_false_iff (a b : Task) :
    dueAfter a b = false ↔
      (a.date.tm_year < b.date.tm_year ∨
        (a.date.tm_year = b.date.tm_year ∧ a.date.tm_yday ≤ b.date.tm_yday)) := by
  simp only [dueAfter, Bool.or_eq_false_iff, Bool.and_eq_false_iff, decide_eq_false_iff_not]
  omega

/-- Two tasks are never each due after the other. -/
theorem dueAfter_asymm {a b : Task} (h : dueAfter a b = true) : dueAfter b a = false := by
  simp only [dueAfter, Bool.or_eq_true, Bool.and_eq_true, decide_eq_true_eq] at h
  rw [dueAfter_eq_false_iff]
  omega

/-- A pass relinks the nodes it walks over and loses none. -/
theorem pasada_perm (behind : List Task) :
    ∀ temp : Task, List.Perm (pasada temp behind).1 (temp :: behind) := by
  induction behind with
  | nil => intro temp; exact List.Perm.refl _
  | cons siguiente behind ih =>
    intro temp
    cases h : dueAfter temp siguiente with
    | true =>
      simp only [pasada, h, if_true]
      exact ((ih temp).cons siguiente).trans (List.Perm.swap _ _ _)
    | false =>
      simp only [pasada, h, Bool.false_eq_true, if_false]
      exact (ih siguiente).cons temp

/-- A pass that does not set `cambios` has found every node in date order with
its successor and has left the list as it was. -/
theorem pasada_unchanged (behind : List Task) :
    ∀ temp : Task, (pasada temp behind).2 = false →
      (pasada temp behind).1 = temp :: behind ∧
      List.Chain' (fun a b => dueAfter a b = false) (temp :: behind) := by
  induction behind with
  | nil => intro temp _; exact ⟨rfl, List.chain'_singleton _⟩
  | cons siguiente behind ih =>
    intro temp hflag
    cases h : dueAfter temp siguiente with
    | true => simp [pasada, h] at hflag
    | false =>
      simp only [pasada, h, Bool.false_eq_true, if_false] at hflag ⊢
      obtain ⟨hsame, hchain⟩ := ih siguiente hflag
      exact ⟨by rw [hsame], List.Chain'.cons h hchain⟩

/-- A pass never adds an inversion, and removes one whenever it sets `cambios`. -/
theorem pasada_inversions (behind : List Task) :
    ∀ temp : Task,
      inversions (pasada temp behind).1 ≤ inversions (temp :: behind) ∧
      ((pasada temp behind).2 = true →
        inversions (pasada temp behind).1 < inversions (temp :: behind)) := by
  induction behind with
  | nil =>
    intro temp
    exact ⟨Nat.le_refl _, fun h => by simp [pasada] at h⟩
  | cons siguiente behind ih =>
    intro temp
    cases h : dueAfter temp siguiente with
    | true =>
      have hback : dueAfter siguiente temp = false := dueAfter_asymm h
      have hcount : (pasada temp behind).1.countP (dueAfter siguiente) =
          behind.countP (dueAfter siguiente) := by
        rw [(pasada_perm behind temp).countP_eq]
        simp [List.countP_cons, hback]
      have hle := (ih temp).1
      have hlt : inversions (siguiente :: (pasada temp behind).1) <
          inversions (temp :: siguiente :: behind) := by
        simp only [inversions, hcount, List.countP_cons, h, if_true] at hle ⊢
        omega
      simp only [pasada, h, if_true]
      exact ⟨Nat.le_of_lt hlt, fun _ => hlt⟩
    | false =>
      have hcount : (pasada siguiente behind).1.countP (dueAfter temp) =
          (siguiente :: behind).countP (dueAfter temp) :=
        (pasada_perm behind siguiente).countP_eq _
      simp only [pasada, h, Bool.false_eq_true, if_false]
      refine ⟨?_, ?_⟩
      · have hle := (ih siguiente).1
        simp only [inversions, hcount] at hle ⊢
        omega
      · intro hflag
        have hlt := (ih siguiente).2 hflag
        simp only [inversions, hcount] at hlt ⊢
        omega

/-- With more passes allowed than the list has inversions, the outer loop ends
and returns the tasks in date order. -/
theorem ordenarLoop_sorted (fuel : Nat) :
    ∀ tasks : List Task, tasks ≠ [] → inversions tasks < fuel →
      ∃ sorted, ordenarLoop fuel tasks = .returned sorted ∧
        List.Chain' (fun a b => dueAfter a b = false) sorted ∧ List.Perm sorted tasks := by
  induction fuel with
  | zero => intro tasks _ h; omega
  | succ fuel ih =>
    intro tasks hne hfuel
    cases tasks with
    | nil => exact absurd rfl hne
    | cons head behind =>
      by_cases hflag : (pasada head behind).2 = true
      · have hlt := (pasada_inversions behind head).2 hflag
        have hperm := pasada_perm behind head
        have hne2 : (pasada head behind).1 ≠ [] := by
          intro hnil
          rw [hnil] at hperm
          exact absurd hperm.symm.eq_nil (by simp)
        obtain ⟨sorted, hrun, hchain, hp⟩ := ih _ hne2 (by omega)
        exact ⟨sorted, by simp only [ordenarLoop, hflag, if_true, hrun], hchain,
          hp.trans hperm⟩
      · have hfalse : (pasada head behind).2 = false := by simpa using hflag
        obtain ⟨hsame, hchain⟩ := pasada_unchanged behind head hfalse
        refine ⟨head :: behind, ?_, hchain, List.Perm.refl _⟩
        simp only [ordenarLoop, hfalse, Bool.false_eq_true, if_false, hsame]

/-- C20: for every non-empty task list, `ordenarPorFecha` returns, as soon as
the model allows more passes of its outer loop than the list has pairs in the
wrong order, and the list it returns is ordered by date: for every two
adjacent tasks a, b of the result, a's year is less than b's year, or the years
are equal and a's day of the year is at most b's. -/
theorem C20_ordenarPorFecha_orders_by_date (fuel : Nat) (tasks : List Task)
    (hne : tasks ≠ []) (hfuel : inversions tasks < fuel) :
    ∃ sorted, ordenarPorFecha fuel tasks = .returned sorted ∧
      List.Chain'
        (fun a b =>
          a.date.tm_year < b.date.tm_year ∨
            (a.date.tm_year = b.date.tm_year ∧ a.date.tm_yday ≤ b.date.tm_yday))
        sorted := by
  have hrel : ∀ sorted : List Task,
      List.Chain' (fun a b => dueAfter a b = false) sorted →
      List.Chain'
        (fun a b =>
          a.date.tm_year < b.date.tm_year ∨
            (a.date.tm_year = b.date.tm_year ∧ a.date.tm_yday ≤ b.date.tm_yday))
        sorted :=
    fun sorted h => h.imp (fun {a b} hab => (dueAfter_eq_false_iff a b).mp hab)
  cases tasks with
  | nil => exact absurd rfl hne
  | cons head rest =>
    cases rest with
    | nil => exact ⟨[head], rfl, List.chain'_singleton _⟩
    | cons next behind =>
      obtain ⟨sorted, hrun, hchain, _⟩ :=
        ordenarLoop_sorted fuel (head :: next :: behind) hne hfuel
      exact ⟨sorted, by simpa only [ordenarPorFecha] using hrun, hrel sorted hchain⟩

/-- Witness of C20: the three tasks of `exUnsorted`, which have two pairs in the
wrong order, with three passes allowed. -/
theorem C20_ordenarPorFecha_orders_by_date_witness :
    ∃ sorted, ordenarPorFecha 3 exUnsorted = .returned sorted ∧
      List.Chain'
        (fun a b =>
          a.date.tm_year < b.date.tm_year ∨
            (a.date.tm_year = b.date.tm_year ∧ a.date.tm_yday ≤ b.date.tm_yday))
        sorted :=
  C20_ordenarPorFecha_orders_by_date 3 exUnsorted (by decide) (by decide)

/-! ## What `subTaskProgress` does, value by value -/

/-- C22: for every existing person, active task (found by its id), valid subtask
index and new progress different from 100, `subTaskProgress` returns normally;
the targeted subtask gets the new progress and `completed = false` (also when
it was completed before), and nothing else changes: the task stays at its place
in the active container, the tasks before and after it, the subtasks before and
after the targeted one, the completed container and the other persons of the
directory are the same. -/
theorem C22_progress_below_100_keeps_task_active (people : PersonList)
    (personId taskId subTaskIndex : Int) (newProgress : Rat)
    (person : Person) (task : Task) (subTask : SubTask)
    (hp : findById people personId = some person)
    (ht : findById person.activeTasks taskId = some task)
    (hs : get task.subTasks subTaskIndex = some subTask)
    (hnot : newProgress ≠ 100) :
    ∃ ahead behind before after pre post,
      people = ahead ++ person :: behind ∧
      person.activeTasks = before ++ task :: after ∧
      task.subTasks = pre ++ subTask :: post ∧
      (subTaskIndex = -1 → post = []) ∧ (0 ≤ subTaskIndex → pre.length = subTaskIndex.toNat) ∧
      subTaskProgress people personId taskId subTaskIndex newProgress =
        .ok (ahead ++
          { person with
            activeTasks :=
              before ++
                { task with
                  subTasks :=
                    pre ++ { subTask with progress := newProgress, completed := false } :: post }
                :: after }
          :: behind) := by
  obtain ⟨ahead, behind, hpeople, hahead, hpid⟩ := findById_split hp
  obtain ⟨before, after, hact, hbefore, hid⟩ := findById_split ht
  obtain ⟨pre, post, hsub, hlast, hpos, hset⟩ := get_split hs
  refine ⟨ahead, behind, before, after, pre, post, hpeople, hact, hsub, hlast, hpos, ?_⟩
  rw [subTaskProgress_split newProgress hp hact hbefore hid hs hset, if_neg hnot]
  rw [hpeople, store_append_cons ahead behind person _ personId hahead hpid]

/-- Witness of C22: the completed first subtask of Carlos's task is lowered from
100 to 40. -/
theorem C22_progress_below_100_keeps_task_active_witness :
    ∃ ahead behind before after pre post,
      [exCarlos] = ahead ++ exCarlos :: behind ∧
      exCarlos.activeTasks = before ++ exHalfDone :: after ∧
      exHalfDone.subTasks = pre ++ (⟨"Calculo", "Estudiar", 100, true⟩ : SubTask) :: post ∧
      ((0 : Int) = -1 → post = []) ∧ ((0 : Int) ≤ 0 → pre.length = (0 : Int).toNat) ∧
      subTaskProgress [exCarlos] 9 1 0 40 =
        .ok (ahead ++
          { exCarlos with
            activeTasks :=
              before ++
                { exHalfDone with
                  subTasks :=
                    pre ++
                      { (⟨"Calculo", "Estudiar", 100, true⟩ : SubTask) with
                        progress := 40, completed := false } :: post }
                :: after }
          :: behind) :=
  C22_progress_below_100_keeps_task_active [exCarlos] 9 1 0 40 exCarlos exHalfDone
    ⟨"Calculo", "Estudiar", 100, true⟩ (by decide) (by decide) (by decide) (by norm_num)

/-- C23: for every existing person, active task (found by its id) and valid
subtask index, `subTaskProgress` with the new progress 100 returns normally,
marks the targeted subtask completed and moves the task from its place in the
active container to the end of the completed container, whatever the
`completed` flags of the other subtasks of the task are: no iteration of the
loop, which tests the updated subtask each time, returns. -/
theorem C23_progress_100_moves_task (people : PersonList)
    (personId taskId subTaskIndex : Int)
    (person : Person) (task : Task) (subTask : SubTask)
    (hp : findById people personId = some person)
    (ht : findById person.activeTasks taskId = some task)
    (hs : get task.subTasks subTaskIndex = some subTask) :
    ∃ ahead behind before after pre post,
      people = ahead ++ person :: behind ∧
      person.activeTasks = before ++ task :: after ∧
      task.subTasks = pre ++ subTask :: post ∧
      (subTaskIndex = -1 → post = []) ∧ (0 ≤ subTaskIndex → pre.length = subTaskIndex.toNat) ∧
      (∀ iterations,
        loopReturns { subTask with progress := 100, completed := true } iterations = false) ∧
      subTaskProgress people personId taskId subTaskIndex 100 =
        .ok (ahead ++
          { person with
            activeTasks := before ++ after,
            completedTasks :=
              person.completedTasks ++
                [{ task with
                   subTasks :=
                     pre ++ { subTask with progress := 100, completed := true } :: post }] }
          :: behind) := by
  obtain ⟨ahead, behind, hpeople, hahead, hpid⟩ := findById_split hp
  obtain ⟨before, after, hact, hbefore, hid⟩ := findById_split ht
  obtain ⟨pre, post, hsub, hlast, hpos, hset⟩ := get_split hs
  refine ⟨ahead, behind, before, after, pre, post, hpeople, hact, hsub, hlast, hpos,
    loopReturns_completed _ rfl, ?_⟩
  rw [subTaskProgress_split 100 hp hact hbefore hid hs hset, if_pos rfl]
  rw [hpeople, store_append_cons ahead behind person _ personId hahead hpid]

/-- Witness of C23: the first subtask of Bea's task is set to 100 while the
second one stays at 50, not completed. -/
theorem C23_progress_100_moves_task_witness :
    ∃ ahead behind before after pre post,
      [exBea] = ahead ++ exBea :: behind ∧
      exBea.activeTasks = before ++ exStudy :: after ∧
      exStudy.subTasks = pre ++ (⟨"Calculo", "Estudiar", 50, false⟩ : SubTask) :: post ∧
      ((0 : Int) = -1 → post = []) ∧ ((0 : Int) ≤ 0 → pre.length = (0 : Int).toNat) ∧
      (∀ iterations,
        loopReturns
          { (⟨"Calculo", "Estudiar", 50, false⟩ : SubTask) with
            progress := 100, completed := true } iterations = false) ∧
      subTaskProgress [exBea] 8 1 0 100 =
        .ok (ahead ++
          { exBea with
            activeTasks := before ++ after,
            completedTasks :=
              exBea.completedTasks ++
                [{ exStudy with
                   subTasks :=
                     pre ++
                       { (⟨"Calculo", "Estudiar", 50, false⟩ : SubTask) with
                         progress := 100, completed := true } :: post }] }
          :: behind) :=
  C23_progress_100_moves_task [exBea] 8 1 0 exBea exStudy
    ⟨"Calculo", "Estudiar", 50, false⟩ (by decide) (by decide) (by decide)

/-! ## Sorting: short lists and permutation -/

/-- More passes allowed do not change what the outer loop returns. -/
theorem ordenarLoop_mono (fuel : Nat) :
    ∀ (tasks sorted : List Task), ordenarLoop fuel tasks = .returned sorted →
      ∀ more, fuel ≤ more → ordenarLoop more tasks = .returned sorted := by
  induction fuel with
  | zero => intro tasks sorted h; simp [ordenarLoop] at h
  | succ fuel ih =>
    intro tasks sorted h more hmore
    obtain ⟨m, rfl⟩ : ∃ m, more = m + 1 := ⟨more - 1, by omega⟩
    cases tasks with
    | nil => simp [ordenarLoop] at h
    | cons head behind =>
      cases hflag : (pasada head behind).2 with
      | true =>
        simp only [ordenarLoop, hflag, if_true] at h ⊢
        exact ih _ _ h m (by omega)
      | false =>
        simp only [ordenarLoop, hflag, Bool.false_eq_true, if_false] at h ⊢
        exact h

/-- C27: for every non-empty task list `ordenarPorFecha` terminates: with any
number of passes allowed that exceeds the number of pairs in the wrong order it
returns, always the same list, and that list is a permutation of its input:
the same tasks, each as often as in the input, with all fields unchanged, and
of the same length. -/
theorem C27_ordenarPorFecha_permutes (tasks : List Task) (hne : tasks ≠ []) :
    ∃ sorted,
      (∀ fuel, inversions tasks < fuel → ordenarPorFecha fuel tasks = .returned sorted) ∧
      List.Perm sorted tasks ∧
      sorted.length = tasks.length ∧
      (∀ task, sorted.count task = tasks.count task) := by
  cases tasks with
  | nil => exact absurd rfl hne
  | cons head rest =>
    cases rest with
    | nil =>
      exact ⟨[head], fun _ _ => rfl, List.Perm.refl _, rfl, fun _ => rfl⟩
    | cons next behind =>
      obtain ⟨sorted, hrun, _, hperm⟩ :=
        ordenarLoop_sorted (inversions (head :: next :: behind) + 1)
          (head :: next :: behind) hne (Nat.lt_succ_self _)
      refine ⟨sorted, ?_, hperm, hperm.length_eq, fun task => hperm.count_eq task⟩
      intro fuel hfuel
      simp only [ordenarPorFecha]
      exact ordenarLoop_mono _ _ _ hrun fuel (by omega)

/-- Witness of C27: the three tasks of `exUnsorted`. -/
theorem C27_ordenarPorFecha_permutes_witness :
    ∃ sorted,
      (∀ fuel, inversions exUnsorted < fuel →
        ordenarPorFecha fuel exUnsorted = .returned sorted) ∧
      List.Perm sorted exUnsorted ∧
      sorted.length = exUnsorted.length ∧
      (∀ task, sorted.count task = exUnsorted.count task) :=
  C27_ordenarPorFecha_permutes exUnsorted (by decide)

/-! ## Increasing ids of the active tasks -/

/-- C29: in every directory reached from a directory in which every person has
an empty active container by a sequence of calls (registration of persons,
`addTask`, `addSubTask`, `modifyActiveTask`, `completeTask`, `completeSubTask`,
`subTaskProgress`, returning or throwing; `ordenarPorFecha` is not among them),
the ids of the tasks in the active container of every person increase strictly
from front to back: each task has a smaller id than every task behind it. -/
theorem C29_active_ids_increase (schedule : Schedule) (people : PersonList) (ops : List Op)
    (person : Person)
    (hstart : ∀ q ∈ people, q.activeTasks = [])
    (hperson : person ∈ run schedule people ops) :
    (person.activeTasks.map Task.id).Pairwise (fun a b => a < b) ∧
    List.Chain' (fun (a b : Task) => a.id < b.id) person.activeTasks := by
  have hinit : ActiveIdsIncreasing people := by
    intro q hq
    rw [hstart q hq]
    exact List.Pairwise.nil
  have hsorted := activeIdsIncreasing_run schedule ops people hinit person hperson
  refine ⟨hsorted, ?_⟩
  have hpair : person.activeTasks.Pairwise (fun (a b : Task) => a.id < b.id) :=
    List.pairwise_map.mp hsorted
  exact List.Pairwise.chain' hpair

/-- Witness of C29: Dora starts without active tasks; after `exDoraOps` her
active tasks carry the ids 1 and 3. -/
theorem C29_active_ids_increase_witness :
    (([⟨1, "Leer", "Bajo", exDate, exEstudio, []⟩,
       ⟨3, "Correr", "Medio", exDate, exHogar, []⟩] : List Task).map Task.id).Pairwise
        (fun a b => a < b) ∧
    List.Chain' (fun (a b : Task) => a.id < b.id)
      [⟨1, "Leer", "Bajo", exDate, exEstudio, []⟩,
       ⟨3, "Correr", "Medio", exDate, exHogar, []⟩] :=
  C29_active_ids_increase exSchedule [exDora] exDoraOps
    ⟨4, "Dora", "Mora", 41,
      [⟨1, "Leer", "Bajo", exDate, exEstudio, []⟩,
       ⟨3, "Correr", "Medio", exDate, exHogar, []⟩],
      [⟨5, "Tesis", "Alto", exDate, exEstudio, []⟩,
       ⟨2, "Barrer", "Bajo", exDate, exHogar, []⟩]⟩
    (by decide) (by decide)

/-! ## The other persons are left alone -/

theorem othersUntouched_refl (personId : Int) (people : PersonList) :
    OthersUntouched personId people people := by
  induction people with
  | nil => exact List.Forall₂.nil
  | cons q people ih => exact List.Forall₂.cons ⟨rfl, rfl, rfl, rfl, fun _ => rfl⟩ ih

theorem othersUntouched_trans (personId : Int) :
    ∀ (a b c : PersonList), OthersUntouched personId a b → OthersUntouched personId b c →
      OthersUntouched personId a c := by
  intro a b c hab
  induction hab generalizing c with
  | nil => intro hbc; cases hbc; exact List.Forall₂.nil
  | cons hq _ ih =>
    intro hbc
    cases hbc with
    | cons hq' hrest' =>
      obtain ⟨h1, h2, h3, h4, h5⟩ := hq
      obtain ⟨k1, k2, k3, k4, k5⟩ := hq'
      refine List.Forall₂.cons
        ⟨k1.trans h1, k2.trans h2, k3.trans h3, k4.trans h4, ?_⟩ (ih _ hrest')
      intro hne
      rw [k5 (by rw [h1]; exact hne), h5 hne]

/-- A write through the pointer of the person found for `personId` that changes
its containers only. -/
theorem othersUntouched_store {people : PersonList} {personId : Int} {person : Person}
    (person' : Person) (hp : findById people personId = some person)
    (hid : person'.id = person.id) (hname : person'.name = person.name)
    (hlast : person'.lastname = person.lastname) (hage : person'.age = person.age) :
    OthersUntouched personId people (store people personId person') := by
  obtain ⟨ahead, behind, hpeople, hahead, hpid⟩ := findById_split hp
  rw [hpeople, store_append_cons ahead behind person person' personId hahead hpid]
  clear hpeople hahead hp
  induction ahead with
  | nil =>
    exact List.Forall₂.cons ⟨hid, hname, hlast, hage, fun hne => absurd hpid hne⟩
      (othersUntouched_refl _ _)
  | cons a ahead ih => exact List.Forall₂.cons ⟨rfl, rfl, rfl, rfl, fun _ => rfl⟩ ih

theorem othersUntouched_addTask (people : PersonList) (personId : Int) (task : Task)
    (completed : Bool) :
    OthersUntouched personId people (addTask people personId task completed).people := by
  cases hp : findById people personId with
  | none =>
    simp only [addTask, hp, Outcome.people]
    exact othersUntouched_refl _ _
  | some person =>
    cases completed with
    | true =>
      simp only [addTask, hp, if_true, Outcome.people]
      exact othersUntouched_store _ hp rfl rfl rfl rfl
    | false =>
      simp only [addTask, hp, Bool.false_eq_true, if_false, Outcome.people]
      exact othersUntouched_store _ hp rfl rfl rfl rfl

theorem othersUntouched_addSubTask (people : PersonList) (personId taskIndex : Int)
    (subTask : SubTask) :
    OthersUntouched personId people (addSubTask people personId taskIndex subTask).people := by
  cases hp : findById people personId with
  | none =>
    simp only [addSubTask, hp, Outcome.people]
    exact othersUntouched_refl _ _
  | some person =>
    cases ht : Container.get person.activeTasks taskIndex with
    | none =>
      simp only [addSubTask, hp, ht, Outcome.people]
      exact othersUntouched_refl _ _
    | some task =>
      by_cases hstudy : task.type.name = "Estudio"
      · simp only [addSubTask, hp, ht, hstudy, if_true, Outcome.people]
        exact othersUntouched_store _ hp rfl rfl rfl rfl
      · simp only [addSubTask, hp, ht, hstudy, if_false, Outcome.people]
        exact othersUntouched_refl _ _

theorem othersUntouched_modifyActiveTask (schedule : Schedule) (people : PersonList)
    (personId taskIndex : Int) (newDate newTime : String) :
    OthersUntouched personId people
      (modifyActiveTask schedule people personId taskIndex newDate newTime).people := by
  cases hp : findById people personId with
  | none =>
    simp only [modifyActiveTask, hp, Outcome.people]
    exact othersUntouched_refl _ _
  | some person =>
    cases ht : Container.get person.activeTasks taskIndex with
    | none =>
      simp only [modifyActiveTask, hp, ht, Outcome.people]
      exact othersUntouched_refl _ _
    | some task =>
      have hkeep : ∀ d : Tm, OthersUntouched personId people (store people personId
          { person with
            activeTasks := setAt person.activeTasks taskIndex { task with date := d } }) :=
        fun d => othersUntouched_store _ hp rfl rfl rfl rfl
      simp only [modifyActiveTask, hp, ht]
      cases (schedule.setDate task.date newDate).2 with
      | some what => exact hkeep _
      | none =>
        simp only
        cases (schedule.setTime (schedule.setDate task.date newDate).1 newTime).2 with
        | some what => exact hkeep _
        | none => exact hkeep _

theorem othersUntouched_completeTask (people : PersonList) (personId taskId : Int) :
    OthersUntouched personId people (completeTask people personId taskId).people := by
  cases hp : findById people personId with
  | none =>
    simp only [completeTask, hp, Outcome.people]
    exact othersUntouched_refl _ _
  | some person =>
    cases hr : removeById person.activeTasks taskId with
    | none =>
      simp only [completeTask, hp, hr, Outcome.people]
      exact othersUntouched_refl _ _
    | some pair =>
      obtain ⟨task, rest⟩ := pair
      simp only [completeTask, hp, hr, Outcome.people]
      exact othersUntouched_store _ hp rfl rfl rfl rfl

theorem othersUntouched_completeSubTask (people : PersonList)
    (personId taskId subTaskIndex : Int) :
    OthersUntouched personId people
      (completeSubTask people personId taskId subTaskIndex).people := by
  cases hp : findById people personId with
  | none =>
    simp only [completeSubTask, hp, Outcome.people]
    exact othersUntouched_refl _ _
  | some person =>
    cases ht : findById person.activeTasks taskId with
    | none =>
      simp only [completeSubTask, hp, ht, Outcome.people]
      exact othersUntouched_refl _ _
    | some task =>
      cases hs : Container.get task.subTasks subTaskIndex with
      | none =>
        simp only [completeSubTask, hp, ht, hs, Outcome.people]
        exact othersUntouched_refl _ _
      | some subTask =>
        simp only [completeSubTask, hp, ht, hs, Outcome.people]
        exact othersUntouched_store _ hp rfl rfl rfl rfl

theorem othersUntouched_subTaskProgress (people : PersonList)
    (personId taskId subTaskIndex : Int) (newProgress : Rat) :
    OthersUntouched personId people
      (subTaskProgress people personId taskId subTaskIndex newProgress).people := by
  cases hp : findById people personId with
  | none =>
    simp only [subTaskProgress, hp, Outcome.people]
    exact othersUntouched_refl _ _
  | some person =>
    cases ht : findById person.activeTasks taskId with
    | none =>
      simp only [subTaskProgress, hp, ht, Outcome.people]
      exact othersUntouched_refl _ _
    | some task =>
      cases hs : Container.get task.subTasks subTaskIndex with
      | none =>
        simp only [subTaskProgress, hp, ht, hs, Outcome.people]
        exact othersUntouched_refl _ _
      | some subTask =>
        have hkeep : OthersUntouched personId people (store people personId
            { person with
              activeTasks := store person.activeTasks taskId
                { task with
                  subTasks := setAt task.subTasks subTaskIndex
                    { subTask with progress := newProgress,
                                   completed := decide (newProgress = 100) } } }) :=
          othersUntouched_store _ hp rfl rfl rfl rfl
        simp only [subTaskProgress, hp, ht, hs]
        split
        · exact hkeep
        · exact othersUntouched_trans _ _ _ _ hkeep (othersUntouched_completeTask _ _ _)

theorem targetOnlyGrows_refl (completed : Bool) (people : PersonList) :
    TargetOnlyGrows completed people people := by
  induction people with
  | nil => exact List.Forall₂.nil
  | cons q people ih =>
    refine List.Forall₂.cons ?_ ih
    cases completed
    · exact ⟨rfl, List.prefix_refl _⟩
    · exact ⟨rfl, List.prefix_refl _⟩

theorem targetOnlyGrows_addTask (people : PersonList) (personId : Int) (task : Task)
    (completed : Bool) :
    TargetOnlyGrows completed people (addTask people personId task completed).people := by
  cases hp : findById people personId with
  | none =>
    simp only [addTask, hp, Outcome.people]
    exact targetOnlyGrows_refl _ _
  | some person =>
    obtain ⟨ahead, behind, hpeople, hahead, hpid⟩ := findById_split hp
    have hgen : ∀ person' : Person,
        (if completed = true then
          person'.activeTasks = person.activeTasks ∧
            person.completedTasks <+: person'.completedTasks
        else
          person'.completedTasks = person.completedTasks ∧
            person.activeTasks <+: person'.activeTasks) →
        TargetOnlyGrows completed people (store people personId person') := by
      intro person' hgrow
      rw [hpeople, store_append_cons ahead behind person person' personId hahead hpid]
      clear hpeople hahead hp
      induction ahead with
      | nil => exact List.Forall₂.cons hgrow (targetOnlyGrows_refl _ _)
      | cons a ahead ih =>
        refine List.Forall₂.cons ?_ ih
        cases completed
        · exact ⟨rfl, List.prefix_refl _⟩
        · exact ⟨rfl, List.prefix_refl _⟩
    cases completed with
    | true =>
      rw [addTask_completed_eq task hp]
      exact hgen _ ⟨rfl, List.prefix_append _ _⟩
    | false =>
      rw [addTask_active_eq task hp]
      exact hgen _ ⟨rfl, List.prefix_append _ _⟩

/-- C30: each of the six lifecycle operations called with the person id p,
returning or throwing, leaves the directory with the same persons in the same
order (same id, name, last name and age at every position) and leaves every
person whose id is not p exactly as it was, both containers included.
`addTask` in addition leaves the container of p that is not its target as it
was and keeps the target container as the front of the new one, so the tasks
inserted before, their ids included, are unchanged. -/
theorem C30_other_persons_untouched (schedule : Schedule) (people : PersonList)
    (personId : Int) :
    (∀ task completed,
      OthersUntouched personId people (addTask people personId task completed).people ∧
      TargetOnlyGrows completed people (addTask people personId task completed).people) ∧
    (∀ taskIndex subTask,
      OthersUntouched personId people
        (addSubTask people personId taskIndex subTask).people) ∧
    (∀ taskIndex newDate newTime,
      OthersUntouched personId people
        (modifyActiveTask schedule people personId taskIndex newDate newTime).people) ∧
    (∀ taskId,
      OthersUntouched personId people (completeTask people personId taskId).people) ∧
    (∀ taskId subTaskIndex,
      OthersUntouched personId people
        (completeSubTask people personId taskId subTaskIndex).people) ∧
    (∀ taskId subTaskIndex newProgress,
      OthersUntouched personId people
        (subTaskProgress people personId taskId subTaskIndex newProgress).people) :=
  ⟨fun task completed =>
      ⟨othersUntouched_addTask people personId task completed,
        targetOnlyGrows_addTask people personId task completed⟩,
    othersUntouched_addSubTask people personId,
    othersUntouched_modifyActiveTask schedule people personId,
    othersUntouched_completeTask people personId,
    othersUntouched_completeSubTask people personId,
    othersUntouched_subTaskProgress people personId⟩

/-! ## Menus and reports at their failing inputs -/

/-- C21, evaluated at the failing inputs, on the catalog of five types with the
cyclic `get` of the specification.  UP at the first entry (index 0) sets the
index to 5, the length, which is outside `[0, 5)`, and the entry displayed for
it is the first one again, "Estudio", not the last one, "Ocio".  DOWN from the
last entry (index 4) also reaches the index 5, displayed as "Estudio"; the next
DOWN wraps to 0 and displays "Estudio" once more instead of its successor
"Hogar". -/
theorem C21_navigation_wraps_one_step_late :
    getLength exCatalog = 5 ∧
    selectTaskStep 5 0 .up = 5 ∧
    selectTask exCatalog 0 [.up] = .waiting 5 ∧
    selectTask exCatalog 0 [.up, .space] = .returned "Estudio" ∧
    (exCatalog.getLast?.map TaskType.name) = some "Ocio" ∧
    selectTask exCatalog 4 [.space] = .returned "Ocio" ∧
    selectTask exCatalog 4 [.down] = .waiting 5 ∧
    selectTask exCatalog 4 [.down, .space] = .returned "Estudio" ∧
    selectTask exCatalog 4 [.down, .down] = .waiting 0 ∧
    selectTask exCatalog 4 [.down, .down, .space] = .returned "Estudio" := by
  decide

/-- C24, evaluated at the failing input: Ana's active tasks are a study task
(id 1), a "Hogar" task (id 2) and a study task (id 3); the displayed list of
study tasks holds the tasks 1 and 3.  With the index 1 chosen there, the task
selected is the task 3, but `addSubTask` is called with the index 1 of the
whole active container, the "Hogar" task: the subtask is discarded and the
directory, the selected task 3 included, is as before. -/
theorem C24_index_of_displayed_list_used_on_whole_list :
    (Container.filter exAna.activeTasks
        (fun task => decide (task.type.name = "Estudio"))).map Task.id = [1, 3] ∧
    (get (Container.filter exAna.activeTasks
        (fun task => decide (task.type.name = "Estudio"))) 1).map Task.id = some 3 ∧
    (get exAna.activeTasks 1).map (fun task => task.type.name) = some "Hogar" ∧
    menuInsertSubtask [exAna] 7 1 ⟨"Cap1", "Leer", 10, false⟩ = some (.ok [exAna]) := by
  decide

/-- C25, evaluated at the failing input: Ana's active tasks carry the ids 1, 2,
3; asked for the task 3, option 6 lists the subtasks of the task 2, the second
task of the container: the search loop leaves after one step.  The tasks 1 and
2 are found. -/
theorem C25_search_stops_at_second_task :
    exAna.activeTasks.map Task.id = [1, 2, 3] ∧
    menuReportesOpcion6 exAna 3 =
      .subTareasDe ⟨2, "Barrer", "Bajo", exDate, exHogar, []⟩ ∧
    menuReportesOpcion6 exAna 2 =
      .subTareasDe ⟨2, "Barrer", "Bajo", exDate, exHogar, []⟩ ∧
    menuReportesOpcion6 exAna 1 =
      .subTareasDe ⟨1, "Examenes", "Medio", exDate, exEstudio, []⟩ := by
  decide

/-! ## The most common task type -/

/-- A name without an entry is not found by the search loop. -/
theorem buscarYContar_absent (taskTypeName : String) (tabla : List (String × Int))
    (h : taskTypeName ∉ tabla.map Prod.fst) : buscarYContar taskTypeName tabla = none := by
  induction tabla with
  | nil => rfl
  | cons entry rest ih =>
    obtain ⟨name, count⟩ := entry
    have hne : name ≠ taskTypeName := by
      intro heq
      exact h (by simp [heq])
    have hrest : taskTypeName ∉ rest.map Prod.fst := by
      intro hmem
      exact h (by simp only [List.map_cons, List.mem_cons]; exact Or.inr hmem)
    simp [buscarYContar, hne, ih hrest]

/-- A name with an entry, the names being distinct: its count is incremented,
nothing else changes. -/
theorem buscarYContar_present (taskTypeName : String) (tabla : List (String × Int))
    (hnodup : (tabla.map Prod.fst).Nodup) (h : taskTypeName ∈ tabla.map Prod.fst) :
    buscarYContar taskTypeName tabla =
      some (tabla.map
        (fun entry => if entry.1 = taskTypeName then (entry.1, entry.2 + 1) else entry)) := by
  induction tabla with
  | nil => simp at h
  | cons entry rest ih =>
    obtain ⟨name, count⟩ := entry
    simp only [List.map_cons, List.nodup_cons] at hnodup
    by_cases heq : name = taskTypeName
    · have hrest : rest.map
          (fun entry => if entry.1 = taskTypeName then (entry.1, entry.2 + 1) else entry) =
          rest := by
        have hall : ∀ e ∈ rest,
            (if e.1 = taskTypeName then (e.1, e.2 + 1) else e) = e := by
          intro e he
          have hne : e.1 ≠ taskTypeName := by
            intro hcontra
            apply hnodup.1
            rw [heq, ← hcontra]
            exact List.mem_map_of_mem _ he
          simp [hne]
        rw [List.map_congr_left hall, List.map_id']
      simp only [buscarYContar, heq, if_true, List.map_cons, hrest]
    · have hin : taskTypeName ∈ rest.map Prod.fst := by
        simp only [List.map_cons, List.mem_cons] at h
        rcases h with h | h
        · exact absurd h.symm heq
        · exact h
      simp only [buscarYContar, heq, if_false, ih hnodup.2 hin, List.map_cons]

/-- One more name read keeps the tally, and the array bound is not hit as long
as all names come from a list of at most `MAX_TASK_TYPES` names. -/
theorem registrarTipo_tallied {MAX_TASK_TYPES : Nat} {tabla : List (String × Int)}
    {done all : List String} (taskTypeName : String)
    (htally : Tallied tabla done) (hdone : ∀ name ∈ done, name ∈ all)
    (hname : taskTypeName ∈ all) (hall : all.length ≤ MAX_TASK_TYPES) :
    ∃ counted, registrarTipo MAX_TASK_TYPES tabla taskTypeName = some counted ∧
      Tallied counted (done ++ [taskTypeName]) := by
  obtain ⟨hnodup, hentries, hkeys⟩ := htally
  by_cases hin : taskTypeName ∈ tabla.map Prod.fst
  · refine ⟨tabla.map
        (fun entry => if entry.1 = taskTypeName then (entry.1, entry.2 + 1) else entry),
      by simp only [registrarTipo, buscarYContar_present _ _ hnodup hin], ?_, ?_, ?_⟩
    · have hsame : (tabla.map
          (fun entry => if entry.1 = taskTypeName then (entry.1, entry.2 + 1) else entry)).map
          Prod.fst = tabla.map Prod.fst := by
        rw [List.map_map]
        apply List.map_congr_left
        intro e _
        by_cases he : e.1 = taskTypeName <;> simp [he]
      rw [hsame]
      exact hnodup
    · intro entry hentry
      obtain ⟨e, he, hee⟩ := List.mem_map.mp hentry
      obtain ⟨hmem, hcount⟩ := hentries e he
      by_cases hname2 : e.1 = taskTypeName
      · simp only [hname2, if_true] at hee
        rw [← hee]
        refine ⟨by simp, ?_⟩
        simp only [List.count_append, List.count_singleton, beq_self_eq_true, if_true]
        rw [hcount, hname2]
        push_cast
        rfl
      · simp only [hname2, if_false] at hee
        rw [← hee]
        refine ⟨List.mem_append_left _ hmem, ?_⟩
        have hbeq : (taskTypeName == e.1) = false := by
          simp only [beq_eq_false_iff_ne, ne_eq]
          exact fun h => hname2 h.symm
        simp only [List.count_append, List.count_singleton, hbeq]
        simpa using hcount
    · intro name hmem
      have hsame : (tabla.map
          (fun entry => if entry.1 = taskTypeName then (entry.1, entry.2 + 1) else entry)).map
          Prod.fst = tabla.map Prod.fst := by
        rw [List.map_map]
        apply List.map_congr_left
        intro e _
        by_cases he : e.1 = taskTypeName <;> simp [he]
      rw [hsame]
      rcases List.mem_append.mp hmem with h | h
      · exact hkeys name h
      · simp only [List.mem_singleton] at h
        rw [h]
        exact hin
  · have hnotdone : taskTypeName ∉ done := fun h => hin (hkeys _ h)
    have hroom : ¬ tabla.length ≥ MAX_TASK_TYPES := by
      have hnodup2 : (taskTypeName :: tabla.map Prod.fst).Nodup :=
        List.nodup_cons.mpr ⟨hin, hnodup⟩
      have hsub : taskTypeName :: tabla.map Prod.fst ⊆ all := by
        intro x hx
        rcases List.mem_cons.mp hx with hx | hx
        · rw [hx]; exact hname
        · obtain ⟨e, he, hfst⟩ := List.mem_map.mp hx
          rw [← hfst]
          exact hdone _ (hentries e he).1
      have hlen := (List.subperm_of_subset hnodup2 hsub).length_le
      simp only [List.length_cons, List.length_map] at hlen
      omega
    refine ⟨tabla ++ [(taskTypeName, 1)],
      by simp only [registrarTipo, buscarYContar_absent _ _ hin, hroom, if_false], ?_, ?_, ?_⟩
    · rw [List.map_append, List.map_cons, List.map_nil]
      rw [List.nodup_append]
      refine ⟨hnodup, List.nodup_singleton _, ?_⟩
      intro x hx hx2
      simp only [List.mem_singleton] at hx2
      exact hin (hx2 ▸ hx)
    · intro entry hentry
      rcases List.mem_append.mp hentry with h | h
      · obtain ⟨hmem, hcount⟩ := hentries entry h
        refine ⟨List.mem_append_left _ hmem, ?_⟩
        have hne : entry.1 ≠ taskTypeName := by
          intro heq
          exact hin (heq ▸ List.mem_map_of_mem _ h)
        have hbeq : (taskTypeName == entry.1) = false := by
          simp only [beq_eq_false_iff_ne, ne_eq]
          exact fun h => hne h.symm
        simp only [List.count_append, List.count_singleton, hbeq]
        simpa using hcount
      · simp only [List.mem_singleton] at h
        rw [h]
        refine ⟨by simp, ?_⟩
        simp only [List.count_append, List.count_singleton, beq_self_eq_true, if_true,
          List.count_eq_zero_of_not_mem hnotdone]
        rfl
    · intro name hmem
      rw [List.map_append, List.map_cons, List.map_nil]
      rcases List.mem_append.mp hmem with h | h
      · exact List.mem_append_left _ (hkeys name h)
      · exact List.mem_append_right _ h

theorem contarTareas_tallied {MAX_TASK_TYPES : Nat} {all : List String}
    (hall : all.length ≤ MAX_TASK_TYPES) (tasks : List Task) :
    ∀ (tabla : List (String × Int)) (done : List String),
      Tallied tabla done → (∀ name ∈ done, name ∈ all) →
      (∀ task ∈ tasks, task.type.name ∈ all) →
      ∃ counted, contarTareas MAX_TASK_TYPES tabla tasks = some counted ∧
        Tallied counted (done ++ tasks.map (fun task => task.type.name)) := by
  induction tasks with
  | nil =>
    intro tabla done htally _ _
    exact ⟨tabla, rfl, by simpa using htally⟩
  | cons task rest ih =>
    intro tabla done htally hdone htasks
    obtain ⟨counted, hreg, htally2⟩ :=
      registrarTipo_tallied task.type.name htally hdone
        (htasks task (List.mem_cons_self _ _)) hall
    have hdone2 : ∀ name ∈ done ++ [task.type.name], name ∈ all := by
      intro name hname
      rcases List.mem_append.mp hname with h | h
      · exact hdone name h
      · simp only [List.mem_singleton] at h
        rw [h]
        exact htasks task (List.mem_cons_self _ _)
    obtain ⟨final, hrun, hfinal⟩ :=
      ih counted _ htally2 hdone2 (fun t ht => htasks t (List.mem_cons_of_mem _ ht))
    refine ⟨final, by simp only [contarTareas, hreg, hrun], ?_⟩
    simpa using hfinal

theorem contarPersonas_tallied {MAX_TASK_TYPES : Nat} {all : List String}
    (hall : all.length ≤ MAX_TASK_TYPES) (people : PersonList) :
    ∀ (tabla : List (String × Int)) (done : List String),
      Tallied tabla done → (∀ name ∈ done, name ∈ all) →
      (∀ name ∈ activeTypeNames people, name ∈ all) →
      ∃ counted, contarPersonas MAX_TASK_TYPES tabla people = some counted ∧
        Tallied counted (done ++ activeTypeNames people) := by
  induction people with
  | nil =>
    intro tabla done htally _ _
    exact ⟨tabla, rfl, by simpa [activeTypeNames] using htally⟩
  | cons person rest ih =>
    intro tabla done htally hdone hnames
    have hperson : ∀ task ∈ person.activeTasks, task.type.name ∈ all := by
      intro task htask
      apply hnames
      simp only [activeTypeNames, List.mem_append, List.mem_map]
      exact Or.inl ⟨task, htask, rfl⟩
    obtain ⟨counted, hrun, htally2⟩ :=
      contarTareas_tallied hall person.activeTasks tabla done htally hdone hperson
    have hdone2 : ∀ name ∈ done ++ person.activeTasks.map (fun task => task.type.name),
        name ∈ all := by
      intro name hname
      rcases List.mem_append.mp hname with h | h
      · exact hdone name h
      · obtain ⟨task, htask, hfst⟩ := List.mem_map.mp h
        rw [← hfst]
        exact hperson task htask
    obtain ⟨final, hrun2, hfinal⟩ := ih counted _ htally2 hdone2
      (fun name hname => hnames name (by
        simp only [activeTypeNames, List.mem_append]
        exact Or.inr hname))
    refine ⟨final, by simp only [contarPersonas, hrun, hrun2], ?_⟩
    simpa [activeTypeNames, List.append_assoc] using hfinal

/-- The loop for `maxCount` started at `init`: the result is at least `init` and
every count, and is `init` or one of the counts. -/
theorem foldl_max_spec (tabla : List (String × Int)) :
    ∀ init : Int,
      init ≤ tabla.foldl (fun m entry => if entry.2 > m then entry.2 else m) init ∧
      (∀ entry ∈ tabla,
        entry.2 ≤ tabla.foldl (fun m entry => if entry.2 > m then entry.2 else m) init) ∧
      (tabla.foldl (fun m entry => if entry.2 > m then entry.2 else m) init = init ∨
        ∃ entry ∈ tabla,
          entry.2 = tabla.foldl (fun m entry => if entry.2 > m then entry.2 else m) init) := by
  induction tabla with
  | nil => intro init; simp
  | cons e rest ih =>
    intro init
    simp only [List.foldl_cons]
    obtain ⟨h1, h2, h3⟩ := ih (if e.2 > init then e.2 else init)
    have hstep : init ≤ (if e.2 > init then e.2 else init) ∧
        e.2 ≤ (if e.2 > init then e.2 else init) := by
      split <;> omega
    refine ⟨le_trans hstep.1 h1, ?_, ?_⟩
    · intro entry hentry
      rcases List.mem_cons.mp hentry with h | h
      · rw [h]
        exact le_trans hstep.2 h1
      · exact h2 entry h
    · rcases h3 with h | ⟨entry, hentry, heq⟩
      · by_cases hgt : e.2 > init
        · right
          refine ⟨e, List.mem_cons_self _ _, ?_⟩
          rw [h, if_pos hgt]
        · left
          rw [h, if_neg hgt]
      · exact Or.inr ⟨entry, List.mem_cons_of_mem _ hentry, heq⟩

theorem activeTypeNames_eq_nil (people : PersonList) :
    activeTypeNames people = [] ↔ ∀ person ∈ people, person.activeTasks = [] := by
  induction people with
  | nil => simp [activeTypeNames]
  | cons person rest ih =>
    simp only [activeTypeNames, List.append_eq_nil, List.map_eq_nil_iff, ih,
      List.mem_cons, forall_eq_or_imp]

/-- Closed form of `commonTypeTask` when the active tasks use at most 100
distinct type names: the entries tally the type names of all active tasks. -/
theorem commonTypeTask_tallied (people : PersonList)
    (hmax : (activeTypeNames people).dedup.length ≤ 100) :
    ∃ tabla, contarPersonas 100 [] people = some tabla ∧
      Tallied tabla (activeTypeNames people) := by
  have hempty : Tallied [] [] := ⟨List.nodup_nil, by simp, by simp⟩
  obtain ⟨tabla, hrun, htally⟩ :=
    contarPersonas_tallied hmax people [] [] hempty (by simp)
      (fun name hname => List.mem_dedup.mpr hname)
  exact ⟨tabla, hrun, by simpa using htally⟩

/-- C28: for every directory in which the active tasks use at most 100 distinct
type names, `commonTypeTask` reports "No hay tareas activas" if and only if no
person has an active task; otherwise it reports a count and a list of type
names such that the list has no repetition, a name is in the list exactly when
it is the type name of some active task and no type name occurs more often
among all persons' active tasks, and the reported count is the number of
occurrences of each listed name, the maximum over all type names. -/
theorem C28_commonTypeTask_reports_most_common (people : PersonList)
    (hmax : (activeTypeNames people).dedup.length ≤ 100) :
    (commonTypeTask people = .noHayTareasActivas ↔
      ∀ person ∈ people, person.activeTasks = []) ∧
    ((∃ person ∈ people, person.activeTasks ≠ []) →
      ∃ count names,
        commonTypeTask people = .masComunes count names ∧
        names.Nodup ∧
        (∀ name, name ∈ names ↔
          (name ∈ activeTypeNames people ∧
            ∀ other, (activeTypeNames people).count other ≤
              (activeTypeNames people).count name)) ∧
        (∀ name ∈ names, ((activeTypeNames people).count name : Int) = count) ∧
        (∀ other, ((activeTypeNames people).count other : Int) ≤ count)) := by
  obtain ⟨tabla, hrun, hnodup, hentries, hkeys⟩ := commonTypeTask_tallied people hmax
  have hnil : tabla = [] ↔ activeTypeNames people = [] := by
    constructor
    · intro h
      apply List.eq_nil_iff_forall_not_mem.mpr
      intro name hname
      have := hkeys name hname
      rw [h] at this
      simp at this
    · intro h
      apply List.eq_nil_iff_forall_not_mem.mpr
      intro entry hentry
      have := (hentries entry hentry).1
      rw [h] at this
      simp at this
  have hreport : commonTypeTask people =
      if tabla.length > 0 then
        .masComunes (maxCount tabla)
          ((tabla.filter (fun entry => decide (entry.2 = maxCount tabla))).map Prod.fst)
      else .noHayTareasActivas := by
    simp only [commonTypeTask, hrun]
  refine ⟨?_, ?_⟩
  · rw [← activeTypeNames_eq_nil, ← hnil, hreport]
    constructor
    · intro h
      by_contra hne
      have hpos : tabla.length > 0 := List.length_pos.mpr hne
      rw [if_pos hpos] at h
      exact Informe.noConfusion h
    · intro h
      rw [h]
      rfl
  · intro hsome
    have hne : activeTypeNames people ≠ [] := by
      intro h
      obtain ⟨person, hperson, hact⟩ := hsome
      exact hact ((activeTypeNames_eq_nil people).mp h person hperson)
    have htne : tabla ≠ [] := fun h => hne (hnil.mp h)
    have hpos : tabla.length > 0 := List.length_pos.mpr htne
    obtain ⟨_, hle, hor⟩ := foldl_max_spec tabla 0
    have hge : ∀ entry ∈ tabla, 1 ≤ entry.2 := by
      intro entry hentry
      obtain ⟨hmem, hcount⟩ := hentries entry hentry
      have := List.count_pos_iff.mpr hmem
      rw [hcount]
      exact_mod_cast this
    obtain ⟨top, htop, htopeq⟩ : ∃ entry ∈ tabla, entry.2 = maxCount tabla := by
      rcases hor with h | h
      · obtain ⟨entry, hentry⟩ := List.exists_mem_of_ne_nil tabla htne
        have h1 := hge entry hentry
        have h2 := hle entry hentry
        rw [h] at h2
        omega
      · exact h
    have hcountle : ∀ other, ((activeTypeNames people).count other : Int) ≤ maxCount tabla := by
      intro other
      by_cases hother : other ∈ activeTypeNames people
      · obtain ⟨entry, hentry, hfst⟩ := List.mem_map.mp (hkeys other hother)
        have := hle entry hentry
        rw [(hentries entry hentry).2, hfst] at this
        exact this
      · rw [List.count_eq_zero_of_not_mem hother]
        have h1 := hge top htop
        rw [htopeq] at h1
        simp only [Nat.cast_zero]
        omega
    have hmem : ∀ name,
        name ∈ (tabla.filter (fun entry => decide (entry.2 = maxCount tabla))).map Prod.fst ↔
          name ∈ activeTypeNames people ∧
            ((activeTypeNames people).count name : Int) = maxCount tabla := by
      intro name
      constructor
      · intro h
        obtain ⟨entry, hentry, hfst⟩ := List.mem_map.mp h
        obtain ⟨hin, heq⟩ := List.mem_filter.mp hentry
        have heq2 : entry.2 = maxCount tabla := by simpa using heq
        obtain ⟨hdone, hcount⟩ := hentries entry hin
        rw [← hfst]
        exact ⟨hdone, by rw [← hcount, heq2]⟩
      · intro ⟨hin, hcount⟩
        obtain ⟨entry, hentry, hfst⟩ := List.mem_map.mp (hkeys name hin)
        refine List.mem_map.mpr ⟨entry, List.mem_filter.mpr ⟨hentry, ?_⟩, hfst⟩
        have := (hentries entry hentry).2
        rw [hfst, hcount] at this
        simpa using this
    refine ⟨maxCount tabla,
      (tabla.filter (fun entry => decide (entry.2 = maxCount tabla))).map Prod.fst,
      by rw [hreport, if_pos hpos], ?_, ?_, ?_, hcountle⟩
    · exact hnodup.sublist ((List.filter_sublist _).map Prod.fst)
    · intro name
      rw [hmem name]
      constructor
      · intro ⟨hin, hcount⟩
        refine ⟨hin, ?_⟩
        intro other
        have := hcountle other
        rw [← hcount] at this
        exact_mod_cast this
      · intro ⟨hin, hmaximal⟩
        refine ⟨hin, ?_⟩
        have h1 := hcountle name
        have h2 := hmaximal top.1
        have h3 := (hentries top htop).2
        have h4 : (((activeTypeNames people).count top.1 : Nat) : Int) ≤
            (((activeTypeNames people).count name : Nat) : Int) := by exact_mod_cast h2
        rw [← h3, htopeq] at h4
        omega
    · intro name hname
      exact ((hmem name).mp hname).2

/-- Witness of C28: in the directory of Ana and Eva the type "Hogar" occurs three
times, "Estudio" twice and "Ocio" once. -/
theorem C28_commonTypeTask_reports_most_common_witness :
    (commonTypeTask [exAna, exEva] = .noHayTareasActivas ↔
      ∀ person ∈ [exAna, exEva], person.activeTasks = []) ∧
    ((∃ person ∈ [exAna, exEva], person.activeTasks ≠ []) →
      ∃ count names,
        commonTypeTask [exAna, exEva] = .masComunes count names ∧
        names.Nodup ∧
        (∀ name, name ∈ names ↔
          (name ∈ activeTypeNames [exAna, exEva] ∧
            ∀ other, (activeTypeNames [exAna, exEva]).count other ≤
              (activeTypeNames [exAna, exEva]).count name)) ∧
        (∀ name ∈ names, ((activeTypeNames [exAna, exEva]).count name : Int) = count) ∧
        (∀ other, ((activeTypeNames [exAna, exEva]).count other : Int) ≤ count)) :=
  C28_commonTypeTask_reports_most_common [exAna, exEva] (by decide)

/-! ## No way back from the completed container -/

theorem moved_refl (person : Person) : person.Moved person :=
  ⟨rfl, [], by simp, List.Sublist.refl _, by simp⟩

theorem moved_trans {a b c : Person} (hab : a.Moved b) (hbc : b.Moved c) : a.Moved c := by
  obtain ⟨hid1, m1, hc1, hs1, hp1⟩ := hab
  obtain ⟨hid2, m2, hc2, hs2, hp2⟩ := hbc
  refine ⟨hid1.trans hid2, m1 ++ m2, ?_, hs2.trans hs1, ?_⟩
  · rw [hc2, hc1, List.append_assoc]
  · refine hp1.trans ?_
    simp only [List.map_append] at hp2 ⊢
    refine (hp2.append_right (m1.map Task.key)).trans ?_
    rw [List.append_assoc]
    exact List.Perm.append_left _ List.perm_append_comm

/-- A person whose completed container is kept and whose active tasks keep
their keys, place by place, has not moved any task. -/
theorem moved_of_keys {person person' : Person} (hid : person.id = person'.id)
    (hcompleted : person'.completedTasks = person.completedTasks)
    (hkeys : person'.activeTasks.map Task.key = person.activeTasks.map Task.key) :
    person.Moved person' := by
  refine ⟨hid, [], by simp [hcompleted], ?_, ?_⟩
  · rw [hkeys]
  · simp [hkeys]

theorem noWayBack_refl (people : PersonList) : NoWayBack people people := by
  induction people with
  | nil => exact List.Forall₂.nil
  | cons a people ih => exact List.Forall₂.cons (moved_refl a) ih

theorem noWayBack_trans :
    ∀ (p1 p2 p3 : PersonList), NoWayBack p1 p2 → NoWayBack p2 p3 → NoWayBack p1 p3 := by
  intro p1
  induction p1 with
  | nil =>
    intro p2 p3 h12 h23
    cases h12
    cases h23
    exact List.Forall₂.nil
  | cons a p1 ih =>
    intro p2 p3 h12 h23
    cases h12 with
    | cons hab h12 =>
      cases h23 with
      | cons hbc h23 => exact List.Forall₂.cons (moved_trans hab hbc) (ih _ _ h12 h23)

/-- A write through the pointer of the person found for `personId` that only
moves tasks. -/
theorem noWayBack_store {people : PersonList} {personId : Int} {person : Person}
    (person' : Person) (hp : findById people personId = some person)
    (hmoved : person.Moved person') :
    NoWayBack people (store people personId person') := by
  obtain ⟨ahead, behind, hpeople, hahead, hpid⟩ := findById_split hp
  rw [hpeople, store_append_cons ahead behind person person' personId hahead hpid]
  clear hpeople hahead hp
  induction ahead with
  | nil => exact List.Forall₂.cons hmoved (noWayBack_refl _)
  | cons a ahead ih => exact List.Forall₂.cons (moved_refl a) ih

/-- A write through `get(index)` that keeps the key keeps the list of keys. -/
theorem map_key_setAt {tasks : List Task} {taskIndex : Int} {task : Task} (task' : Task)
    (ht : get tasks taskIndex = some task) (hkey : task'.key = task.key) :
    (setAt tasks taskIndex task').map Task.key = tasks.map Task.key := by
  obtain ⟨pre, post, hl, _, _, hset⟩ := get_split ht
  rw [hset task']
  conv_rhs => rw [hl]
  simp [hkey]

/-- A write through `findById(id)` that keeps the key keeps the list of keys. -/
theorem map_key_store {tasks : List Task} {taskId : Int} {task : Task} (task' : Task)
    (ht : findById tasks taskId = some task) (hkey : task'.key = task.key) :
    (store tasks taskId task').map Task.key = tasks.map Task.key := by
  obtain ⟨pre, post, hl, hpre, hx⟩ := findById_split ht
  rw [hl, store_append_cons pre post task task' taskId hpre hx]
  simp [hkey]

namespace Container

/-- What `removeById` returns: the element it unlinks and the container around it. -/
theorem removeById_split {α : Type} [HasId α] {l : List α} {id : Int} {x : α}
    {rest : List α} (h : removeById l id = some (x, rest)) :
    ∃ pre post, l = pre ++ x :: post ∧ rest = pre ++ post := by
  induction l generalizing rest with
  | nil => simp [removeById] at h
  | cons a l ih =>
    by_cases ha : HasId.id a = id
    · simp only [removeById, ha, if_true, Option.some.injEq, Prod.mk.injEq] at h
      obtain ⟨h1, h2⟩ := h
      subst h1 h2
      exact ⟨[], l, rfl, rfl⟩
    · simp only [removeById, ha, if_false] at h
      cases hrec : removeById l id with
      | none => simp [hrec] at h
      | some pair =>
        obtain ⟨y, rest2⟩ := pair
        simp only [hrec, Option.some.injEq, Prod.mk.injEq] at h
        obtain ⟨h1, h2⟩ := h
        subst h1 h2
        obtain ⟨pre, post, hl, hrest⟩ := ih hrec
        exact ⟨a :: pre, post, by rw [hl]; rfl, by rw [hrest]; rfl⟩

end Container

/-- Unlinking a task from the active container and appending a task with its
key to the completed container moves that task. -/
theorem moved_of_split {person person' : Person} {pre post : List Task} {task task' : Task}
    (hid : person.id = person'.id)
    (hactive : person.activeTasks = pre ++ task :: post)
    (hactive' : person'.activeTasks = pre ++ post)
    (hcompleted : person'.completedTasks = person.completedTasks ++ [task'])
    (hkey : task'.key = task.key) : person.Moved person' := by
  refine ⟨hid, [task'], hcompleted, ?_, ?_⟩
  · rw [hactive, hactive']
    simp only [List.map_append, List.map_cons]
    exact List.Sublist.append_left (List.sublist_cons_self _ _) _
  · rw [hactive, hactive']
    simp only [List.map_append, List.map_cons, List.map_nil, hkey, List.append_assoc]
    exact List.Perm.append_left _ (List.perm_append_singleton _ _).symm

theorem noWayBack_addSubTask (people : PersonList) (personId taskIndex : Int)
    (subTask : SubTask) :
    NoWayBack people (addSubTask people personId taskIndex subTask).people := by
  cases hp : findById people personId with
  | none =>
    simp only [addSubTask, hp, Outcome.people]
    exact noWayBack_refl _
  | some person =>
    cases ht : Container.get person.activeTasks taskIndex with
    | none =>
      simp only [addSubTask, hp, ht, Outcome.people]
      exact noWayBack_refl _
    | some task =>
      by_cases hstudy : task.type.name = "Estudio"
      · simp only [addSubTask, hp, ht, hstudy, if_true, Outcome.people]
        exact noWayBack_store _ hp (moved_of_keys rfl rfl (map_key_setAt _ ht rfl))
      · simp only [addSubTask, hp, ht, hstudy, if_false, Outcome.people]
        exact noWayBack_refl _

theorem noWayBack_modifyActiveTask (schedule : Schedule) (people : PersonList)
    (personId taskIndex : Int) (newDate newTime : String) :
    NoWayBack people
      (modifyActiveTask schedule people personId taskIndex newDate newTime).people := by
  cases hp : findById people personId with
  | none =>
    simp only [modifyActiveTask, hp, Outcome.people]
    exact noWayBack_refl _
  | some person =>
    cases ht : Container.get person.activeTasks taskIndex with
    | none =>
      simp only [modifyActiveTask, hp, ht, Outcome.people]
      exact noWayBack_refl _
    | some task =>
      have hkeep : ∀ d : Tm, NoWayBack people (store people personId
          { person with
            activeTasks := setAt person.activeTasks taskIndex { task with date := d } }) :=
        fun d => noWayBack_store _ hp (moved_of_keys rfl rfl (map_key_setAt _ ht rfl))
      simp only [modifyActiveTask, hp, ht]
      cases (schedule.setDate task.date newDate).2 with
      | some what => exact hkeep _
      | none =>
        simp only
        cases (schedule.setTime (schedule.setDate task.date newDate).1 newTime).2 with
        | some what => exact hkeep _
        | none => exact hkeep _

theorem noWayBack_completeTask (people : PersonList) (personId taskId : Int) :
    NoWayBack people (completeTask people personId taskId).people := by
  cases hp : findById people personId with
  | none =>
    simp only [completeTask, hp, Outcome.people]
    exact noWayBack_refl _
  | some person =>
    cases hr : removeById person.activeTasks taskId with
    | none =>
      simp only [completeTask, hp, hr, Outcome.people]
      exact noWayBack_refl _
    | some pair =>
      obtain ⟨task, rest⟩ := pair
      obtain ⟨pre, post, hactive, hrest⟩ := removeById_split hr
      simp only [completeTask, hp, hr, Outcome.people]
      exact noWayBack_store _ hp (moved_of_split rfl hactive hrest rfl rfl)

theorem noWayBack_completeSubTask (people : PersonList)
    (personId taskId subTaskIndex : Int) :
    NoWayBack people (completeSubTask people personId taskId subTaskIndex).people := by
  cases hp : findById people personId with
  | none =>
    simp only [completeSubTask, hp, Outcome.people]
    exact noWayBack_refl _
  | some person =>
    cases ht : findById person.activeTasks taskId with
    | none =>
      simp only [completeSubTask, hp, ht, Outcome.people]
      exact noWayBack_refl _
    | some task =>
      cases hs : Container.get task.subTasks subTaskIndex with
      | none =>
        simp only [completeSubTask, hp, ht, hs, Outcome.people]
        exact noWayBack_refl _
      | some subTask =>
        simp only [completeSubTask, hp, ht, hs, Outcome.people]
        exact noWayBack_store _ hp (moved_of_keys rfl rfl (map_key_store _ ht rfl))

theorem noWayBack_subTaskProgress (people : PersonList)
    (personId taskId subTaskIndex : Int) (newProgress : Rat) :
    NoWayBack people
      (subTaskProgress people personId taskId subTaskIndex newProgress).people := by
  cases hp : findById people personId with
  | none =>
    simp only [subTaskProgress, hp, Outcome.people]
    exact noWayBack_refl _
  | some person =>
    cases ht : findById person.activeTasks taskId with
    | none =>
      simp only [subTaskProgress, hp, ht, Outcome.people]
      exact noWayBack_refl _
    | some task =>
      cases hs : Container.get task.subTasks subTaskIndex with
      | none =>
        simp only [subTaskProgress, hp, ht, hs, Outcome.people]
        exact noWayBack_refl _
      | some subTask =>
        have hkeep : NoWayBack people (store people personId
            { person with
              activeTasks := store person.activeTasks taskId
                { task with
                  subTasks := setAt task.subTasks subTaskIndex
                    { subTask with progress := newProgress,
                                   completed := decide (newProgress = 100) } } }) :=
          noWayBack_store _ hp (moved_of_keys rfl rfl (map_key_store _ ht rfl))
        simp only [subTaskProgress, hp, ht, hs]
        split
        · exact hkeep
        · exact noWayBack_trans _ _ _ hkeep (noWayBack_completeTask _ _ _)

/-- Operations that only move tasks bring no description into an active
container that was not there. -/
theorem activeFree_of_noWayBack {description : String} {people people' : PersonList}
    (h : NoWayBack people people') :
    ActiveFree description people → ActiveFree description people' := by
  have h' : List.Forall₂ Person.Moved people people' := h
  clear h
  induction h' with
  | nil => intro hfree; exact hfree
  | @cons person person' rest rest' hmoved _ ih =>
    intro hfree q hq a ha
    rcases List.mem_cons.mp hq with hq | hq
    · subst hq
      obtain ⟨_, moved, _, hsub, _⟩ := hmoved
      have hkey : a.key ∈ person.activeTasks.map Task.key :=
        hsub.subset (List.mem_map_of_mem _ ha)
      obtain ⟨b, hb, hbkey⟩ := List.mem_map.mp hkey
      have hdesc : b.description = a.description := congrArg (fun k => k.2.1) hbkey
      rw [← hdesc]
      exact hfree person (List.mem_cons_self _ _) b hb
    · exact ih (fun p hp => hfree p (List.mem_cons_of_mem _ hp)) q hq a ha

theorem activeFree_store {description : String} {people : PersonList}
    (hfree : ActiveFree description people) (personId : Int) {person' : Person}
    (hperson : ∀ task ∈ person'.activeTasks, task.description ≠ description) :
    ActiveFree description (store people personId person') := by
  intro q hq
  rcases mem_store hq with h | h
  · rw [h]; exact hperson
  · exact hfree q h

theorem activeFree_addTask {description : String} {people : PersonList}
    (hfree : ActiveFree description people) (personId : Int) (task : Task) (completed : Bool)
    (hother : completed = true ∨ task.description ≠ description) :
    ActiveFree description (addTask people personId task completed).people := by
  cases hp : findById people personId with
  | none =>
    simp only [addTask, hp, Outcome.people]
    exact hfree
  | some person =>
    have hperson := hfree person (mem_of_findById hp)
    cases completed with
    | true =>
      rw [addTask_completed_eq task hp]
      exact activeFree_store hfree personId hperson
    | false =>
      rw [addTask_active_eq task hp]
      refine activeFree_store hfree personId ?_
      intro a ha
      rcases List.mem_append.mp ha with ha | ha
      · exact hperson a ha
      · rw [List.mem_singleton.mp ha]
        rcases hother with h | h
        · exact absurd h (by simp)
        · exact h

theorem activeFree_step (schedule : Schedule) {description : String} {people : PersonList}
    (hfree : ActiveFree description people) (op : Op) (hop : ¬ op.addsActive description) :
    ActiveFree description (step schedule people op) := by
  cases op with
  | insertPerson id name lastname age =>
    intro q hq
    simp only [step, PersonList.insert, insertLast, List.mem_append, List.mem_singleton] at hq
    rcases hq with hq | hq
    · exact hfree q hq
    · rw [hq]
      intro a ha
      simp at ha
  | addTask personId given importance date type completed =>
    refine activeFree_addTask hfree personId _ completed ?_
    cases completed with
    | true => exact Or.inl rfl
    | false =>
      refine Or.inr ?_
      intro heq
      exact hop ⟨heq, rfl⟩
  | addSubTask personId taskIndex subTask =>
    exact activeFree_of_noWayBack (noWayBack_addSubTask _ _ _ _) hfree
  | modifyActiveTask personId taskIndex newDate newTime =>
    exact activeFree_of_noWayBack (noWayBack_modifyActiveTask _ _ _ _ _ _) hfree
  | completeTask personId taskId =>
    exact activeFree_of_noWayBack (noWayBack_completeTask _ _ _) hfree
  | completeSubTask personId taskId subTaskIndex =>
    exact activeFree_of_noWayBack (noWayBack_completeSubTask _ _ _ _) hfree
  | subTaskProgress personId taskId subTaskIndex newProgress =>
    exact activeFree_of_noWayBack (noWayBack_subTaskProgress _ _ _ _ _) hfree

theorem activeFree_run (schedule : Schedule) {description : String} (ops : List Op) :
    ∀ people, (∀ op ∈ ops, ¬ op.addsActive description) → ActiveFree description people →
      ActiveFree description (run schedule people ops) := by
  induction ops with
  | nil => intro people _ hfree; exact hfree
  | cons op ops ih =>
    intro people hops hfree
    exact ih _ (fun o ho => hops o (List.mem_cons_of_mem _ ho))
      (activeFree_step schedule hfree op (hops op (List.mem_cons_self _ _)))

/-- The first person with an id is still the first person with that id, with a
longer completed container, in a directory whose completed containers have only
grown. -/
theorem findById_completedOnlyGrows :
    ∀ {people people' : PersonList}, CompletedOnlyGrows people people' →
      ∀ {id : Int} {q : Person}, findById people id = some q →
        ∃ q', findById people' id = some q' ∧ q.completedTasks <+: q'.completedTasks := by
  intro people
  induction people with
  | nil => intro people' _ id q h; simp [findById] at h
  | cons a people ih =>
    intro people' hgrows id q h
    cases people' with
    | nil => exact absurd hgrows (by simp [CompletedOnlyGrows])
    | cons a' people' =>
      obtain ⟨hid, hpre, hrest⟩ := hgrows
      by_cases ha : a.id = id
      · have ha' : a'.id = id := hid ▸ ha
        have hq : a = q := by
          simpa [findById, HasId.id, ha] using h
        exact ⟨a', by simp [findById, HasId.id, ha'], hq ▸ hpre⟩
      · have ha' : ¬ a'.id = id := hid ▸ ha
        have hq : findById people id = some q := by
          simpa [findById, HasId.id, ha] using h
        obtain ⟨q', hq', hgrew⟩ := ih hrest hq
        exact ⟨q', by simpa [findById, HasId.id, ha'] using hq', hgrew⟩

/-- After `completeTask` has moved the only active task of the directory that
carries its description, no active task carries that description. -/
theorem activeFree_completeTask {people : PersonList} {personId taskId : Int}
    {person : Person} {task : Task}
    (hp : findById people personId = some person)
    (ht : findById person.activeTasks taskId = some task)
    (hone : ((people.flatMap Person.activeTasks).map Task.description).count
      task.description = 1) :
    ActiveFree task.description (completeTask people personId taskId).people := by
  obtain ⟨ahead, behind, hpeople, hahead, hpid⟩ := findById_split hp
  obtain ⟨pre, post, hact, hpre, hid⟩ := findById_split ht
  rw [completeTask_split hp hact hpre hid, hpeople,
    store_append_cons ahead behind person _ personId hahead hpid]
  rw [hpeople] at hone
  simp only [List.flatMap_append, List.flatMap_cons, hact, List.map_append, List.map_cons,
    List.count_append, List.count_cons, beq_self_eq_true, if_true] at hone
  have hzero : ∀ l : List Task, (l.map Task.description).count task.description = 0 →
      ∀ a ∈ l, a.description ≠ task.description := by
    intro l hl a ha heq
    exact (List.count_eq_zero.mp hl) (heq ▸ List.mem_map_of_mem _ ha)
  have hmem : ∀ (l : PersonList), ((l.flatMap Person.activeTasks).map Task.description).count
      task.description = 0 → ∀ q ∈ l, ∀ a ∈ q.activeTasks, a.description ≠ task.description := by
    intro l hl q hq a ha
    exact hzero _ hl a (List.mem_flatMap.mpr ⟨q, hq, ha⟩)
  intro q hq a ha
  simp only [Outcome.people, List.mem_append, List.mem_cons] at hq
  rcases hq with hq | hq | hq
  · exact hmem ahead (by omega) q hq a ha
  · rw [hq] at ha
    rcases List.mem_append.mp ha with ha | ha
    · exact hzero pre (by omega) a ha
    · exact hzero post (by omega) a ha
  · exact hmem behind (by omega) q hq a ha

/-- C13: no transition back.  For every state and every argument:
each of the six lifecycle operations, returning or throwing, and every sequence
of calls leaves every person at its position in the directory with the
completed container it had as a prefix of the completed container it has
afterwards (tasks are only ever appended to it, none is taken out);
each of the five operations other than `addTask` leaves, for every person, the
tasks that were active split one for one into the tasks still active, in their
order, and the tasks appended to the completed container (`NoWayBack`): a task
is never in both containers and no task enters the active container;
`addTask` leaves the directory as it was when the person is not found, and
otherwise puts the task it was handed, and nothing else, at the end of its
target container;
so, telling tasks apart by their description: a description that no active
task of the directory carries is carried by no active task after any sequence
of calls that hands no task with it to `addTask` for an active container; and
once `completeTask` has moved the only active task that carries its
description, after every such sequence of calls that task is still in the
completed container of the person, at the place it was appended to, and no
active task of the directory carries its description. -/
theorem C13_no_way_back (schedule : Schedule) (people : PersonList) :
    (∀ personId task completed,
      CompletedOnlyGrows people (addTask people personId task completed).people) ∧
    (∀ personId taskIndex subTask,
      CompletedOnlyGrows people (addSubTask people personId taskIndex subTask).people) ∧
    (∀ personId taskIndex newDate newTime,
      CompletedOnlyGrows people
        (modifyActiveTask schedule people personId taskIndex newDate newTime).people) ∧
    (∀ personId taskId,
      CompletedOnlyGrows people (completeTask people personId taskId).people) ∧
    (∀ personId taskId subTaskIndex,
      CompletedOnlyGrows people
        (completeSubTask people personId taskId subTaskIndex).people) ∧
    (∀ personId taskId subTaskIndex newProgress,
      CompletedOnlyGrows people
        (subTaskProgress people personId taskId subTaskIndex newProgress).people) ∧
    (∀ ops, CompletedOnlyGrows people (run schedule people ops)) ∧
    (∀ personId taskIndex subTask,
      NoWayBack people (addSubTask people personId taskIndex subTask).people) ∧
    (∀ personId taskIndex newDate newTime,
      NoWayBack people
        (modifyActiveTask schedule people personId taskIndex newDate newTime).people) ∧
    (∀ personId taskId,
      NoWayBack people (completeTask people personId taskId).people) ∧
    (∀ personId taskId subTaskIndex,
      NoWayBack people (completeSubTask people personId taskId subTaskIndex).people) ∧
    (∀ personId taskId subTaskIndex newProgress,
      NoWayBack people
        (subTaskProgress people personId taskId subTaskIndex newProgress).people) ∧
    (∀ personId task completed,
      findById people personId = none →
      (addTask people personId task completed).people = people) ∧
    (∀ personId task completed person,
      findById people personId = some person →
      ∃ newId,
        (addTask people personId task completed).people =
          store people personId
            (if completed then
              { person with
                completedTasks := person.completedTasks ++ [{ task with id := newId }] }
            else
              { person with
                activeTasks := person.activeTasks ++ [{ task with id := newId }] })) ∧
    (∀ description ops,
      (∀ op ∈ ops, ¬ Op.addsActive description op) →
      ActiveFree description people →
      ActiveFree description (run schedule people ops)) ∧
    (∀ personId taskId person task ops,
      findById people personId = some person →
      findById person.activeTasks taskId = some task →
      ((people.flatMap Person.activeTasks).map Task.description).count task.description = 1 →
      (∀ op ∈ ops, ¬ Op.addsActive task.description op) →
      ActiveFree task.description
        (run schedule (completeTask people personId taskId).people ops) ∧
      ∃ person',
        findById (run schedule (completeTask people personId taskId).people ops) personId =
          some person' ∧
        person.completedTasks ++ [task] <+: person'.completedTasks) := by
  refine ⟨completedOnlyGrows_addTask people, completedOnlyGrows_addSubTask people,
    completedOnlyGrows_modifyActiveTask schedule people,
    completedOnlyGrows_completeTask people, completedOnlyGrows_completeSubTask people,
    completedOnlyGrows_subTaskProgress people,
    fun ops => completedOnlyGrows_run schedule ops people,
    noWayBack_addSubTask people, noWayBack_modifyActiveTask schedule people,
    noWayBack_completeTask people, noWayBack_completeSubTask people,
    noWayBack_subTaskProgress people, ?_, ?_, ?_, ?_⟩
  · intro personId task completed hp
    simp only [addTask, hp, Outcome.people]
  · intro personId task completed person hp
    cases completed with
    | true =>
      exact ⟨(person.completedTasks.getLast?.map Task.id).getD 0 + 1,
        by rw [addTask_completed_eq task hp]; simp [Outcome.people]⟩
    | false =>
      exact ⟨(person.activeTasks.getLast?.map Task.id).getD 0 + 1,
        by rw [addTask_active_eq task hp]; simp [Outcome.people]⟩
  · intro description ops hops hfree
    exact activeFree_run schedule ops people hops hfree
  · intro personId taskId person task ops hp ht hone hops
    refine ⟨activeFree_run schedule ops _ hops (activeFree_completeTask hp ht hone), ?_⟩
    obtain ⟨pre, post, hact, hpre, hid⟩ := findById_split ht
    have hpid : person.id = personId := findById_id hp
    have hfound : findById (completeTask people personId taskId).people personId =
        some { person with
               activeTasks := pre ++ post,
               completedTasks := person.completedTasks ++ [task] } := by
      rw [completeTask_split hp hact hpre hid]
      exact findById_store _ hp hpid
    exact findById_completedOnlyGrows (completedOnlyGrows_run schedule ops _) hfound

/-- Witness of C13: Ana's task "Barrer" (id 2) is completed; afterwards a task is
added, a subtask is inserted, the task 1 is completed, a person is registered
and a task "Barrer" is added to the completed container. -/
theorem C13_no_way_back_witness :
    ActiveFree "Barrer" (run exSchedule (completeTask [exAna] 7 2).people exAfter) ∧
    ∃ person',
      findById (run exSchedule (completeTask [exAna] 7 2).people exAfter) 7 = some person' ∧
      exAna.completedTasks ++ [(⟨2, "Barrer", "Bajo", exDate, exHogar, []⟩ : Task)] <+:
        person'.completedTasks := by
  obtain ⟨_, _, _, _, _, _, _, _, _, _, _, _, _, _, _, hpath⟩ :=
    C13_no_way_back exSchedule [exAna]
  exact hpath 7 2 exAna ⟨2, "Barrer", "Bajo", exDate, exHogar, []⟩ exAfter
    (by decide) (by decide) (by decide) (by decide)

end TaskManager
